import Mathlib

/-! Departure-board timetable: a shallow embedding of `src/17.go`.

The embedding follows the Go source function by function.

* `time.Time` is an instant; only `Before`, `After` and `Add` are used by the
  timetable core, so an instant is modelled by its (unbounded) count of
  nanoseconds.  `time.Duration` is a count of nanoseconds as well.
* A Go slice `[]Stop` is modelled by the list of its elements (a nil slice and
  an empty slice are both the empty list).
* The Go map `map[string]StopByTime` is modelled by its lookup function: a key
  is present exactly when the lookup is `some`.  A `for ... range` loop over a
  map visits every entry exactly once in an unspecified order; the order is an
  explicit argument of the embedded loop (see `RangeOrder`).
* `sort.Sort` belongs to the Go standard library, not to this repository.  The
  functions that call it take the sorting routine as an argument `sortSort`;
  `SortContract` states the documented contract of `sort.Sort` in terms of the
  `Less` method of `StopByTime`, and `sort_Sort` below is a model of the
  implementation shipped with Go 1.19 and later (pattern-defeating quicksort),
  proved to meet that contract (`goSort_contract`).
* Values do not show which backing array a slice lives in.  The functions on the
  path of `getSlicedTimetable` are therefore embedded a second time on an explicit
  memory (`Memory`), where the in-place writes of `append` and of `sort.Sort` are
  visible; `Memory.getSlicedTimetable_refines` relates the two embeddings.
-/

namespace Srm17

/-! ## Time -/

/-- Go `time.Duration`: a signed count of nanoseconds. -/
abbrev Duration := Int

/-- Go `time.Second`. -/
def Second : Duration := 1000000000

/-- Go `time.Minute`. -/
def Minute : Duration := 60 * Second

/-- Go `time.Time`, reduced to the instant it denotes, in nanoseconds. -/
structure Time where
  nsec : Int
deriving DecidableEq, Repr

/-- Go `t.Before(u)`: the instant `t` is strictly earlier than `u`. -/
def Time.Before (t u : Time) : Bool := decide (t.nsec < u.nsec)

/-- Go `t.After(u)`: the instant `t` is strictly later than `u`. -/
def Time.After (t u : Time) : Bool := decide (u.nsec < t.nsec)

/-- Go `t.Add(d)`. -/
def Time.Add (t : Time) (d : Duration) : Time := ⟨t.nsec + d⟩

/-- The instant `h:m` of the reference day, as `time.Parse("15:04", _)` builds it. -/
def clock (h m : Nat) : Time := ⟨((h : Int) * 60 + (m : Int)) * Minute⟩

/-! ## Stops and `StopByTime` -/

/-- Go `type Stop struct`. -/
structure Stop where
  StationName : String
  Time : Time
  RouteName : String
deriving DecidableEq, Repr

/-- Go `type StopByTime []Stop`. -/
abbrev StopByTime := List Stop

/-- Go `func (s StopByTime) Len() int`. -/
def StopByTime.Len (s : StopByTime) : Nat := s.length

/-- Go `func (s StopByTime) Less(i, j int) bool`; `none` is the index-out-of-range panic. -/
def StopByTime.Less (s : StopByTime) (i j : Nat) : Option Bool :=
  match s[i]?, s[j]? with
  | some x, some y => some (x.Time.Before y.Time)
  | _, _ => none

/-- Go `func (s StopByTime) Swap(i, j int)`; `none` is the index-out-of-range panic. -/
def StopByTime.Swap (s : StopByTime) (i j : Nat) : Option StopByTime :=
  match s[i]?, s[j]? with
  | some x, some y => some ((s.set i y).set j x)
  | _, _ => none

/-! ## `sort.Sort` (Go standard library, package `sort`)

`sort.Sort(data)` sorts in place through the methods `Len`, `Less` and `Swap` of `data`.
Its documentation: "Sort sorts data in ascending order as determined by the Less method.
[...] The sort is not guaranteed to be stable."  The definitions below follow the
implementation of Go 1.19 and later (`sort/zsortinterface.go`), specialised to
`StopByTime`; the slice is passed and returned explicitly, and `none` stands for a panic
or for a loop that did not finish within its iteration budget. -/

/-- A Go `for cond { body }` loop on the state `σ`, run for at most `fuel` tests of `cond`. -/
def forLoop {σ : Type} (cond : σ → Option Bool) (body : σ → Option σ) : Nat → σ → Option σ
  | 0, _ => none
  | fuel + 1, s =>
    match cond s with
    | none => none
    | some false => some s
    | some true =>
      match body s with
      | none => none
      | some s' => forLoop cond body fuel s'

/-- Go `insertionSort(data, a, b)`: sorts `data[a:b]` by insertion. -/
def insertionSort (data : StopByTime) (a b : Nat) : Option StopByTime :=
  let fuel := data.length + 1
  (forLoop (σ := Nat × StopByTime)
    (fun st => some (decide (st.1 < b)))
    (fun st =>
      (forLoop (σ := Nat × StopByTime)
        (fun js => if js.1 > a then js.2.Less js.1 (js.1 - 1) else some false)
        (fun js => (js.2.Swap js.1 (js.1 - 1)).map (fun d => (js.1 - 1, d)))
        fuel (st.1, st.2)).map (fun js => (st.1 + 1, js.2)))
    fuel (a + 1, data)).map Prod.snd

/-- Go `siftDown(data, lo, hi, first)`; the state of the loop is `(root, data)`. -/
def siftDown (data : StopByTime) (lo hi first : Nat) : Option StopByTime :=
  let rec go : Nat → Nat → StopByTime → Option StopByTime
    | 0, _, _ => none
    | fuel + 1, root, data =>
      let child := 2 * root + 1
      if child ≥ hi then some data
      else do
        let child ←
          if child + 1 < hi then do
            let l ← data.Less (first + child) (first + child + 1)
            pure (if l then child + 1 else child)
          else pure child
        let l ← data.Less (first + root) (first + child)
        if !l then pure data
        else do
          let data ← data.Swap (first + root) (first + child)
          go fuel child data
  go (hi + 1) lo data

/-- Go `heapSort(data, a, b)`. -/
def heapSort (data : StopByTime) (a b : Nat) : Option StopByTime :=
  let first := a
  let lo := 0
  let hi := b - a
  -- for i := (hi - 1) / 2; i >= 0; i-- { siftDown(data, i, hi, first) }
  let rec build : Nat → StopByTime → Option StopByTime
    | 0, data => siftDown data 0 hi first
    | i + 1, data => do
      let data ← siftDown data (i + 1) hi first
      build i data
  -- for i := hi - 1; i >= 0; i-- { data.Swap(first, first+i); siftDown(data, lo, i, first) }
  let rec pop : Nat → StopByTime → Option StopByTime
    | 0, data => some data
    | i + 1, data => do
      let data ← data.Swap first (first + i)
      let data ← siftDown data lo i first
      pop i data
  do
    let data ← build ((hi - 1) / 2) data
    pop hi data

/-- Go `partition(data, a, b, pivot)`: the slice, `newpivot` and `alreadyPartitioned`. -/
def partition (data : StopByTime) (a b pivot : Nat) : Option (StopByTime × Nat × Bool) :=
  let fuel := data.length + 2
  -- for i <= j && data.Less(i, a) { i++ }
  let up (data : StopByTime) (i j : Nat) : Option Nat :=
    (forLoop (σ := Nat)
      (fun i => if i ≤ j then data.Less i a else some false)
      (fun i => some (i + 1)) fuel i)
  -- for i <= j && !data.Less(j, a) { j-- }
  let down (data : StopByTime) (i j : Nat) : Option Nat :=
    (forLoop (σ := Nat)
      (fun j => if i ≤ j then (data.Less j a).map (fun l => !l) else some false)
      (fun j => some (j - 1)) fuel j)
  do
    let data ← data.Swap a pivot
    let i ← up data (a + 1) (b - 1)
    let j ← down data i (b - 1)
    if i > j then
      let data ← data.Swap j a
      pure (data, j, true)
    else
      let data ← data.Swap i j
      let st ← forLoop (σ := Nat × Nat × StopByTime × Bool)
        (fun st => some (!st.2.2.2))
        (fun st => do
          let i ← up st.2.2.1 st.1 st.2.1
          let j ← down st.2.2.1 i st.2.1
          if i > j then pure (i, j, st.2.2.1, true)
          else
            let data ← st.2.2.1.Swap i j
            pure (i + 1, j - 1, data, false))
        fuel (i + 1, j - 1, data, false)
      let data ← st.2.2.1.Swap st.2.1 a
      pure (data, st.2.1, false)

/-- Go `partitionEqual(data, a, b, pivot)`: the slice and `newpivot`. -/
def partitionEqual (data : StopByTime) (a b pivot : Nat) : Option (StopByTime × Nat) :=
  let fuel := data.length + 2
  do
    let data ← data.Swap a pivot
    let st ← forLoop (σ := Nat × Nat × StopByTime × Bool)
      (fun st => some (!st.2.2.2))
      (fun st => do
        -- for i <= j && !data.Less(a, i) { i++ }
        let i ← forLoop (σ := Nat)
          (fun i => if i ≤ st.2.1 then (st.2.2.1.Less a i).map (fun l => !l) else some false)
          (fun i => some (i + 1)) fuel st.1
        -- for i <= j && data.Less(a, j) { j-- }
        let j ← forLoop (σ := Nat)
          (fun j => if i ≤ j then st.2.2.1.Less a j else some false)
          (fun j => some (j - 1)) fuel st.2.1
        if i > j then pure (i, j, st.2.2.1, true)
        else
          let data ← st.2.2.1.Swap i j
          pure (i + 1, j - 1, data, false))
      fuel (a + 1, b - 1, data, false)
    pure (st.2.2.1, st.1)

/-- Go `partialInsertionSort(data, a, b)`: the slice, and whether it is sorted at the end. -/
def partialInsertionSort (data : StopByTime) (a b : Nat) : Option (StopByTime × Bool) :=
  let fuel := data.length + 2
  let maxSteps := 5
  let shortestShifting := 50
  let rec steps : Nat → Nat → StopByTime → Option (StopByTime × Bool)
    | 0, _, data => some (data, false)
    | n + 1, i, data => do
      -- for i < b && !data.Less(i, i-1) { i++ }
      let i ← forLoop (σ := Nat)
        (fun i => if i < b then (data.Less i (i - 1)).map (fun l => !l) else some false)
        (fun i => some (i + 1)) fuel i
      if i = b then pure (data, true)
      else if b - a < shortestShifting then pure (data, false)
      else
        let data ← data.Swap i (i - 1)
        -- Shift the smaller one to the left.
        let data ←
          if i - a ≥ 2 then
            (forLoop (σ := Nat × StopByTime)
              (fun js => if js.1 ≥ 1 then js.2.Less js.1 (js.1 - 1) else some false)
              (fun js => (js.2.Swap js.1 (js.1 - 1)).map (fun d => (js.1 - 1, d)))
              fuel (i - 1, data)).map Prod.snd
          else pure data
        -- Shift the greater one to the right.
        let data ←
          if b - i ≥ 2 then
            (forLoop (σ := Nat × StopByTime)
              (fun js => if js.1 < b then js.2.Less js.1 (js.1 - 1) else some false)
              (fun js => (js.2.Swap js.1 (js.1 - 1)).map (fun d => (js.1 + 1, d)))
              fuel (i + 1, data)).map Prod.snd
          else pure data
        steps n i data
  steps maxSteps (a + 1) data

/-- Go `bits.Len(x)`: the number of bits needed to write `x`. -/
def bitsLen (x : Nat) : Nat := if x = 0 then 0 else Nat.log2 x + 1

/-- Go `(*xorshift).Next` on a `uint64` state: the new state, which is also the value returned. -/
def xorshiftNext (r : Nat) : Nat :=
  let r := r ^^^ ((r <<< 13) % 2 ^ 64)
  let r := r ^^^ (r >>> 7)
  r ^^^ ((r <<< 17) % 2 ^ 64)

/-- Go `nextPowerOfTwo(length)`. -/
def nextPowerOfTwo (length : Nat) : Nat := 1 <<< bitsLen length

/-- Go `breakPatterns(data, a, b)`. -/
def breakPatterns (data : StopByTime) (a b : Nat) : Option StopByTime :=
  let length := b - a
  if length ≥ 8 then
    let modulus := nextPowerOfTwo length
    let idx := a + (length / 4) * 2 - 1
    (forLoop (σ := Nat × Nat × StopByTime)
      (fun st => some (decide (st.1 < 3)))
      (fun st => do
        let random := xorshiftNext st.2.1
        let other := random &&& (modulus - 1)
        let other := if other ≥ length then other - length else other
        let data ← st.2.2.Swap (idx + st.1) (a + other)
        pure (st.1 + 1, random, data))
      4 (0, length % 2 ^ 64, data)).map (fun st => st.2.2)
  else some data

/-- Go `type sortedHint int`. -/
inductive sortedHint where
  | unknownHint
  | increasingHint
  | decreasingHint
deriving DecidableEq, Repr

/-- Go `order2(data, a, b, swaps)`: the pair returned and the updated `*swaps`. -/
def order2 (data : StopByTime) (a b swaps : Nat) : Option (Nat × Nat × Nat) := do
  let l ← data.Less b a
  if l then pure (b, a, swaps + 1) else pure (a, b, swaps)

/-- Go `median(data, a, b, c, swaps)`: the index returned and the updated `*swaps`. -/
def median (data : StopByTime) (a b c swaps : Nat) : Option (Nat × Nat) := do
  let (a, b, swaps) ← order2 data a b swaps
  let (b, _, swaps) ← order2 data b c swaps
  let (_, b, swaps) ← order2 data a b swaps
  pure (b, swaps)

/-- Go `medianAdjacent(data, a, swaps)`. -/
def medianAdjacent (data : StopByTime) (a swaps : Nat) : Option (Nat × Nat) :=
  median data (a - 1) a (a + 1) swaps

/-- Go `choosePivot(data, a, b)`. -/
def choosePivot (data : StopByTime) (a b : Nat) : Option (Nat × sortedHint) :=
  let shortestNinther := 50
  let maxSwaps := 4 * 3
  let l := b - a
  let i := a + l / 4 * 1
  let j := a + l / 4 * 2
  let k := a + l / 4 * 3
  do
    let (j, swaps) ←
      if l ≥ 8 then do
        let (i, j, k, swaps) ←
          if l ≥ shortestNinther then do
            let (i, swaps) ← medianAdjacent data i 0
            let (j, swaps) ← medianAdjacent data j swaps
            let (k, swaps) ← medianAdjacent data k swaps
            pure (i, j, k, swaps)
          else pure (i, j, k, 0)
        median data i j k swaps
      else pure (j, 0)
    if swaps = 0 then pure (j, sortedHint.increasingHint)
    else if swaps = maxSwaps then pure (j, sortedHint.decreasingHint)
    else pure (j, sortedHint.unknownHint)

/-- Go `reverseRange(data, a, b)`. -/
def reverseRange (data : StopByTime) (a b : Nat) : Option StopByTime :=
  (forLoop (σ := Nat × Nat × StopByTime)
    (fun st => some (decide (st.1 < st.2.1)))
    (fun st => (st.2.2.Swap st.1 st.2.1).map (fun d => (st.1 + 1, st.2.1 - 1, d)))
    (data.length + 1) (a, b - 1, data)).map (fun st => st.2.2)

/-- Go `pdqsort(data, a, b, limit)`.  The two extra flags are the local variables
`wasBalanced` and `wasPartitioned`: both start `true` in a call, and keep their values from
one iteration of the `for` loop to the next, which the model enters as a call of its own. -/
def pdqsort : Nat → StopByTime → Nat → Nat → Nat → Bool → Bool → Option StopByTime
  | 0, _, _, _, _, _, _ => none
  | fuel + 1, data, a, b, limit, wasBalanced, wasPartitioned =>
    let maxInsertion := 12
    let length := b - a
    if length ≤ maxInsertion then insertionSort data a b
    else if limit = 0 then heapSort data a b
    else do
      let (data, limit) ←
        if !wasBalanced then (breakPatterns data a b).map (fun d => (d, limit - 1))
        else pure (data, limit)
      let (pivot, hint) ← choosePivot data a b
      let (data, pivot, hint) ←
        if hint = sortedHint.decreasingHint then
          (reverseRange data a b).map
            (fun d => (d, (b - 1) - (pivot - a), sortedHint.increasingHint))
        else pure (data, pivot, hint)
      let (data, sorted) ←
        if wasBalanced && wasPartitioned && hint = sortedHint.increasingHint then
          partialInsertionSort data a b
        else pure (data, false)
      if sorted then pure data
      else
        let dup ← if a > 0 then (data.Less (a - 1) pivot).map (fun l => !l) else pure false
        if dup then
          let (data, mid) ← partitionEqual data a b pivot
          pdqsort fuel data mid b limit wasBalanced wasPartitioned
        else
          let (data, mid, alreadyPartitioned) ← partition data a b pivot
          let leftLen := mid - a
          let rightLen := b - mid
          let balanceThreshold := length / 8
          if leftLen < rightLen then
            let data ← pdqsort fuel data a mid limit true true
            pdqsort fuel data (mid + 1) b limit (decide (leftLen ≥ balanceThreshold))
              alreadyPartitioned
          else
            let data ← pdqsort fuel data (mid + 1) b limit true true
            pdqsort fuel data a mid limit (decide (rightLen ≥ balanceThreshold))
              alreadyPartitioned

/-- Go `sort.Sort(data)` for a `StopByTime`: the slice after the call. -/
def sort_Sort (data : StopByTime) : Option StopByTime :=
  let n := data.Len
  if n ≤ 1 then some data
  else
    let limit := bitsLen n
    pdqsort (n + 1) data 0 n limit true true

/-- The slice left by `sort.Sort(data)`; the slice is left as it was where `sort_Sort`
gives no result. -/
def goSort (data : StopByTime) : StopByTime := (sort_Sort data).getD data

/-! ## Timetable -/

/-- Go `map[string]StopByTime`, by its lookup function. -/
abbrev StationMap := String → Option StopByTime

/-- Go `type Timetable struct`. -/
structure Timetable where
  From : Time
  To : Time
  StopsPerStation : StationMap

/-- Go `m[k]` on a `map[string]StopByTime`: the zero value (nil slice) when `k` is absent. -/
def StationMap.index (m : StationMap) (k : String) : StopByTime := (m k).getD []

/-- Go `m[k] = v`. -/
def StationMap.assign (m : StationMap) (k : String) (v : StopByTime) : StationMap :=
  fun k' => if k' = k then some v else m k'

/-- Go `func NewTimetable(from time.Time, to time.Time) *Timetable`. -/
def NewTimetable (from_ to_ : Time) : Timetable :=
  { StopsPerStation := fun _ => none, From := from_, To := to_ }

/-- Go `func (self *Timetable) addStation(station string) string`:
the receiver after the call, and the returned name. -/
def Timetable.addStation (self : Timetable) (station : String) : Timetable × String :=
  ({ self with StopsPerStation := self.StopsPerStation.assign station [] }, station)

/-- Go `func (self *Timetable) addStop(route string, station string, time time.Time) Stop`:
the receiver after the call, and the returned stop.  The test `stops == nil` holds when
the station is absent; a station stored with a nil slice would also take that branch, and
`addStation` then stores the empty list it already denotes. -/
def Timetable.addStop (self : Timetable) (route station : String) (time : Time) :
    Timetable × Stop :=
  let self1 : Timetable :=
    match self.StopsPerStation station with
    | none => (self.addStation station).1
    | some _ => self
  let newStop : Stop := { RouteName := route, StationName := station, Time := time }
  ({ self1 with StopsPerStation :=
      self1.StopsPerStation.assign station (self1.StopsPerStation.index station ++ [newStop]) },
   newStop)

/-- Go `func getStopsBetween(stops []Stop, from time.Time, to time.Time) StopByTime`:
the loop appends to `result`, starting from the empty slice. -/
def getStopsBetween (stops : List Stop) (from_ to_ : Time) : StopByTime :=
  let fromLimit := from_.Add (Minute * -1)
  let toLimit := to_.Add (Minute * 1)
  stops.foldl
    (fun result stop =>
      if stop.Time.After fromLimit && stop.Time.Before toLimit then result ++ [stop]
      else result)
    []

/-- The keys a `for station, stops := range m` loop visits, in the order it visits them:
every key of `m` exactly once. -/
def RangeOrder (m : StationMap) (order : List String) : Prop :=
  order.Nodup ∧ ∀ s, s ∈ order ↔ (m s).isSome = true

/-- Go `func (self *Timetable) getSlicedTimetable(from time.Time, to time.Time) *Timetable`.
`sortSort` is `sort.Sort` on a `StopByTime`; `order` is the order in which the `range` loop
visits the stations of the receiver, `stops` being the value stored under `station`. -/
def Timetable.getSlicedTimetable (sortSort : StopByTime → StopByTime) (self : Timetable)
    (order : List String) (from_ to_ : Time) : Timetable :=
  order.foldl
    (fun slicedTimetable station =>
      let stops := self.StopsPerStation.index station
      let stopsToSort := sortSort (getStopsBetween stops from_ to_)
      { slicedTimetable with
        StopsPerStation := slicedTimetable.StopsPerStation.assign station stopsToSort })
    (NewTimetable from_ to_)

/-- The arguments of one call `addStop(route, station, time)`. -/
structure AddStopCall where
  route : String
  station : String
  time : Time
deriving DecidableEq, Repr

/-- The stop that `addStop` builds from its arguments. -/
def AddStopCall.stop (c : AddStopCall) : Stop :=
  { RouteName := c.route, StationName := c.station, Time := c.time }

/-- The receiver after a sequence of `addStop` calls, made one after the other. -/
def Timetable.addStops (self : Timetable) (calls : List AddStopCall) : Timetable :=
  calls.foldl (fun t c => (t.addStop c.route c.station c.time).1) self

/-- The timetable built by `TestGetSlicedTimetable` in `src/17_test.go`. -/
def testTimetable : Timetable :=
  (NewTimetable (clock 0 0) (clock 23 59)).addStops
    [⟨"London-Norwich", "Stevenage", clock 10 0⟩,
     ⟨"London-Norwich", "Baldock", clock 11 0⟩,
     ⟨"London-Cambridge", "Baldock", clock 11 0⟩,
     ⟨"London-Norwich", "Ipswitch", clock 12 0⟩]

/-- One station with thirteen departures: twelve at 11:00, stored first, then one at 10:00. -/
def busyBaldock : Timetable :=
  (NewTimetable (clock 0 0) (clock 23 59)).addStops
    [⟨"Line-00", "Baldock", clock 11 0⟩, ⟨"Line-01", "Baldock", clock 11 0⟩,
     ⟨"Line-02", "Baldock", clock 11 0⟩, ⟨"Line-03", "Baldock", clock 11 0⟩,
     ⟨"Line-04", "Baldock", clock 11 0⟩, ⟨"Line-05", "Baldock", clock 11 0⟩,
     ⟨"Line-06", "Baldock", clock 11 0⟩, ⟨"Line-07", "Baldock", clock 11 0⟩,
     ⟨"Line-08", "Baldock", clock 11 0⟩, ⟨"Line-09", "Baldock", clock 11 0⟩,
     ⟨"Line-10", "Baldock", clock 11 0⟩, ⟨"Line-11", "Baldock", clock 11 0⟩,
     ⟨"Early", "Baldock", clock 10 0⟩]

/-- An instant is a whole minute: it has no seconds and no sub-second part. -/
def wholeMinute (t : Time) : Prop := t.nsec % Minute = 0

instance (t : Time) : Decidable (wholeMinute t) :=
  inferInstanceAs (Decidable (t.nsec % Minute = 0))

/-- The instant `t` lies in the closed interval `[from_, to_]`. -/
def inWindow (from_ to_ : Time) (t : Time) : Prop := from_.nsec ≤ t.nsec ∧ t.nsec ≤ to_.nsec

instance (from_ to_ t : Time) : Decidable (inWindow from_ to_ t) :=
  inferInstanceAs (Decidable (from_.nsec ≤ t.nsec ∧ t.nsec ≤ to_.nsec))

/-- A station with 14 stops, the stop of route `i` at minute `i % 3` past midnight: a list
on which `pdqsort` partitions unevenly and calls `breakPatterns`. -/
def unevenStation : StopByTime :=
  [⟨"S", clock 0 0, "0"⟩, ⟨"S", clock 0 1, "1"⟩, ⟨"S", clock 0 2, "2"⟩, ⟨"S", clock 0 0, "3"⟩,
   ⟨"S", clock 0 1, "4"⟩, ⟨"S", clock 0 2, "5"⟩, ⟨"S", clock 0 0, "6"⟩, ⟨"S", clock 0 1, "7"⟩,
   ⟨"S", clock 0 2, "8"⟩, ⟨"S", clock 0 0, "9"⟩, ⟨"S", clock 0 1, "10"⟩,
   ⟨"S", clock 0 2, "11"⟩, ⟨"S", clock 0 0, "12"⟩, ⟨"S", clock 0 1, "13"⟩]

/-! ## Sequences of calls, and the station-key invariant -/

/-- One call that changes a timetable: `addStop(route, station, time)` or
`addStation(station)`. -/
inductive Call where
  | addStop (route station : String) (time : Time)
  | addStation (station : String)
deriving DecidableEq, Repr

/-- The receiver after one call. -/
def Timetable.call (self : Timetable) : Call → Timetable
  | Call.addStop route station time => (self.addStop route station time).1
  | Call.addStation station => (self.addStation station).1

/-- The receiver after a sequence of calls, made one after the other. -/
def Timetable.calls (self : Timetable) (cs : List Call) : Timetable :=
  cs.foldl Timetable.call self

/-- Every stop stored under a station key names that station. -/
def KeyConsistent (m : StationMap) : Prop :=
  ∀ s l, m s = some l → ∀ x ∈ l, x.StationName = s

/-! ## The same functions on a memory

`sort.Sort` sorts in place, and two Go slices may share a backing array.  To state what a
call leaves untouched, the functions on the path of `getSlicedTimetable` are embedded a
second time, on an explicit memory: backing arrays, maps and `Timetable` structs are
addressed by their index in the memory, a slice is a window on a backing array, and every
store names the array it writes. -/

/-- A Go slice value: the window `[offset, offset + len)` of the backing array `array`, which
may grow in place up to `cap` elements. -/
structure SliceHeader where
  array : Nat
  offset : Nat
  len : Nat
  cap : Nat
deriving DecidableEq, Repr

/-- A `Timetable` struct in memory; its field `StopsPerStation` refers to a map. -/
structure TimetableObject where
  From : Time
  To : Time
  StopsPerStation : Nat
deriving DecidableEq, Repr

/-- The memory: the backing arrays, the maps and the `Timetable` structs allocated so far. -/
structure Memory where
  arrays : List (List Stop)
  maps : List (String → Option SliceHeader)
  timetables : List TimetableObject

/-- The zero value of `Stop`. -/
def zeroStop : Stop := ⟨"", ⟨0⟩, ""⟩

/-- The nil slice. -/
def nilSlice : SliceHeader := ⟨0, 0, 0, 0⟩

/-- Go `s[i]`, read. -/
def Memory.load (mem : Memory) (s : SliceHeader) (i : Nat) : Stop :=
  (mem.arrays.getD s.array []).getD (s.offset + i) zeroStop

/-- Go `s[i] = x`. -/
def Memory.store (mem : Memory) (s : SliceHeader) (i : Nat) (x : Stop) : Memory :=
  { mem with
    arrays := mem.arrays.set s.array ((mem.arrays.getD s.array []).set (s.offset + i) x) }

/-- The elements of the slice `s`, in order. -/
def Memory.elements (mem : Memory) (s : SliceHeader) : StopByTime :=
  (List.range s.len).map (mem.load s)

/-- Go `StopByTime{}`: an empty slice on a backing array of its own. -/
def Memory.emptySlice (mem : Memory) : Memory × SliceHeader :=
  ({ mem with arrays := mem.arrays ++ [[]] }, ⟨mem.arrays.length, 0, 0, 0⟩)

/-- Go `append(s, x)`: the element is stored in place when the capacity allows it, and
otherwise the elements are copied to a new backing array; `growCap` is the growth policy of
the runtime. -/
def Memory.append (growCap : Nat → Nat) (mem : Memory) (s : SliceHeader) (x : Stop) :
    Memory × SliceHeader :=
  if s.len < s.cap then (mem.store s s.len x, { s with len := s.len + 1 })
  else
    let newcap := max (growCap s.cap) (s.len + 1)
    let contents := mem.elements s ++ [x] ++ List.replicate (newcap - (s.len + 1)) zeroStop
    ({ mem with arrays := mem.arrays ++ [contents] }, ⟨mem.arrays.length, 0, s.len + 1, newcap⟩)

/-- Go `getStopsBetween(stops, from, to)` on the memory: the elements of `stops` are loaded
one by one and the selected ones appended to `result`. -/
def Memory.getStopsBetween (growCap : Nat → Nat) (mem : Memory) (stops : SliceHeader)
    (from_ to_ : Time) : Memory × SliceHeader :=
  let fromLimit := from_.Add (Minute * -1)
  let toLimit := to_.Add (Minute * 1)
  (List.range stops.len).foldl
    (fun st i =>
      let stop := st.1.load stops i
      if stop.Time.After fromLimit && stop.Time.Before toLimit then
        st.1.append growCap st.2 stop
      else st)
    mem.emptySlice

/-- Go `sort.Sort(s)` on the memory: the elements of `s` are rearranged in place, element `i`
of the slice receiving element `i` of the sorted sequence. -/
def Memory.sortSort (sortSort : StopByTime → StopByTime) (mem : Memory) (s : SliceHeader) :
    Memory :=
  let sorted := sortSort (mem.elements s)
  (List.range s.len).foldl (fun m i => m.store s i (sorted.getD i zeroStop)) mem

/-- Go `NewTimetable(from, to)` on the memory: a new map and a new struct; the address of the
struct is returned. -/
def Memory.NewTimetable (mem : Memory) (from_ to_ : Time) : Memory × Nat :=
  ({ mem with
     maps := mem.maps ++ [fun _ => none]
     timetables := mem.timetables ++ [⟨from_, to_, mem.maps.length⟩] },
   mem.timetables.length)

/-- The map that the struct at address `self` refers to. -/
def Memory.stopsPerStation (mem : Memory) (self : Nat) : String → Option SliceHeader :=
  mem.maps.getD (mem.timetables.getD self ⟨⟨0⟩, ⟨0⟩, 0⟩).StopsPerStation (fun _ => none)

/-- Go `t.StopsPerStation[station] = v`, for the struct at address `t`. -/
def Memory.assign (mem : Memory) (t : Nat) (station : String) (v : SliceHeader) : Memory :=
  { mem with
    maps := mem.maps.set (mem.timetables.getD t ⟨⟨0⟩, ⟨0⟩, 0⟩).StopsPerStation
      (fun k => if k = station then some v else mem.stopsPerStation t k) }

/-- Go `self.getSlicedTimetable(from, to)` on the memory, for the receiver at address `self`:
the memory after the call and the address of the timetable returned. -/
def Memory.getSlicedTimetable (growCap : Nat → Nat) (sortSort : StopByTime → StopByTime)
    (mem : Memory) (self : Nat) (order : List String) (from_ to_ : Time) : Memory × Nat :=
  let new := mem.NewTimetable from_ to_
  let slicedTimetable := new.2
  (order.foldl
    (fun mem station =>
      let stops := (mem.stopsPerStation self station).getD nilSlice
      let r := mem.getStopsBetween growCap stops from_ to_
      let stopsToSort := r.2
      let mem := r.1.sortSort sortSort stopsToSort
      mem.assign slicedTimetable station stopsToSort)
    new.1,
   slicedTimetable)

/-- The timetable stored at address `self`, with the elements of its slices. -/
def Memory.timetable (mem : Memory) (self : Nat) : Timetable :=
  { From := (mem.timetables.getD self ⟨⟨0⟩, ⟨0⟩, 0⟩).From
    To := (mem.timetables.getD self ⟨⟨0⟩, ⟨0⟩, 0⟩).To
    StopsPerStation := fun s => (mem.stopsPerStation self s).map mem.elements }

/-- The struct at `self`, its map and the backing arrays of its slices are allocated. -/
def Memory.Allocated (mem : Memory) (self : Nat) : Prop :=
  self < mem.timetables.length ∧
  (mem.timetables.getD self ⟨⟨0⟩, ⟨0⟩, 0⟩).StopsPerStation < mem.maps.length ∧
  ∀ s h, mem.stopsPerStation self s = some h → h.array < mem.arrays.length

/-- The window of the slice `s` lies within an allocated backing array. -/
def Memory.Holds (mem : Memory) (s : SliceHeader) : Prop :=
  s.array < mem.arrays.length ∧
  s.offset + s.cap ≤ (mem.arrays.getD s.array []).length ∧
  s.len ≤ s.cap

/-- Every array, map and struct of `m0` is in `m`, at the same address and unchanged. -/
def Memory.Extends (m0 m : Memory) : Prop :=
  m0.arrays <+: m.arrays ∧ m0.maps <+: m.maps ∧ m0.timetables <+: m.timetables

/-- The state of the loop of `Memory.getSlicedTimetable` once the stations `done` have been
visited, in terms of the timetable `t0` read at the receiver before the call. -/
def Memory.SliceInv (sortSort : StopByTime → StopByTime) (mem : Memory) (t0 : Timetable)
    (from_ to_ : Time) (done : List String) (m : Memory) : Prop :=
  mem.arrays <+: m.arrays ∧
  m.timetables = mem.timetables ++ [⟨from_, to_, mem.maps.length⟩] ∧
  ∃ f : String → Option SliceHeader,
    m.maps = mem.maps ++ [f] ∧
    (∀ s, (f s).map m.elements =
      if s ∈ done then
        some (sortSort (Srm17.getStopsBetween (t0.StopsPerStation.index s) from_ to_))
      else none) ∧
    ∀ s h, f s = some h → h.array < m.arrays.length

/-- A memory holding one timetable whose station "Baldock" stores 11:00 before 10:00. -/
def unsortedMemory : Memory :=
  { arrays := [[⟨"Baldock", clock 11 0, "London-Norwich"⟩,
                ⟨"Baldock", clock 10 0, "London-Cambridge"⟩]]
    maps := [fun s => if s = "Baldock" then some ⟨0, 0, 2, 2⟩ else none]
    timetables := [⟨clock 0 0, clock 23 59, 0⟩] }

/-! ## The contract of `sort.Sort`, and the stable sort of the specification -/

/-- The documented contract of `sort.Sort` on a `StopByTime`: the slice is rearranged (the
only writes are `Swap`s), and afterwards it is in ascending order as determined by `Less`:
no element is `Less` than one that stands before it. -/
def SortContract (sortSort : StopByTime → StopByTime) : Prop :=
  ∀ s : StopByTime,
    (sortSort s).Perm s ∧
    ∀ i j : Nat, i < j → j < (sortSort s).Len → (sortSort s).Less j i = some false

/-- The order "not later than" on stops. -/
def timeLE (x y : Stop) : Prop := x.Time.nsec ≤ y.Time.nsec

instance : DecidableRel timeLE := fun x y => inferInstanceAs (Decidable (x.Time.nsec ≤ y.Time.nsec))

instance : IsTotal Stop timeLE := ⟨fun x y => Int.le_total x.Time.nsec y.Time.nsec⟩

instance : IsTrans Stop timeLE := ⟨fun _ _ _ hxy hyz => Int.le_trans hxy hyz⟩

/-- The stable sort by time of the specification: stops are inserted one by one, each
before the first stop that is not earlier, starting from the end of the list, so stops
with equal times keep their relative order. -/
def stableSortByTime (s : StopByTime) : StopByTime := s.insertionSort timeLE

/-- A sorting routine that meets the contract of `sort.Sort` and is not stable: it sorts
the slice read backwards. -/
def reverseThenSort (s : StopByTime) : StopByTime := stableSortByTime s.reverse

/-! ## Notions used to verify `sort_Sort` -/

/-- The time of the stop at index `k` of `d`, in nanoseconds (0 when `k` is out of range). -/
def keyAt (d : StopByTime) (k : Nat) : Int :=
  match d[k]? with
  | some x => x.Time.nsec
  | none => 0

/-- The slice `d2` arises from `d` by `Swap`s at indices in `[a, b)`. -/
inductive SwapsIn (a b : Nat) : StopByTime → StopByTime → Prop
  | refl (d : StopByTime) : SwapsIn a b d d
  | step {d d1 d2 : StopByTime} (i j : Nat) :
      SwapsIn a b d d1 → a ≤ i → i < b → a ≤ j → j < b → d1.Swap i j = some d2 →
      SwapsIn a b d d2

/-- The elements of `d` at the indices of `[a, b)` are in ascending time order. -/
def SortedOn (d : StopByTime) (a b : Nat) : Prop :=
  ∀ i j, a ≤ i → i < j → j < b → keyAt d i ≤ keyAt d j

/-- The node `k` of the heap `d[first .. first + hi)` is not earlier than its children. -/
def HeapAt (d : StopByTime) (first hi k : Nat) : Prop :=
  (2 * k + 1 < hi → keyAt d (first + (2 * k + 1)) ≤ keyAt d (first + k)) ∧
  (2 * k + 2 < hi → keyAt d (first + (2 * k + 2)) ≤ keyAt d (first + k))

/-- The elements of `d[a:b)` are not earlier than the element just before them. -/
def LowerBound (d : StopByTime) (a b : Nat) : Prop :=
  0 < a → ∀ k, a ≤ k → k < b → keyAt d (a - 1) ≤ keyAt d k

/-- What a call of `pdqsort` with at most `fuel` nested calls is required to do. -/
def PdqsortSpec (fuel : Nat) : Prop :=
  ∀ (d : StopByTime) (a b limit : Nat) (wb wp : Bool),
    a ≤ b → b ≤ d.length → b - a < fuel → LowerBound d a b →
    ∃ d', pdqsort fuel d a b limit wb wp = some d' ∧ SwapsIn a b d d' ∧ SortedOn d' a b

/-! ## `Format`, `time.Parse` and the text rendering

`time.Format`, `time.Parse` and `strings.Join` belong to the Go standard library.  The
program uses them with the one layout `"15:04"`; the definitions below model them for that
layout.  A Go string is a sequence of bytes; the digits and the colon that the parser looks
for are single bytes that occur in no multi-byte character, so the parser is modelled on
the characters of the string. -/

/-- Go `time.Hour`. -/
def Hour : Duration := 60 * Minute

/-- Go `t.Hour()`: the hour within the day, `0..23` (read in UTC, the location of the
times that `time.Parse` builds for a layout without zone). -/
def Time.Hour (t : Time) : Nat := ((t.nsec / Srm17.Hour) % 24).toNat

/-- Go `t.Minute()`: the minute within the hour, `0..59`. -/
def Time.Minute (t : Time) : Nat := ((t.nsec / Srm17.Minute) % 60).toNat

/-- The character of the decimal digit `d`. -/
def digitChar (d : Nat) : Char := Char.ofNat ('0'.toNat + d)

/-- The two decimal digits of `x < 100`, as Go `appendInt(b, x, 2)` appends them. -/
def twoDigits (x : Nat) : List Char := [digitChar (x / 10), digitChar (x % 10)]

/-- Go `t.Format("15:04")`: two-digit hour, colon, two-digit minute. -/
def Time.Format (t : Time) : String := String.mk (twoDigits t.Hour ++ ':' :: twoDigits t.Minute)

/-- Go `strings.Join(elems, sep)`. -/
def strings_Join (elems : List String) (sep : String) : String := sep.intercalate elems

/-- Go `isDigit(s, i)` of package `time`: `s` has a decimal digit at index `i`. -/
def isDigit (s : List Char) (i : Nat) : Bool :=
  match s[i]? with
  | none => false
  | some c => decide ('0'.toNat ≤ c.toNat ∧ c.toNat ≤ '9'.toNat)

/-- Go `getnum(s, fixed)` of package `time`: the number at the start of `s`, of two digits,
or of one digit when `fixed` is false and no second digit follows, and the rest of `s`;
`none` is `errBad`. -/
def getnum (s : List Char) (fixed : Bool) : Option (Nat × List Char) :=
  if !isDigit s 0 then none
  else if !isDigit s 1 then
    if fixed then none
    else some ((s.getD 0 '0').toNat - '0'.toNat, s.drop 1)
  else
    some (((s.getD 0 '0').toNat - '0'.toNat) * 10 + ((s.getD 1 '0').toNat - '0'.toNat),
      s.drop 2)

/-- Go `skip(value, prefix)` of package `time`, for a prefix without spaces: `value` without
the leading `prefix`; `none` is `errBad`. -/
def skip : List Char → List Char → Option (List Char)
  | value, [] => some value
  | [], _ :: _ => none
  | v :: value, p :: rest => if v = p then skip value rest else none

/-- Go `time.Parse("15:04", value)`; `none` is the `*time.ParseError` returned.  The layout
has the chunks `15` (hour, one or two digits), `:` and `04` (minute, two digits); text left
after the last chunk is an error.  The time returned is that hour and minute of January 1,
year 0, UTC. -/
def time_Parse (value : String) : Option Time :=
  match getnum value.data false with
  | none => none
  | some (hour, value) =>
    if 24 ≤ hour then none
    else
      match skip value [':'] with
      | none => none
      | some value =>
        match getnum value true with
        | none => none
        | some (min, value) =>
          if 60 ≤ min then none
          else if value.length ≠ 0 then none
          else some (clock hour min)

/-- Go `func parseStringToHourMinute(str string) time.Time`; `none` is the panic with the
error of `time.Parse`. -/
def parseStringToHourMinute (str : String) : Option Time :=
  match time_Parse str with
  | none => none
  | some t => some t

/-- Go `func parseParamToTime(timeString string) time.Time`; `now` is the value of
`time.Now()`. -/
def parseParamToTime (now : Time) (timeString : String) : Option Time :=
  if timeString ≠ "" then parseStringToHourMinute timeString
  else parseStringToHourMinute now.Format

/-- Go `func (self *Timetable) getTextTimetable(from time.Time, to time.Time) string`.
`order` is the order in which `getSlicedTimetable` ranges over the receiver's map and
`order'` the order in which the loop below ranges over the map of the slice; the buffer is
the text written so far. -/
def Timetable.getTextTimetable (sortSort : StopByTime → StopByTime) (self : Timetable)
    (order order' : List String) (from_ to_ : Time) : String :=
  let buffer := ""
  let slicedTimetable := self.getSlicedTimetable sortSort order from_ to_
  let buffer := buffer ++
    strings_Join ["\nDEPARTURES FROM", from_.Format, "to", to_.Format, "\n"] " "
  order'.foldl
    (fun buffer station =>
      let stops := slicedTimetable.StopsPerStation.index station
      let buffer := buffer ++ ("\nSTATION: " ++ station ++ "\n")
      let buffer :=
        if stops.length > 0 then
          stops.foldl
            (fun buffer stop => buffer ++ (stop.Time.Format ++ " - " ++ stop.RouteName ++ "\n"))
            buffer
        else buffer ++ "-- No departures\n"
      buffer ++ "---------------------\n")
    buffer

/-- The strings that the specification calls hour:minute strings: `str` is the hour `h`
(0-23) in one or two digits, a colon, and the minute `m` (00-59) in two digits. -/
def HourMinuteString (str : String) (h m : Nat) : Prop :=
  h < 24 ∧ m < 60 ∧
  (str = String.mk (twoDigits h ++ ':' :: twoDigits m) ∨
    (h < 10 ∧ str = String.mk (digitChar h :: ':' :: twoDigits m)))

/-! ## `json.Marshal`

`encoding/json` belongs to the Go standard library.  `getJsonTimetable` returns the text of
a JSON value; the model returns that value.  The rules of `json.Marshal` that matter here:
a struct becomes an object with one member per exported field, in the order of the fields,
named by the `json` tag of the field and, where the field has no tag, by the Go name of the
field; a map with string keys becomes an object with the keys in sorted order; a slice that
is not nil becomes an array (the lists of a slice of a timetable are never nil); a
`time.Time` becomes a string in RFC 3339 format, and is an error when its year is outside
`0..9999`. -/

/-- A JSON value; `time t` is the JSON string that holds the RFC 3339 text of `t`. -/
inductive Json where
  | string (s : String)
  | time (t : Time)
  | array (elems : List Json)
  | object (members : List (String × Json))

/-- The keys of a JSON object, in the order of its members. -/
def Json.keys : Json → List String
  | Json.object members => members.map Prod.fst
  | _ => []

/-- The value of the member `key` of a JSON object. -/
def Json.member (j : Json) (key : String) : Option Json :=
  match j with
  | Json.object members => (members.find? (fun kv => kv.1 = key)).map Prod.snd
  | _ => none

/-- The elements of a JSON array. -/
def Json.elems : Json → List Json
  | Json.array elems => elems
  | _ => []

/-- Go `t.MarshalJSON()`; `none` is the error for a year outside `0..9999`.  Times count
from the midnight of January 1, year 0 (see `clock`); the years 0 to 9999 have 3652425
days. -/
def Time.MarshalJSON (t : Time) : Option Json :=
  if 0 ≤ t.nsec ∧ t.nsec < 3652425 * (24 * Srm17.Hour) then some (Json.time t) else none

/-- Go `json.Marshal` on a `Stop`.  `type Stop struct` declares `StationName`, `Time` and
`RouteName` without tags. -/
def Stop.marshal (stop : Stop) : Option Json :=
  match stop.Time.MarshalJSON with
  | none => none
  | some t =>
    some (Json.object [("StationName", Json.string stop.StationName), ("Time", t),
      ("RouteName", Json.string stop.RouteName)])

/-- Go `json.Marshal` on a `StopByTime` that is not nil. -/
def StopByTime.marshal (stops : StopByTime) : Option Json :=
  (stops.mapM Stop.marshal).map Json.array

/-- Go `json.Marshal` on a `*Timetable`, whose map has the keys `order`.  `type Timetable
struct` declares `From`, `To` and `StopsPerStation` with the tags `from`, `to` and
`stopsPerStation`. -/
def json_Marshal (v : Timetable) (order : List String) : Option Json :=
  match v.From.MarshalJSON, v.To.MarshalJSON,
    (order.insertionSort (fun a b => a ≤ b)).mapM (fun station =>
      (StopByTime.marshal (v.StopsPerStation.index station)).map (fun j => (station, j))) with
  | some f, some t, some stations =>
    some (Json.object [("from", f), ("to", t), ("stopsPerStation", Json.object stations)])
  | _, _, _ => none

/-- Go `func (self *Timetable) getJsonTimetable(from time.Time, to time.Time) string`: the
JSON value that the returned string is the text of; `none` is the panic with the error of
`json.Marshal`.  `order` is the order in which `getSlicedTimetable` ranges over the
receiver's map, and `order'` lists the keys of the map of the slice. -/
def Timetable.getJsonTimetable (sortSort : StopByTime → StopByTime) (self : Timetable)
    (order order' : List String) (from_ to_ : Time) : Option Json :=
  match json_Marshal (self.getSlicedTimetable sortSort order from_ to_) order' with
  | none => none
  | some result => some result

/-! ## Basic facts about `getStopsBetween` -/

/-- The window test of `getStopsBetween`. -/
def inPaddedWindow (from_ to_ : Time) (stop : Stop) : Bool :=
  stop.Time.After (from_.Add (Minute * -1)) && stop.Time.Before (to_.Add (Minute * 1))

theorem getStopsBetween_foldl (stops : List Stop) (from_ to_ : Time) (acc : StopByTime) :
    stops.foldl
      (fun result stop =>
        if stop.Time.After (from_.Add (Minute * -1)) && stop.Time.Before (to_.Add (Minute * 1))
        then result ++ [stop] else result)
      acc = acc ++ stops.filter (inPaddedWindow from_ to_) := by
  induction stops generalizing acc with
  | nil => simp
  | cons stop rest ih =>
    simp only [List.foldl_cons, ih, List.filter_cons, inPaddedWindow]
    split <;> simp

theorem getStopsBetween_eq_filter (stops : List Stop) (from_ to_ : Time) :
    getStopsBetween stops from_ to_ = stops.filter (inPaddedWindow from_ to_) := by
  unfold getStopsBetween
  exact (getStopsBetween_foldl stops from_ to_ []).trans (by simp)

/-! ## Basic facts about the map operations and `getSlicedTimetable` -/

theorem assign_same (m : StationMap) (k : String) (v : StopByTime) :
    m.assign k v k = some v := by
  simp [StationMap.assign]

theorem assign_other (m : StationMap) (k k' : String) (v : StopByTime) (h : k' ≠ k) :
    m.assign k v k' = m k' := by
  simp [StationMap.assign, h]

theorem sliced_From (sortSort : StopByTime → StopByTime) (self : Timetable)
    (order : List String) (from_ to_ : Time) :
    (self.getSlicedTimetable sortSort order from_ to_).From = from_ ∧
    (self.getSlicedTimetable sortSort order from_ to_).To = to_ := by
  unfold Timetable.getSlicedTimetable
  generalize hinit : NewTimetable from_ to_ = init
  have h0 : init.From = from_ ∧ init.To = to_ := by subst hinit; exact ⟨rfl, rfl⟩
  clear hinit
  induction order generalizing init with
  | nil => simpa using h0
  | cons station rest ih =>
    rw [List.foldl_cons]
    exact ih _ h0

theorem sliced_lookup_aux (sortSort : StopByTime → StopByTime) (self : Timetable)
    (order : List String) (from_ to_ : Time) (init : Timetable) (s : String) :
    (order.foldl
      (fun slicedTimetable station =>
        let stops := self.StopsPerStation.index station
        let stopsToSort := sortSort (getStopsBetween stops from_ to_)
        { slicedTimetable with
          StopsPerStation := slicedTimetable.StopsPerStation.assign station stopsToSort })
      init).StopsPerStation s =
    if s ∈ order then
      some (sortSort (getStopsBetween (self.StopsPerStation.index s) from_ to_))
    else init.StopsPerStation s := by
  induction order generalizing init with
  | nil => simp
  | cons station rest ih =>
    rw [List.foldl_cons, ih]
    by_cases hs : s ∈ rest
    · simp [hs]
    · by_cases hst : s = station
      · subst hst
        simp [hs, StationMap.assign]
      · simp [hs, hst, StationMap.assign]

/-- What the slice stores under a station, for any visiting order. -/
theorem sliced_lookup_order (sortSort : StopByTime → StopByTime) (self : Timetable)
    (order : List String) (from_ to_ : Time) (s : String) :
    (self.getSlicedTimetable sortSort order from_ to_).StopsPerStation s =
    if s ∈ order then
      some (sortSort (getStopsBetween (self.StopsPerStation.index s) from_ to_))
    else none := by
  unfold Timetable.getSlicedTimetable
  rw [sliced_lookup_aux]
  rfl

/-- What the slice stores under a station, when the loop ranges over the receiver's map. -/
theorem sliced_lookup (sortSort : StopByTime → StopByTime) (self : Timetable)
    (order : List String) (from_ to_ : Time) (h : RangeOrder self.StopsPerStation order)
    (s : String) :
    (self.getSlicedTimetable sortSort order from_ to_).StopsPerStation s =
    (self.StopsPerStation s).map (fun stops => sortSort (getStopsBetween stops from_ to_)) := by
  rw [sliced_lookup_order]
  by_cases hs : s ∈ order
  · have := (h.2 s).1 hs
    obtain ⟨stops, hst⟩ := Option.isSome_iff_exists.1 this
    simp [hs, hst, StationMap.index]
  · have : self.StopsPerStation s = none := by
      cases hst : self.StopsPerStation s with
      | none => rfl
      | some stops => exact absurd ((h.2 s).2 (by simp [hst])) hs
    simp [hs, this]

/-! ## Basic facts about `addStop` and `addStation` -/

theorem addStop_lookup (self : Timetable) (route station : String) (time : Time)
    (s : String) :
    (self.addStop route station time).1.StopsPerStation s =
    if s = station then
      some (self.StopsPerStation.index station ++
        [{ RouteName := route, StationName := station, Time := time }])
    else self.StopsPerStation s := by
  unfold Timetable.addStop
  cases hst : self.StopsPerStation station with
  | none =>
    by_cases hs : s = station
    · subst hs
      simp [Timetable.addStation, StationMap.assign, StationMap.index, hst]
    · simp [Timetable.addStation, StationMap.assign, StationMap.index, hst, hs]
  | some stops =>
    by_cases hs : s = station
    · subst hs
      simp [StationMap.assign, StationMap.index, hst]
    · simp [StationMap.assign, StationMap.index, hst, hs]

theorem addStop_From (self : Timetable) (route station : String) (time : Time) :
    (self.addStop route station time).1.From = self.From ∧
    (self.addStop route station time).1.To = self.To := by
  unfold Timetable.addStop
  cases self.StopsPerStation station <;> exact ⟨rfl, rfl⟩

/-- The list stored under `s` after a sequence of `addStop` calls: the stops of the calls
naming `s`, in call order, after what the station held before. -/
theorem addStops_lookup (calls : List AddStopCall) (self : Timetable) (s : String) :
    (self.addStops calls).StopsPerStation s =
    if s ∈ calls.map AddStopCall.station then
      some (self.StopsPerStation.index s ++
        (calls.filter (fun c => decide (c.station = s))).map AddStopCall.stop)
    else self.StopsPerStation s := by
  induction calls generalizing self with
  | nil => simp [Timetable.addStops]
  | cons c rest ih =>
    have hstep : self.addStops (c :: rest) =
        ((self.addStop c.route c.station c.time).1).addStops rest := rfl
    rw [hstep, ih]
    by_cases hc : c.station = s
    · subst hc
      by_cases hr : c.station ∈ rest.map AddStopCall.station
      · simp [hr, addStop_lookup, StationMap.index, AddStopCall.stop]
      · have : rest.filter (fun c' => decide (c'.station = c.station)) = [] := by
          rw [List.filter_eq_nil_iff]
          intro c' hc' hEq
          exact hr (List.mem_map.2 ⟨c', hc', by simpa using hEq⟩)
        simp [hr, addStop_lookup, StationMap.index, AddStopCall.stop, this]
    · have hs : s ≠ c.station := fun h => hc h.symm
      by_cases hr : s ∈ rest.map AddStopCall.station
      · simp [hr, addStop_lookup, StationMap.index, hs, hc]
      · simp [hr, addStop_lookup, hs, hc, Ne.symm hs]

/-- After `addStops` on a fresh timetable, visiting the stations in any duplicate-free order
that lists the named stations is a `range` over the map. -/
theorem rangeOrder_addStops (from_ to_ : Time) (calls : List AddStopCall)
    (order : List String) (hnd : order.Nodup)
    (hmem : ∀ s, s ∈ order ↔ s ∈ calls.map AddStopCall.station) :
    RangeOrder ((NewTimetable from_ to_).addStops calls).StopsPerStation order := by
  refine ⟨hnd, fun s => ?_⟩
  rw [addStops_lookup, hmem]
  by_cases hs : s ∈ calls.map AddStopCall.station
  · simp [hs]
  · simp [hs, NewTimetable]

theorem testTimetable_range :
    RangeOrder testTimetable.StopsPerStation ["Stevenage", "Baldock", "Ipswitch"] := by
  refine rangeOrder_addStops _ _ _ _ (by decide) (fun s => ?_)
  simp

theorem busyBaldock_range : RangeOrder busyBaldock.StopsPerStation ["Baldock"] := by
  refine rangeOrder_addStops _ _ _ _ (by decide) (fun s => ?_)
  simp

theorem inPaddedWindow_iff (from_ to_ : Time) (x : Stop) :
    inPaddedWindow from_ to_ x = true ↔
      from_.nsec - 60000000000 < x.Time.nsec ∧ x.Time.nsec < to_.nsec + 60000000000 := by
  have hM : Minute = 60000000000 := by decide
  simp only [inPaddedWindow, Time.After, Time.Before, Time.Add, Bool.and_eq_true,
    decide_eq_true_eq, hM]
  constructor <;> rintro ⟨h1, h2⟩ <;> constructor <;> omega

/-- In range, `Less` compares the times of the two stops. -/
theorem Less_eq (s : StopByTime) (i j : Nat) (hi : i < s.length) (hj : j < s.length) :
    s.Less i j = some (s[i].Time.Before s[j].Time) := by
  simp [StopByTime.Less, List.getElem?_eq_getElem hi, List.getElem?_eq_getElem hj]

/-- The stable sort of the specification meets the contract of `sort.Sort`. -/
theorem stableSortByTime_contract : SortContract stableSortByTime := by
  intro s
  refine ⟨List.perm_insertionSort timeLE s, fun i j hij hj => ?_⟩
  have hsorted : (stableSortByTime s).Pairwise timeLE := List.sorted_insertionSort timeLE s
  have hj' : j < (stableSortByTime s).length := hj
  have hi' : i < (stableSortByTime s).length := Nat.lt_trans hij hj'
  rw [Less_eq _ _ _ hj' hi']
  have hle := List.pairwise_iff_getElem.1 hsorted i j hi' hj' hij
  unfold timeLE at hle
  simp only [Time.Before, Option.some.injEq, decide_eq_false_iff_not]
  omega

/-- A `sort.Sort` meeting its contract leaves the empty slice empty. -/
theorem SortContract.nil {sortSort : StopByTime → StopByTime} (h : SortContract sortSort) :
    sortSort [] = [] :=
  List.Perm.eq_nil (h []).1

/-! ## `sort_Sort` meets the contract of `sort.Sort`

Every function of the model returns (no index is out of range and every loop ends within
its budget), only swaps elements of the range it is given, and leaves that range in
ascending time order. -/

theorem forLoop_spec {σ : Type} (cond : σ → Option Bool) (body : σ → Option σ)
    (Inv : σ → Prop) (μ : σ → Nat)
    (hstep : ∀ s, Inv s → cond s = some false ∨
      (cond s = some true ∧ ∃ s', body s = some s' ∧ Inv s' ∧ μ s' < μ s))
    (fuel : Nat) (s : σ) (h : Inv s) (hf : μ s < fuel) :
    ∃ s', forLoop cond body fuel s = some s' ∧ Inv s' ∧ cond s' = some false := by
  induction fuel generalizing s with
  | zero => exact absurd hf (Nat.not_lt_zero _)
  | succ fuel ih =>
    rcases hstep s h with hc | ⟨hc, s', hb, hi, hlt⟩
    · exact ⟨s, by simp [forLoop, hc], h, hc⟩
    · obtain ⟨s'', h1, h2, h3⟩ := ih s' hi (by omega)
      exact ⟨s'', by simp [forLoop, hc, hb, h1], h2, h3⟩

theorem Less_key (d : StopByTime) (i j : Nat) (hi : i < d.length) (hj : j < d.length) :
    d.Less i j = some (decide (keyAt d i < keyAt d j)) := by
  simp [StopByTime.Less, keyAt, List.getElem?_eq_getElem hi, List.getElem?_eq_getElem hj,
    Time.Before]

theorem Swap_spec (d : StopByTime) (i j : Nat) (hi : i < d.length) (hj : j < d.length) :
    ∃ d', d.Swap i j = some d' ∧ d'.length = d.length ∧
      (∀ k, keyAt d' k = if k = j then keyAt d i else if k = i then keyAt d j else keyAt d k) ∧
      d'.Perm d := by
  refine ⟨(d.set i d[j]).set j d[i], ?_, by simp, ?_, ?_⟩
  · simp [StopByTime.Swap, List.getElem?_eq_getElem hi, List.getElem?_eq_getElem hj]
  · intro k
    unfold keyAt
    by_cases hkj : k = j
    · subst hkj
      simp [List.getElem?_eq_getElem hi, hj]
    · by_cases hki : k = i
      · subst hki
        simp [hkj, Ne.symm hkj, List.getElem?_eq_getElem hj, hi]
      · simp [hkj, hki, Ne.symm hkj, Ne.symm hki]
  · rw [List.perm_iff_count]
    intro x
    rw [List.count_set _ _ _ _ (by simpa using hj), List.count_set _ _ _ _ hi]
    have h1 : (if d[i] == x then 1 else 0) ≤ d.count x := by
      split
      · rename_i h
        have : d[i] = x := by simpa using h
        exact List.count_pos_iff.2 (this ▸ List.getElem_mem hi)
      · omega
    have h2 : (if d[j] == x then 1 else 0) ≤ d.count x := by
      split
      · rename_i h
        have : d[j] = x := by simpa using h
        exact List.count_pos_iff.2 (this ▸ List.getElem_mem hj)
      · omega
    by_cases hij : i = j
    · subst hij
      simp only [List.getElem_set_self]
      omega
    · rw [List.getElem_set_ne hij]
      by_cases hxi : (d[i] == x) = true <;> by_cases hxj : (d[j] == x) = true <;>
        simp only [hxi, hxj, if_true, if_false, Bool.false_eq_true] at h1 h2 ⊢ <;> omega

theorem Swap_bounds {d d' : StopByTime} {i j : Nat} (h : d.Swap i j = some d') :
    i < d.length ∧ j < d.length := by
  unfold StopByTime.Swap at h
  by_cases hi : i < d.length
  · by_cases hj : j < d.length
    · exact ⟨hi, hj⟩
    · simp [List.getElem?_eq_none (Nat.le_of_not_lt hj)] at h
  · simp [List.getElem?_eq_none (Nat.le_of_not_lt hi)] at h

theorem Swap_facts {d d' : StopByTime} {i j : Nat} (h : d.Swap i j = some d') :
    i < d.length ∧ j < d.length ∧ d'.length = d.length ∧
    (∀ k, keyAt d' k = if k = j then keyAt d i else if k = i then keyAt d j else keyAt d k) ∧
    d'.Perm d := by
  obtain ⟨hi, hj⟩ := Swap_bounds h
  obtain ⟨d'', h1, h2, h3, h4⟩ := Swap_spec d i j hi hj
  rw [h] at h1
  cases h1
  exact ⟨hi, hj, h2, h3, h4⟩

theorem SwapsIn.length {a b : Nat} {d d2 : StopByTime} (h : SwapsIn a b d d2) :
    d2.length = d.length := by
  induction h with
  | refl => rfl
  | step i j _ _ _ _ _ hsw ih => exact (Swap_facts hsw).2.2.1.trans ih

theorem SwapsIn.perm {a b : Nat} {d d2 : StopByTime} (h : SwapsIn a b d d2) : d2.Perm d := by
  induction h with
  | refl => exact List.Perm.refl _
  | step i j _ _ _ _ _ hsw ih => exact (Swap_facts hsw).2.2.2.2.trans ih

theorem SwapsIn.keyAt_outside {a b : Nat} {d d2 : StopByTime} (h : SwapsIn a b d d2) (k : Nat)
    (hk : k < a ∨ b ≤ k) : keyAt d2 k = keyAt d k := by
  induction h with
  | refl => rfl
  | step i j _ hai hib haj hjb hsw ih =>
    rw [(Swap_facts hsw).2.2.2.1 k, ← ih]
    have h1 : k ≠ j := by omega
    have h2 : k ≠ i := by omega
    simp [h1, h2]

theorem SwapsIn.forall_key {a b : Nat} {d d2 : StopByTime} (h : SwapsIn a b d d2)
    (P : Int → Prop) (hP : ∀ k, a ≤ k → k < b → P (keyAt d k)) :
    ∀ k, a ≤ k → k < b → P (keyAt d2 k) := by
  induction h with
  | refl => exact hP
  | step i j _ hai hib haj hjb hsw ih =>
    intro k hak hkb
    rw [(Swap_facts hsw).2.2.2.1 k]
    split
    · exact ih i hai hib
    · split
      · exact ih j haj hjb
      · exact ih k hak hkb

theorem SwapsIn.trans {a b : Nat} {d d1 d2 : StopByTime} (h1 : SwapsIn a b d d1)
    (h2 : SwapsIn a b d1 d2) : SwapsIn a b d d2 := by
  induction h2 with
  | refl => exact h1
  | step i j _ hai hib haj hjb hsw ih => exact SwapsIn.step i j ih hai hib haj hjb hsw

theorem SwapsIn.mono {a b a' b' : Nat} {d d2 : StopByTime} (h : SwapsIn a b d d2)
    (ha : a' ≤ a) (hb : b ≤ b') : SwapsIn a' b' d d2 := by
  induction h with
  | refl => exact SwapsIn.refl _
  | step i j _ hai hib haj hjb hsw ih =>
    exact SwapsIn.step i j ih (Nat.le_trans ha hai) (Nat.lt_of_lt_of_le hib hb)
      (Nat.le_trans ha haj) (Nat.lt_of_lt_of_le hjb hb) hsw

theorem SwapsIn.one {a b : Nat} {d d2 : StopByTime} (i j : Nat) (hai : a ≤ i) (hib : i < b)
    (haj : a ≤ j) (hjb : j < b) (hsw : d.Swap i j = some d2) : SwapsIn a b d d2 :=
  SwapsIn.step i j (SwapsIn.refl d) hai hib haj hjb hsw

theorem insertionSort_inner (d0 d : StopByTime) (a b i : Nat) (hai : a ≤ i) (hib : i < b)
    (hbn : b ≤ d.length) (hsw : SwapsIn a b d0 d) (hsorted : SortedOn d a i) (fuel : Nat)
    (hfuel : i < fuel) :
    ∃ js : Nat × StopByTime,
      forLoop (σ := Nat × StopByTime)
        (fun js => if js.1 > a then js.2.Less js.1 (js.1 - 1) else some false)
        (fun js => (js.2.Swap js.1 (js.1 - 1)).map (fun d => (js.1 - 1, d)))
        fuel (i, d) = some js ∧
      SwapsIn a b d0 js.2 ∧ SortedOn js.2 a (i + 1) := by
  have hlen0 := hsw.length
  obtain ⟨js, hrun, ⟨hj1, hj2, hjsw, hfirst, hsecond⟩, hexit⟩ :=
    forLoop_spec (σ := Nat × StopByTime)
      (fun js => if js.1 > a then js.2.Less js.1 (js.1 - 1) else some false)
      (fun js => (js.2.Swap js.1 (js.1 - 1)).map (fun d => (js.1 - 1, d)))
      (fun js => a ≤ js.1 ∧ js.1 ≤ i ∧ SwapsIn a b d0 js.2 ∧
        (∀ p q, a ≤ p → p < q → q ≤ i → p ≠ js.1 → q ≠ js.1 → keyAt js.2 p ≤ keyAt js.2 q) ∧
        (∀ q, js.1 < q → q ≤ i → keyAt js.2 js.1 ≤ keyAt js.2 q))
      (fun js => js.1)
      (by
        rintro ⟨j, d2⟩ ⟨hj1, hj2, hjsw, hfirst, hsecond⟩
        dsimp only at *
        have hlen : d2.length = d.length := hjsw.length.trans hlen0.symm
        by_cases hja : j > a
        · rw [if_pos hja, Less_key d2 j (j - 1) (by omega) (by omega)]
          by_cases hless : keyAt d2 j < keyAt d2 (j - 1)
          · right
            refine ⟨by simp [hless], ?_⟩
            obtain ⟨d3, hd3, hlen3, hk, _⟩ := Swap_spec d2 j (j - 1) (by omega) (by omega)
            refine ⟨(j - 1, d3), by simp [hd3], ⟨by omega, by omega, ?_, ?_, ?_⟩, by omega⟩
            · exact SwapsIn.step j (j - 1) hjsw (by omega) (by omega) (by omega) (by omega) hd3
            · intro p q hap hpq hqi hpj hqj
              dsimp only at hpj hqj ⊢
              rw [hk p, hk q]
              by_cases hp : p = j
              · subst hp
                have hq1 : q ≠ p - 1 := by omega
                have hq2 : q ≠ p := by omega
                simp only [hpj, hq1, hq2, if_false, if_true]
                exact hfirst (p - 1) q (by omega) (by omega) hqi (by omega) (by omega)
              · by_cases hq : q = j
                · subst hq
                  have hq1 : q ≠ q - 1 := by omega
                  simp only [hpj, hp, hq1, if_false, if_true]
                  exact hfirst p (q - 1) hap (by omega) (by omega) hp (by omega)
                · simp only [hpj, hqj, hp, hq, if_false]
                  exact hfirst p q hap hpq hqi hp hq
            · intro q hjq hqi
              dsimp only at hjq ⊢
              rw [hk (j - 1), hk q]
              have h1 : j - 1 ≠ j := by omega
              by_cases hq : q = j
              · subst hq
                simp only [h1, if_true, if_false]
                omega
              · have hq1 : q ≠ j - 1 := by omega
                simp only [h1, hq, hq1, if_true, if_false]
                exact hsecond q (by omega) hqi
          · left
            simp [hless]
        · left
          rw [if_neg hja])
      fuel (i, d)
      ⟨hai, Nat.le_refl _, hsw,
        fun p q hap hpq hqi _ hq => hsorted p q hap hpq (by dsimp only at hq; omega),
        fun q hjq hqi => by dsimp only at hjq; omega⟩
      hfuel
  refine ⟨js, hrun, hjsw, ?_⟩
  have hlen : js.2.length = d.length := hjsw.length.trans hlen0.symm
  -- at the exit, the element at `js.1` is not earlier than its left neighbour
  have hleft : js.1 > a → keyAt js.2 (js.1 - 1) ≤ keyAt js.2 js.1 := by
    intro hja
    have hexit' : (if js.1 > a then js.2.Less js.1 (js.1 - 1) else some false) = some false :=
      hexit
    rw [if_pos hja, Less_key js.2 js.1 (js.1 - 1) (by omega) (by omega)] at hexit'
    have := Option.some.inj hexit'
    simp only [decide_eq_false_iff_not] at this
    omega
  intro p q hap hpq hqi
  by_cases hp : p = js.1
  · rw [hp]
    exact hsecond q (by omega) (by omega)
  · by_cases hq : q = js.1
    · rw [hq]
      by_cases hp1 : p = js.1 - 1
      · rw [hp1]
        exact hleft (by omega)
      · have h1 := hfirst p (js.1 - 1) hap (by omega) (by omega) hp (by omega)
        have h2 := hleft (by omega)
        omega
    · exact hfirst p q hap hpq (by omega) hp hq

theorem insertionSort_spec (d : StopByTime) (a b : Nat) (hbn : b ≤ d.length) :
    ∃ d', insertionSort d a b = some d' ∧ SwapsIn a b d d' ∧ SortedOn d' a b := by
  unfold insertionSort
  obtain ⟨st, hrun, ⟨hi, hsw, hsorted⟩, hexit⟩ :=
    forLoop_spec (σ := Nat × StopByTime)
      (fun st => some (decide (st.1 < b)))
      (fun st =>
        (forLoop (σ := Nat × StopByTime)
          (fun js => if js.1 > a then js.2.Less js.1 (js.1 - 1) else some false)
          (fun js => (js.2.Swap js.1 (js.1 - 1)).map (fun d => (js.1 - 1, d)))
          (d.length + 1) (st.1, st.2)).map (fun js => (st.1 + 1, js.2)))
      (fun st => a ≤ st.1 ∧ SwapsIn a b d st.2 ∧ SortedOn st.2 a st.1)
      (fun st => b - st.1)
      (by
        rintro ⟨i, d1⟩ ⟨hi, hsw, hsorted⟩
        dsimp only at *
        by_cases hib : i < b
        · right
          refine ⟨by simp [hib], ?_⟩
          have hlen := hsw.length
          obtain ⟨js, hjs, hjsw, hjsorted⟩ :=
            insertionSort_inner d d1 a b i hi hib (by omega) hsw hsorted (d.length + 1)
              (by omega)
          exact ⟨(i + 1, js.2), by simp [hjs], ⟨by omega, hjsw, hjsorted⟩, by omega⟩
        · left
          simp [hib])
      (d.length + 1) (a + 1, d)
      ⟨by omega, SwapsIn.refl d, fun i j h1 h2 h3 => by omega⟩
      (by dsimp only; omega)
  refine ⟨st.2, by simp [hrun], hsw, ?_⟩
  have hb : ¬ st.1 < b := by
    have := Option.some.inj hexit
    simpa using this
  intro i j h1 h2 h3
  exact hsorted i j h1 h2 (by omega)

theorem order2_spec (d : StopByTime) (a b s : Nat) (ha : a < d.length) (hb : b < d.length) :
    ∃ x y s', order2 d a b s = some (x, y, s') ∧ ((x = a ∧ y = b) ∨ (x = b ∧ y = a)) := by
  unfold order2
  rw [Less_key d b a hb ha]
  by_cases h : keyAt d b < keyAt d a
  · exact ⟨b, a, s + 1, by simp [h], Or.inr ⟨rfl, rfl⟩⟩
  · exact ⟨a, b, s, by simp [h], Or.inl ⟨rfl, rfl⟩⟩

theorem median_spec (d : StopByTime) (a b c s : Nat) (ha : a < d.length) (hb : b < d.length)
    (hc : c < d.length) :
    ∃ x s', median d a b c s = some (x, s') ∧ (x = a ∨ x = b ∨ x = c) := by
  unfold median
  obtain ⟨x1, y1, s1, h1, hxy1⟩ := order2_spec d a b s ha hb
  have hy1 : y1 < d.length := by rcases hxy1 with ⟨_, h⟩ | ⟨_, h⟩ <;> omega
  have hx1 : x1 < d.length := by rcases hxy1 with ⟨h, _⟩ | ⟨h, _⟩ <;> omega
  obtain ⟨x2, y2, s2, h2, hxy2⟩ := order2_spec d y1 c s1 hy1 hc
  have hx2 : x2 < d.length := by rcases hxy2 with ⟨h, _⟩ | ⟨h, _⟩ <;> omega
  obtain ⟨x3, y3, s3, h3, hxy3⟩ := order2_spec d x1 x2 s2 hx1 hx2
  refine ⟨y3, s3, ?_, ?_⟩
  · simp [h1, h2, h3]
  · rcases hxy1 with ⟨_, _⟩ | ⟨_, _⟩ <;> rcases hxy2 with ⟨_, _⟩ | ⟨_, _⟩ <;>
      rcases hxy3 with ⟨_, _⟩ | ⟨_, _⟩ <;> omega

theorem choosePivot_spec (d : StopByTime) (a b : Nat) (hab : a + 8 ≤ b) (hbn : b ≤ d.length) :
    ∃ p h, choosePivot d a b = some (p, h) ∧ a ≤ p ∧ p < b := by
  unfold choosePivot medianAdjacent
  have hl : b - a ≥ 8 := by omega
  have hq : (b - a) / 4 * 3 + 1 < b - a := by omega
  have hq1 : 1 ≤ (b - a) / 4 := by omega
  by_cases h50 : b - a ≥ 50
  · obtain ⟨i, si, hi, hio⟩ := median_spec d (a + (b - a) / 4 * 1 - 1) (a + (b - a) / 4 * 1)
      (a + (b - a) / 4 * 1 + 1) 0 (by omega) (by omega) (by omega)
    have hir : a ≤ i ∧ i < b := by omega
    clear hio
    obtain ⟨j, sj, hj, hjo⟩ := median_spec d (a + (b - a) / 4 * 2 - 1) (a + (b - a) / 4 * 2)
      (a + (b - a) / 4 * 2 + 1) si (by omega) (by omega) (by omega)
    have hjr : a ≤ j ∧ j < b := by omega
    clear hjo
    obtain ⟨k, sk, hk, hko⟩ := median_spec d (a + (b - a) / 4 * 3 - 1) (a + (b - a) / 4 * 3)
      (a + (b - a) / 4 * 3 + 1) sj (by omega) (by omega) (by omega)
    have hkr : a ≤ k ∧ k < b := by omega
    clear hko
    obtain ⟨p, sp, hp, hpo⟩ := median_spec d i j k sk (by omega) (by omega) (by omega)
    have hpr : a ≤ p ∧ p < b := by omega
    simp only [hl, h50, if_true, hi, hj, hk, hp, Option.bind_eq_bind, Option.some_bind,
      Option.pure_def, ge_iff_le]
    by_cases h0 : sp = 0
    · exact ⟨p, sortedHint.increasingHint, by simp [h0], hpr⟩
    · by_cases h12 : sp = 4 * 3
      · exact ⟨p, sortedHint.decreasingHint, by simp [h12], hpr⟩
      · exact ⟨p, sortedHint.unknownHint, by simp [h0, h12], hpr⟩
  · obtain ⟨p, sp, hp, hpo⟩ := median_spec d (a + (b - a) / 4 * 1) (a + (b - a) / 4 * 2)
      (a + (b - a) / 4 * 3) 0 (by omega) (by omega) (by omega)
    have hpr : a ≤ p ∧ p < b := by omega
    simp only [hl, h50, if_true, if_false, hp, Option.bind_eq_bind, Option.some_bind,
      Option.pure_def, ge_iff_le]
    by_cases h0 : sp = 0
    · exact ⟨p, sortedHint.increasingHint, by simp [h0], hpr⟩
    · by_cases h12 : sp = 4 * 3
      · exact ⟨p, sortedHint.decreasingHint, by simp [h12], hpr⟩
      · exact ⟨p, sortedHint.unknownHint, by simp [h0, h12], hpr⟩

theorem reverseRange_spec (d : StopByTime) (a b : Nat) (hab : a < b) (hbn : b ≤ d.length) :
    ∃ d', reverseRange d a b = some d' ∧ SwapsIn a b d d' := by
  unfold reverseRange
  obtain ⟨st, hrun, ⟨_, _, hsw⟩, _⟩ :=
    forLoop_spec (σ := Nat × Nat × StopByTime)
      (fun st => some (decide (st.1 < st.2.1)))
      (fun st => (st.2.2.Swap st.1 st.2.1).map (fun d => (st.1 + 1, st.2.1 - 1, d)))
      (fun st => a ≤ st.1 ∧ (st.1 < st.2.1 → st.2.1 < b) ∧ SwapsIn a b d st.2.2)
      (fun st => st.2.1 + 1 - st.1)
      (by
        rintro ⟨i, j, d1⟩ ⟨hi, hj, hsw⟩
        dsimp only at *
        by_cases hij : i < j
        · right
          refine ⟨by simp [hij], ?_⟩
          have hlen := hsw.length
          have hjb := hj hij
          obtain ⟨d2, hd2, _, _, _⟩ := Swap_spec d1 i j (by omega) (by omega)
          exact ⟨(i + 1, j - 1, d2), by simp [hd2],
            ⟨by dsimp only; omega, fun h => by dsimp only at h ⊢; omega,
              SwapsIn.step i j hsw hi (by omega) (by omega) hjb hd2⟩, by dsimp only; omega⟩
        · left
          simp [hij])
      (d.length + 1) (a, b - 1, d)
      ⟨Nat.le_refl _, fun h => by dsimp only at h ⊢; omega, SwapsIn.refl d⟩
      (by dsimp only; omega)
  exact ⟨st.2.2, by simp [hrun], hsw⟩

theorem nextPowerOfTwo_le (l : Nat) (hl : 0 < l) : nextPowerOfTwo l ≤ 2 * l := by
  unfold nextPowerOfTwo bitsLen
  rw [if_neg (by omega), Nat.shiftLeft_eq, Nat.one_mul, Nat.pow_succ]
  have := Nat.log2_self_le (n := l) (by omega)
  omega

theorem breakPatterns_spec (d : StopByTime) (a b : Nat) (hbn : b ≤ d.length) :
    ∃ d', breakPatterns d a b = some d' ∧ SwapsIn a b d d' := by
  unfold breakPatterns
  by_cases hl : b - a ≥ 8
  · simp only [hl, if_true]
    obtain ⟨st, hrun, ⟨_, hsw⟩, _⟩ :=
      forLoop_spec (σ := Nat × Nat × StopByTime)
        (fun st => some (decide (st.1 < 3)))
        (fun st => do
          let random := xorshiftNext st.2.1
          let other := random &&& (nextPowerOfTwo (b - a) - 1)
          let other := if other ≥ b - a then other - (b - a) else other
          let data ← st.2.2.Swap (a + (b - a) / 4 * 2 - 1 + st.1) (a + other)
          pure (st.1 + 1, random, data))
        (fun st => st.1 ≤ 3 ∧ SwapsIn a b d st.2.2)
        (fun st => 3 - st.1)
        (by
          rintro ⟨i, rnd, d1⟩ ⟨hi, hsw⟩
          dsimp only at *
          by_cases hi3 : i < 3
          · right
            refine ⟨by simp [hi3], ?_⟩
            have hlen := hsw.length
            have hpow := nextPowerOfTwo_le (b - a) (by omega)
            have hand : xorshiftNext rnd &&& (nextPowerOfTwo (b - a) - 1) ≤
                nextPowerOfTwo (b - a) - 1 := Nat.and_le_right
            generalize xorshiftNext rnd &&& (nextPowerOfTwo (b - a) - 1) = o at hand
            have hother : (if o ≥ b - a then o - (b - a) else o) < b - a := by
              split <;> omega
            generalize (if o ≥ b - a then o - (b - a) else o) = other at hother
            obtain ⟨d2, hd2, _, _, _⟩ :=
              Swap_spec d1 (a + (b - a) / 4 * 2 - 1 + i) (a + other) (by omega) (by omega)
            exact ⟨(i + 1, xorshiftNext rnd, d2), by simp [hd2],
              ⟨by omega,
                SwapsIn.step _ _ hsw (by omega) (by omega) (by omega) (by omega) hd2⟩, by omega⟩
          · left
            simp [hi3])
        4 (0, (b - a) % 2 ^ 64, d) ⟨by omega, SwapsIn.refl d⟩ (by dsimp only; omega)
    exact ⟨st.2.2, congrArg (Option.map fun st => st.2.2) hrun, hsw⟩
  · simp only [hl, if_false]
    exact ⟨d, rfl, SwapsIn.refl d⟩

theorem siftDown_go_spec (hi first lo : Nat) (d0 : StopByTime)
    (hbound : first + hi ≤ d0.length) :
    ∀ (fuel root : Nat) (d : StopByTime), root ≤ hi → hi < fuel + root → lo ≤ root →
      SwapsIn (first + lo) (first + hi) d0 d →
      (∀ k, lo ≤ k → k < hi → k ≠ root → HeapAt d first hi k) →
      (∀ p c, lo ≤ p → (root = 2 * p + 1 ∨ root = 2 * p + 2) →
        (c = 2 * root + 1 ∨ c = 2 * root + 2) → c < hi →
        keyAt d (first + c) ≤ keyAt d (first + p)) →
      ∃ d', siftDown.go hi first fuel root d = some d' ∧
        SwapsIn (first + lo) (first + hi) d0 d' ∧
        ∀ k, lo ≤ k → k < hi → HeapAt d' first hi k := by
  intro fuel
  induction fuel with
  | zero => intro root d h1 h2; omega
  | succ fuel ih =>
    intro root d hroot hfuel hlo hsw hheap hpar
    have hlen := hsw.length
    rw [siftDown.go]
    by_cases hchild : 2 * root + 1 ≥ hi
    · simp only [hchild, if_true]
      refine ⟨d, rfl, hsw, fun k hk1 hk2 => ?_⟩
      by_cases hkr : k = root
      · subst hkr
        exact ⟨fun h => by omega, fun h => by omega⟩
      · exact hheap k hk1 hk2 hkr
    · simp only [hchild, if_false]
      have hc : 2 * root + 1 < hi := by omega
      have tail : ∀ m, (m = 2 * root + 1 ∨ m = 2 * root + 2) → m < hi →
          keyAt d (first + (2 * root + 1)) ≤ keyAt d (first + m) →
          (2 * root + 2 < hi → keyAt d (first + (2 * root + 2)) ≤ keyAt d (first + m)) →
          ∃ d', (do
              let l ← d.Less (first + root) (first + m)
              if (!l) = true then pure d
              else do
                let data ← d.Swap (first + root) (first + m)
                siftDown.go hi first fuel m data) = some d' ∧
            SwapsIn (first + lo) (first + hi) d0 d' ∧
            ∀ k, lo ≤ k → k < hi → HeapAt d' first hi k := by
        intro m hm hmhi hk1 hk2
        rw [Less_key d (first + root) (first + m) (by omega) (by omega)]
        by_cases hless : keyAt d (first + root) < keyAt d (first + m)
        · obtain ⟨d2, hd2, hlen2, hkey, _⟩ :=
            Swap_spec d (first + root) (first + m) (by omega) (by omega)
          have hsw2 : SwapsIn (first + lo) (first + hi) d0 d2 :=
            SwapsIn.step _ _ hsw (by omega) (by omega) (by omega) (by omega) hd2
          have hkey' : ∀ k, keyAt d2 (first + k) =
              if k = m then keyAt d (first + root)
              else if k = root then keyAt d (first + m) else keyAt d (first + k) := by
            intro k
            rw [hkey]
            by_cases h1 : k = m
            · rw [if_pos (by omega), if_pos h1]
            · rw [if_neg (by omega), if_neg h1]
              by_cases h2 : k = root
              · rw [if_pos (by omega), if_pos h2]
              · rw [if_neg (by omega), if_neg h2]
          obtain ⟨d', hgo, hsw', hheap'⟩ := ih m d2 (by omega) (by omega) (by omega) hsw2
            (by
              intro k hk1' hk2' hkm
              by_cases hkr : k = root
              · subst hkr
                constructor
                · intro _
                  rw [hkey' (2 * k + 1), hkey' k]
                  rcases hm with rfl | rfl <;> split_ifs <;> omega
                · intro h
                  have := hk2 h
                  rw [hkey' (2 * k + 2), hkey' k]
                  rcases hm with rfl | rfl <;> split_ifs <;> omega
              · have hold := hheap k hk1' hk2' hkr
                constructor
                · intro h
                  have h1 := hold.1 h
                  have h2 : 2 * k + 1 = root → keyAt d (first + m) ≤ keyAt d (first + k) :=
                    fun e => hpar k m hk1' (Or.inl e.symm) hm hmhi
                  rw [hkey' (2 * k + 1), hkey' k]
                  split_ifs <;> omega
                · intro h
                  have h1 := hold.2 h
                  have h2 : 2 * k + 2 = root → keyAt d (first + m) ≤ keyAt d (first + k) :=
                    fun e => hpar k m hk1' (Or.inr e.symm) hm hmhi
                  rw [hkey' (2 * k + 2), hkey' k]
                  split_ifs <;> omega)
            (by
              intro p c hp hpm hcm hchi
              have hpr : p = root := by omega
              subst hpr
              have hm' := hheap m (by omega) hmhi (by omega)
              have h1 : c = 2 * m + 1 → keyAt d (first + c) ≤ keyAt d (first + m) := by
                intro e
                rw [e]
                exact hm'.1 (by omega)
              have h2 : c = 2 * m + 2 → keyAt d (first + c) ≤ keyAt d (first + m) := by
                intro e
                rw [e]
                exact hm'.2 (by omega)
              rw [hkey' c, hkey' p]
              split_ifs <;> omega)
          exact ⟨d', by simp [hless, hd2, hgo], hsw', hheap'⟩
        · refine ⟨d, by simp [hless], hsw, fun k hk1' hk2' => ?_⟩
          by_cases hkr : k = root
          · subst hkr
            refine ⟨fun _ => ?_, fun h => ?_⟩
            · show keyAt d (first + (2 * k + 1)) ≤ _
              omega
            · have := hk2 h
              show keyAt d (first + (2 * k + 2)) ≤ _
              omega
          · exact hheap k hk1' hk2' hkr
      by_cases hc2 : 2 * root + 1 + 1 < hi
      · simp only [hc2, if_true]
        rw [Less_key d (first + (2 * root + 1)) (first + (2 * root + 1) + 1) (by omega)
          (by omega)]
        simp only [Option.bind_eq_bind, Option.some_bind, Option.pure_def]
        by_cases hl : keyAt d (first + (2 * root + 1)) < keyAt d (first + (2 * root + 1) + 1)
        · simp only [hl, decide_True, if_true]
          exact tail (2 * root + 1 + 1) (Or.inr rfl) hc2 (by
            have : first + (2 * root + 1 + 1) = first + (2 * root + 1) + 1 := by omega
            rw [this]; omega) (fun _ => Int.le_refl _)
        · simp only [hl, decide_False, if_false, Bool.false_eq_true]
          exact tail (2 * root + 1) (Or.inl rfl) hc (Int.le_refl _) (fun _ => by
            have : first + (2 * root + 2) = first + (2 * root + 1) + 1 := by omega
            rw [this]; omega)
      · simp only [hc2, if_false]
        exact tail (2 * root + 1) (Or.inl rfl) hc (Int.le_refl _) (fun h => by omega)

theorem siftDown_spec (d : StopByTime) (lo hi first : Nat) (hlo : lo ≤ hi)
    (hbound : first + hi ≤ d.length)
    (hheap : ∀ k, lo < k → k < hi → HeapAt d first hi k) :
    ∃ d', siftDown d lo hi first = some d' ∧
      SwapsIn (first + lo) (first + hi) d d' ∧
      ∀ k, lo ≤ k → k < hi → HeapAt d' first hi k := by
  unfold siftDown
  exact siftDown_go_spec hi first lo d hbound (hi + 1) lo d hlo (by omega) (Nat.le_refl _)
    (SwapsIn.refl d) (fun k h1 h2 h3 => hheap k (by omega) h2)
    (fun p c hp hr _ _ => by omega)

theorem heapSort_build_spec (first hi : Nat) (d0 : StopByTime)
    (hbound : first + hi ≤ d0.length) :
    ∀ (i : Nat) (d : StopByTime), i ≤ hi → SwapsIn first (first + hi) d0 d →
      (∀ k, i < k → k < hi → HeapAt d first hi k) →
      ∃ d', heapSort.build first hi i d = some d' ∧ SwapsIn first (first + hi) d0 d' ∧
        ∀ k, k < hi → HeapAt d' first hi k := by
  intro i
  induction i with
  | zero =>
    intro d _ hsw hheap
    have hlen := hsw.length
    obtain ⟨d', h1, h2, h3⟩ := siftDown_spec d 0 hi first (Nat.zero_le _) (by omega) hheap
    exact ⟨d', by rw [heapSort.build]; exact h1, hsw.trans (h2.mono (by omega) (Nat.le_refl _)),
      fun k hk => h3 k (Nat.zero_le _) hk⟩
  | succ i ih =>
    intro d hi' hsw hheap
    have hlen := hsw.length
    obtain ⟨d1, h1, h2, h3⟩ := siftDown_spec d (i + 1) hi first hi' (by omega) hheap
    obtain ⟨d', h4, h5, h6⟩ := ih d1 (by omega)
      (hsw.trans (h2.mono (by omega) (Nat.le_refl _))) (fun k hk1 hk2 => h3 k (by omega) hk2)
    exact ⟨d', by rw [heapSort.build]; simp [h1, h4], h5, h6⟩

theorem heap_root_max (d : StopByTime) (first m : Nat)
    (hheap : ∀ k, k < m → HeapAt d first m k) :
    ∀ k, k < m → keyAt d (first + k) ≤ keyAt d (first + 0) := by
  intro k
  induction k using Nat.strong_induction_on with
  | _ k ih =>
    intro hk
    by_cases h0 : k = 0
    · subst h0
      exact Int.le_refl _
    · have hp := ih ((k - 1) / 2) (by omega) (by omega)
      have hh := hheap ((k - 1) / 2) (by omega)
      rcases Nat.even_or_odd k with he | ho
      · obtain ⟨r, hr⟩ := he
        have e : 2 * ((k - 1) / 2) + 2 = k := by omega
        have := hh.2 (by omega)
        rw [e] at this
        omega
      · obtain ⟨r, hr⟩ := ho
        have e : 2 * ((k - 1) / 2) + 1 = k := by omega
        have := hh.1 (by omega)
        rw [e] at this
        omega

theorem heapSort_pop_spec (first hi : Nat) (d0 : StopByTime)
    (hbound : first + hi ≤ d0.length) :
    ∀ (m : Nat) (d : StopByTime), m ≤ hi → SwapsIn first (first + hi) d0 d →
      (∀ k, k < m → HeapAt d first m k) →
      SortedOn d (first + m) (first + hi) →
      (∀ k t, k < m → m ≤ t → t < hi → keyAt d (first + k) ≤ keyAt d (first + t)) →
      ∃ d', heapSort.pop first 0 m d = some d' ∧ SwapsIn first (first + hi) d0 d' ∧
        SortedOn d' first (first + hi) := by
  intro m
  induction m with
  | zero =>
    intro d _ hsw _ hsorted _
    exact ⟨d, by rw [heapSort.pop], hsw, by simpa using hsorted⟩
  | succ i ih =>
    intro d hm hsw hheap hsorted hle
    have hlen := hsw.length
    have hmax := heap_root_max d first (i + 1) hheap
    obtain ⟨d1, hd1, hlen1, hkey1, _⟩ := Swap_spec d first (first + i) (by omega) (by omega)
    have hsw1 : SwapsIn first (first + hi) d0 d1 :=
      SwapsIn.step _ _ hsw (Nat.le_refl _) (by omega) (by omega) (by omega) hd1
    have hkey1' : ∀ k, keyAt d1 (first + k) =
        if k = i then keyAt d (first + 0)
        else if k = 0 then keyAt d (first + i) else keyAt d (first + k) := by
      intro k
      rw [hkey1]
      by_cases h1 : k = i
      · rw [if_pos (by omega), if_pos h1]; rfl
      · rw [if_neg (by omega), if_neg h1]
        by_cases h2 : k = 0
        · rw [if_pos (by omega), if_pos h2]
        · rw [if_neg (by omega), if_neg h2]
    obtain ⟨d2, hd2, hsw2, hheap2⟩ := siftDown_spec d1 0 i first (Nat.zero_le _) (by omega)
      (by
        intro k hk1 hk2
        have hold := hheap k (by omega)
        constructor
        · intro h
          have := hold.1 (by omega)
          rw [hkey1' (2 * k + 1), hkey1' k, if_neg (by omega), if_neg (by omega),
            if_neg (by omega), if_neg (by omega)]
          exact this
        · intro h
          have := hold.2 (by omega)
          rw [hkey1' (2 * k + 2), hkey1' k, if_neg (by omega), if_neg (by omega),
            if_neg (by omega), if_neg (by omega)]
          exact this)
    have hout : ∀ t, i ≤ t → keyAt d2 (first + t) = keyAt d1 (first + t) :=
      fun t ht => hsw2.keyAt_outside (first + t) (Or.inr (by omega))
    obtain ⟨d', hd', hsw', hsorted'⟩ := ih d2 (by omega)
      (hsw1.trans (hsw2.mono (by omega) (by omega)))
      (fun k hk => hheap2 k (Nat.zero_le _) hk)
      (by
        intro p q hp hpq hq
        obtain ⟨p', rfl⟩ : ∃ p', p = first + p' := ⟨p - first, by omega⟩
        obtain ⟨q', rfl⟩ : ∃ q', q = first + q' := ⟨q - first, by omega⟩
        rw [hout p' (by omega), hout q' (by omega), hkey1' p', hkey1' q']
        have h1 := hle 0 q' (by omega)
        have h2 := hsorted (first + p') (first + q')
        split_ifs <;> omega)
      (by
        intro k t hk ht1 ht2
        rw [hout t ht1]
        have hP := hsw2.forall_key (fun x => x ≤ keyAt d1 (first + t))
          (by
            intro k' hk1 hk2
            obtain ⟨k'', rfl⟩ : ∃ k'', k' = first + k'' := ⟨k' - first, by omega⟩
            show keyAt d1 (first + k'') ≤ keyAt d1 (first + t)
            rw [hkey1' k'', hkey1' t]
            have h1 := hmax k'' (by omega)
            have h2 := hmax i (by omega)
            have h3 := hle k'' t
            have h4 := hle 0 t
            split_ifs <;> omega)
        exact hP (first + k) (by omega) (by omega))
    exact ⟨d', by rw [heapSort.pop]; simp [hd1, hd2, hd'], hsw', hsorted'⟩

theorem heapSort_spec (d : StopByTime) (a b : Nat) (hab : a ≤ b) (hbn : b ≤ d.length) :
    ∃ d', heapSort d a b = some d' ∧ SwapsIn a b d d' ∧ SortedOn d' a b := by
  unfold heapSort
  have hb : a + (b - a) = b := by omega
  obtain ⟨d1, h1, h2, h3⟩ := heapSort_build_spec a (b - a) d (by omega) ((b - a - 1) / 2) d
    (by omega) (SwapsIn.refl d)
    (fun k hk1 hk2 => ⟨fun h => by omega, fun h => by omega⟩)
  obtain ⟨d', h4, h5, h6⟩ := heapSort_pop_spec a (b - a) d (by omega) (b - a) d1
    (Nat.le_refl _) h2 h3 (fun i j hi hij hj => by omega) (fun k t hk ht1 ht2 => by omega)
  rw [hb] at h5 h6
  exact ⟨d', by simp [h1, h4], h5, h6⟩

/-- The scan `for i <= j && data.Less(i, a) { i++ }`. -/
theorem scanUp_spec (D : StopByTime) (a i0 j fuel : Nat) (ha : a < D.length)
    (hj : j < D.length) (hij : i0 ≤ j + 1) (hfuel : j + 1 - i0 < fuel) :
    ∃ i, forLoop (σ := Nat) (fun i => if i ≤ j then D.Less i a else some false)
        (fun i => some (i + 1)) fuel i0 = some i ∧
      i0 ≤ i ∧ i ≤ j + 1 ∧ (∀ k, i0 ≤ k → k < i → keyAt D k < keyAt D a) ∧
      (i ≤ j → keyAt D a ≤ keyAt D i) := by
  obtain ⟨i, hrun, ⟨h1, h2, h3⟩, hexit⟩ :=
    forLoop_spec (σ := Nat) (fun i => if i ≤ j then D.Less i a else some false)
      (fun i => some (i + 1))
      (fun i => i0 ≤ i ∧ i ≤ j + 1 ∧ ∀ k, i0 ≤ k → k < i → keyAt D k < keyAt D a)
      (fun i => j + 1 - i)
      (by
        intro i ⟨h1, h2, h3⟩
        dsimp only
        by_cases hle : i ≤ j
        · rw [if_pos hle, Less_key D i a (by omega) ha]
          by_cases hl : keyAt D i < keyAt D a
          · right
            refine ⟨by simp [hl], i + 1, rfl, ⟨by omega, by omega, fun k hk1 hk2 => ?_⟩, by omega⟩
            by_cases hki : k = i
            · rw [hki]; exact hl
            · exact h3 k hk1 (by omega)
          · left
            simp [hl]
        · left
          rw [if_neg hle])
      fuel i0 ⟨Nat.le_refl _, hij, fun k hk1 hk2 => by omega⟩ hfuel
  refine ⟨i, hrun, h1, h2, h3, fun hle => ?_⟩
  have hexit' : (if i ≤ j then D.Less i a else some false) = some false := hexit
  rw [if_pos hle, Less_key D i a (by omega) ha] at hexit'
  have := Option.some.inj hexit'
  simp only [decide_eq_false_iff_not] at this
  omega

/-- The scan `for i <= j && !data.Less(j, a) { j-- }`. -/
theorem scanDown_spec (D : StopByTime) (a i j0 fuel : Nat) (ha : a < D.length)
    (hj : j0 < D.length) (hi : 1 ≤ i) (hij : i ≤ j0 + 1) (hfuel : j0 < fuel) :
    ∃ j, forLoop (σ := Nat)
        (fun j => if i ≤ j then (D.Less j a).map (fun l => !l) else some false)
        (fun j => some (j - 1)) fuel j0 = some j ∧
      j ≤ j0 ∧ i ≤ j + 1 ∧ (∀ k, j < k → k ≤ j0 → keyAt D a ≤ keyAt D k) ∧
      (i ≤ j → keyAt D j < keyAt D a) := by
  obtain ⟨j, hrun, ⟨h1, h2, h3⟩, hexit⟩ :=
    forLoop_spec (σ := Nat)
      (fun j => if i ≤ j then (D.Less j a).map (fun l => !l) else some false)
      (fun j => some (j - 1))
      (fun j => j ≤ j0 ∧ i ≤ j + 1 ∧ ∀ k, j < k → k ≤ j0 → keyAt D a ≤ keyAt D k)
      (fun j => j)
      (by
        intro j ⟨h1, h2, h3⟩
        dsimp only
        by_cases hle : i ≤ j
        · rw [if_pos hle, Less_key D j a (by omega) ha]
          by_cases hl : keyAt D j < keyAt D a
          · left
            simp [hl]
          · right
            refine ⟨by simp [hl], j - 1, rfl, ⟨by omega, by omega, fun k hk1 hk2 => ?_⟩, by omega⟩
            by_cases hkj : k = j
            · rw [hkj]; omega
            · exact h3 k (by omega) hk2
        · left
          rw [if_neg hle])
      fuel j0 ⟨Nat.le_refl _, hij, fun k hk1 hk2 => by omega⟩ hfuel
  refine ⟨j, hrun, h1, h2, h3, fun hle => ?_⟩
  have hexit' : (if i ≤ j then (D.Less j a).map (fun l => !l) else some false) = some false :=
    hexit
  rw [if_pos hle, Less_key D j a (by omega) ha] at hexit'
  simpa using hexit'

theorem partition_spec (d : StopByTime) (a b pivot : Nat) (hap : a ≤ pivot) (hpb : pivot < b)
    (hbn : b ≤ d.length) :
    ∃ d' mid ap, partition d a b pivot = some (d', mid, ap) ∧ SwapsIn a b d d' ∧
      a ≤ mid ∧ mid < b ∧
      (∀ k, a ≤ k → k < mid → keyAt d' k < keyAt d' mid) ∧
      (∀ k, mid < k → k < b → keyAt d' mid ≤ keyAt d' k) := by
  unfold partition
  dsimp only
  obtain ⟨d1, hd1, hlen1, hkey1, _⟩ := Swap_spec d a pivot (by omega) (by omega)
  have hsw1 : SwapsIn a b d d1 := SwapsIn.one a pivot (Nat.le_refl _) (by omega) hap hpb hd1
  obtain ⟨i, hi, hi1, hi2, hi3, hi4⟩ :=
    scanUp_spec d1 a (a + 1) (b - 1) (d.length + 2) (by omega) (by omega) (by omega) (by omega)
  obtain ⟨j, hj, hj1, hj2, hj3, hj4⟩ :=
    scanDown_spec d1 a i (b - 1) (d.length + 2) (by omega) (by omega) (by omega) (by omega)
      (by omega)
  simp only [hd1, hi, hj, Option.bind_eq_bind, Option.some_bind]
  by_cases hij : i > j
  · simp only [hij, if_true]
    obtain ⟨d2, hd2, hlen2, hkey2, _⟩ := Swap_spec d1 j a (by omega) (by omega)
    refine ⟨d2, j, true, by simp [hd2], hsw1.trans (SwapsIn.one j a (by omega) (by omega)
      (Nat.le_refl _) (by omega) hd2), by omega, by omega, ?_, ?_⟩
    · intro k hk1 hk2
      rw [hkey2 k, hkey2 j]
      have := hi3 k
      have := hi3 j
      split_ifs <;> omega
    · intro k hk1 hk2
      rw [hkey2 k, hkey2 j]
      have := hj3 k
      by_cases hja : j = a
      · subst hja
        split_ifs <;> omega
      · split_ifs <;> omega
  · simp only [hij, if_false]
    have hlt : i < j := by
      have h1 := hi4 (by omega)
      have h2 := hj4 (by omega)
      by_cases e : i = j
      · subst e; omega
      · omega
    obtain ⟨d2, hd2, hlen2, hkey2, _⟩ := Swap_spec d1 i j (by omega) (by omega)
    have hsw2 : SwapsIn a b d d2 :=
      hsw1.trans (SwapsIn.one i j (by omega) (by omega) (by omega) (by omega) hd2)
    obtain ⟨st, hrun, ⟨hst1, hst2, hst3, hst4, hst5, hst6, hst7⟩, hexit⟩ :=
      forLoop_spec (σ := Nat × Nat × StopByTime × Bool)
        (fun st => some (!st.2.2.2))
        (fun st =>
          (forLoop (σ := Nat) (fun i => if i ≤ st.2.1 then st.2.2.1.Less i a else some false)
              (fun i => some (i + 1)) (d.length + 2) st.1).bind
            fun i =>
            (forLoop (σ := Nat)
                (fun j => if i ≤ j then Option.map (fun l => !l) (st.2.2.1.Less j a)
                  else some false)
                (fun j => some (j - 1)) (d.length + 2) st.2.1).bind
              fun j =>
              if i > j then pure (i, j, st.2.2.1, true)
              else (st.2.2.1.Swap i j).bind fun data => pure (i + 1, j - 1, data, false))
        (fun st => a + 1 ≤ st.1 ∧ st.2.1 ≤ b - 1 ∧ st.1 ≤ st.2.1 + 1 ∧
          SwapsIn a b d st.2.2.1 ∧ keyAt st.2.2.1 a = keyAt d1 a ∧
          (∀ k, a + 1 ≤ k → k < st.1 → keyAt st.2.2.1 k < keyAt d1 a) ∧
          (∀ k, st.2.1 < k → k ≤ b - 1 → keyAt d1 a ≤ keyAt st.2.2.1 k) ∧
          (st.2.2.2 = true → st.1 = st.2.1 + 1))
        (fun st => if st.2.2.2 then 0 else st.2.1 + 2 - st.1)
        (by
          rintro ⟨i', j', D, done⟩ ⟨h1, h2, h3, h4, h5, h6, h7, h8⟩
          dsimp only at *
          cases done with
          | true => left; rfl
          | false =>
            right
            refine ⟨rfl, ?_⟩
            have hlenD := h4.length
            obtain ⟨i2, hi2r, hu1, hu2, hu3, hu4⟩ :=
              scanUp_spec D a i' j' (d.length + 2) (by omega) (by omega) (by omega) (by omega)
            obtain ⟨j2, hj2r, hv1, hv2, hv3, hv4⟩ :=
              scanDown_spec D a i2 j' (d.length + 2) (by omega) (by omega) (by omega)
                (by omega) (by omega)
            rw [hi2r, Option.some_bind, hj2r, Option.some_bind]
            by_cases hgt : i2 > j2
            · refine ⟨(i2, j2, D, true), by simp [hgt], ⟨?_, ?_, ?_, h4, h5,
                ?_, ?_, fun _ => ?_⟩, ?_⟩
              all_goals dsimp only
              · omega
              · omega
              · omega
              · intro k hk1 hk2
                by_cases hk : k < i'
                · exact h6 k hk1 hk
                · have := hu3 k (by omega) hk2
                  omega
              · intro k hk1 hk2
                by_cases hk : j' < k
                · exact h7 k hk hk2
                · have := hv3 k hk1 (by omega)
                  omega
              · omega
              · simp
                omega
            · have hu4' := hu4 (by omega)
              have hv4' := hv4 (by omega)
              have hne : i2 ≠ j2 := by
                intro e
                subst e
                omega
              obtain ⟨D2, hD2, hlenD2, hkeyD2, _⟩ := Swap_spec D i2 j2 (by omega) (by omega)
              refine ⟨(i2 + 1, j2 - 1, D2, false), by simp [hgt, hD2],
                ⟨?_, ?_, ?_,
                  h4.trans (SwapsIn.one i2 j2 (by omega) (by omega) (by omega) (by omega) hD2),
                  ?_, ?_, ?_, fun h => by simp at h⟩, ?_⟩
              all_goals dsimp only
              · omega
              · omega
              · omega
              · rw [hkeyD2 a, if_neg (by omega), if_neg (by omega)]
                exact h5
              · intro k hk1 hk2
                rw [hkeyD2 k]
                have := h6 k hk1
                have := hu3 k
                split_ifs <;> omega
              · intro k hk1 hk2
                rw [hkeyD2 k]
                have := h7 k
                have := hv3 k
                split_ifs <;> omega
              · simp
                omega)
        (d.length + 2) (i + 1, j - 1, d2, false)
        ⟨by dsimp only; omega, by dsimp only; omega, by dsimp only; omega, hsw2,
          by rw [hkey2 a, if_neg (by omega), if_neg (by omega)],
          by
            intro k hk1 hk2
            dsimp only at hk2 ⊢
            rw [hkey2 k]
            have := hi3 k
            have := hj4 (by omega)
            split_ifs <;> omega,
          by
            intro k hk1 hk2
            dsimp only at hk1 ⊢
            rw [hkey2 k]
            have := hj3 k
            have := hi4 (by omega)
            split_ifs <;> omega,
          fun h => by simp at h⟩
        (by simp; omega)
    have hdone : st.2.2.2 = true := by
      have := Option.some.inj hexit
      simpa using this
    have hmid := hst7.2 hdone
    have hlenS := hst4.length
    obtain ⟨d3, hd3, hlen3, hkey3, _⟩ := Swap_spec st.2.2.1 st.2.1 a (by omega) (by omega)
    refine ⟨d3, st.2.1, false,
      by rw [hd2, Option.some_bind, hrun, Option.some_bind, hd3, Option.some_bind]; rfl,
      hst4.trans (SwapsIn.one st.2.1 a (by omega) (by omega) (Nat.le_refl _) (by omega) hd3),
      by omega, by omega, ?_, ?_⟩
    · intro k hk1 hk2
      rw [hkey3 k, hkey3 st.2.1]
      have := hst6 k
      have := hst6 st.2.1
      by_cases hja : st.2.1 = a
      · omega
      · have h1 : keyAt st.2.2.1 st.2.1 < keyAt d1 a := this (by omega) (by omega)
        split_ifs with e1 e2 e3 e4 e5
        · rw [hst5]; exact h1
        · exact absurd rfl e2
        · omega
        · exact absurd rfl ‹_›
        · rw [hst5]; exact ‹a + 1 ≤ k → k < st.1 → _› (by omega) (by omega)
        · exact absurd rfl ‹_›
    · intro k hk1 hk2
      rw [hkey3 k, hkey3 st.2.1]
      have := hst7.1 k
      by_cases hja : st.2.1 = a
      · rw [hja] at *
        split_ifs <;> omega
      · split_ifs <;> omega

/-- The scan `for i <= j && !data.Less(a, i) { i++ }`. -/
theorem scanUpEq_spec (D : StopByTime) (a i0 j fuel : Nat) (ha : a < D.length)
    (hj : j < D.length) (hij : i0 ≤ j + 1) (hfuel : j + 1 - i0 < fuel) :
    ∃ i, forLoop (σ := Nat)
        (fun i => if i ≤ j then (D.Less a i).map (fun l => !l) else some false)
        (fun i => some (i + 1)) fuel i0 = some i ∧
      i0 ≤ i ∧ i ≤ j + 1 ∧ (∀ k, i0 ≤ k → k < i → keyAt D k ≤ keyAt D a) ∧
      (i ≤ j → keyAt D a < keyAt D i) := by
  obtain ⟨i, hrun, ⟨h1, h2, h3⟩, hexit⟩ :=
    forLoop_spec (σ := Nat)
      (fun i => if i ≤ j then (D.Less a i).map (fun l => !l) else some false)
      (fun i => some (i + 1))
      (fun i => i0 ≤ i ∧ i ≤ j + 1 ∧ ∀ k, i0 ≤ k → k < i → keyAt D k ≤ keyAt D a)
      (fun i => j + 1 - i)
      (by
        intro i ⟨h1, h2, h3⟩
        dsimp only
        by_cases hle : i ≤ j
        · rw [if_pos hle, Less_key D a i ha (by omega)]
          by_cases hl : keyAt D a < keyAt D i
          · left
            simp [hl]
          · right
            refine ⟨by simp [hl], i + 1, rfl, ⟨by omega, by omega, fun k hk1 hk2 => ?_⟩, by omega⟩
            by_cases hki : k = i
            · rw [hki]; omega
            · exact h3 k hk1 (by omega)
        · left
          rw [if_neg hle])
      fuel i0 ⟨Nat.le_refl _, hij, fun k hk1 hk2 => by omega⟩ hfuel
  refine ⟨i, hrun, h1, h2, h3, fun hle => ?_⟩
  have hexit' : (if i ≤ j then (D.Less a i).map (fun l => !l) else some false) = some false :=
    hexit
  rw [if_pos hle, Less_key D a i ha (by omega)] at hexit'
  simpa using hexit'

/-- The scan `for i <= j && data.Less(a, j) { j-- }`. -/
theorem scanDownEq_spec (D : StopByTime) (a i j0 fuel : Nat) (ha : a < D.length)
    (hj : j0 < D.length) (hi : 1 ≤ i) (hij : i ≤ j0 + 1) (hfuel : j0 < fuel) :
    ∃ j, forLoop (σ := Nat) (fun j => if i ≤ j then D.Less a j else some false)
        (fun j => some (j - 1)) fuel j0 = some j ∧
      j ≤ j0 ∧ i ≤ j + 1 ∧ (∀ k, j < k → k ≤ j0 → keyAt D a < keyAt D k) ∧
      (i ≤ j → keyAt D j ≤ keyAt D a) := by
  obtain ⟨j, hrun, ⟨h1, h2, h3⟩, hexit⟩ :=
    forLoop_spec (σ := Nat) (fun j => if i ≤ j then D.Less a j else some false)
      (fun j => some (j - 1))
      (fun j => j ≤ j0 ∧ i ≤ j + 1 ∧ ∀ k, j < k → k ≤ j0 → keyAt D a < keyAt D k)
      (fun j => j)
      (by
        intro j ⟨h1, h2, h3⟩
        dsimp only
        by_cases hle : i ≤ j
        · rw [if_pos hle, Less_key D a j ha (by omega)]
          by_cases hl : keyAt D a < keyAt D j
          · right
            refine ⟨by simp [hl], j - 1, rfl, ⟨by omega, by omega, fun k hk1 hk2 => ?_⟩, by omega⟩
            by_cases hkj : k = j
            · rw [hkj]; exact hl
            · exact h3 k (by omega) hk2
          · left
            simp [hl]
        · left
          rw [if_neg hle])
      fuel j0 ⟨Nat.le_refl _, hij, fun k hk1 hk2 => by omega⟩ hfuel
  refine ⟨j, hrun, h1, h2, h3, fun hle => ?_⟩
  have hexit' : (if i ≤ j then D.Less a j else some false) = some false := hexit
  rw [if_pos hle, Less_key D a j ha (by omega)] at hexit'
  have := Option.some.inj hexit'
  simp only [decide_eq_false_iff_not] at this
  omega

theorem partitionEqual_spec (d : StopByTime) (a b pivot : Nat) (hap : a ≤ pivot)
    (hpb : pivot < b) (hbn : b ≤ d.length) :
    ∃ d' mid, partitionEqual d a b pivot = some (d', mid) ∧ SwapsIn a b d d' ∧
      a + 1 ≤ mid ∧ mid ≤ b ∧
      (∀ k, a ≤ k → k < mid → keyAt d' k ≤ keyAt d pivot) ∧
      (∀ k, mid ≤ k → k < b → keyAt d pivot < keyAt d' k) := by
  unfold partitionEqual
  dsimp only
  obtain ⟨d1, hd1, hlen1, hkey1, _⟩ := Swap_spec d a pivot (by omega) (by omega)
  have hsw1 : SwapsIn a b d d1 := SwapsIn.one a pivot (Nat.le_refl _) (by omega) hap hpb hd1
  have hp : keyAt d1 a = keyAt d pivot := by
    rw [hkey1 a]
    by_cases e1 : a = pivot
    · rw [if_pos e1, e1]
    · rw [if_neg e1, if_pos rfl]
  obtain ⟨st, hrun, ⟨hst1, hst2, hst3, hst4, hst5, hst6, hst7⟩, hexit⟩ :=
    forLoop_spec (σ := Nat × Nat × StopByTime × Bool)
      (fun st => some (!st.2.2.2))
      (fun st =>
        (forLoop (σ := Nat)
            (fun i => if i ≤ st.2.1 then Option.map (fun l => !l) (st.2.2.1.Less a i)
              else some false)
            (fun i => some (i + 1)) (d.length + 2) st.1).bind
          fun i =>
          (forLoop (σ := Nat) (fun j => if i ≤ j then st.2.2.1.Less a j else some false)
              (fun j => some (j - 1)) (d.length + 2) st.2.1).bind
            fun j =>
            if i > j then pure (i, j, st.2.2.1, true)
            else (st.2.2.1.Swap i j).bind fun data => pure (i + 1, j - 1, data, false))
      (fun st => a + 1 ≤ st.1 ∧ st.2.1 ≤ b - 1 ∧ st.1 ≤ st.2.1 + 1 ∧
        SwapsIn a b d st.2.2.1 ∧ keyAt st.2.2.1 a = keyAt d1 a ∧
        (∀ k, a + 1 ≤ k → k < st.1 → keyAt st.2.2.1 k ≤ keyAt d1 a) ∧
        (∀ k, st.2.1 < k → k ≤ b - 1 → keyAt d1 a < keyAt st.2.2.1 k) ∧
        (st.2.2.2 = true → st.1 = st.2.1 + 1))
      (fun st => if st.2.2.2 then 0 else st.2.1 + 2 - st.1)
      (by
        rintro ⟨i', j', D, done⟩ ⟨h1, h2, h3, h4, h5, h6, h7, h8⟩
        dsimp only at *
        cases done with
        | true => left; rfl
        | false =>
          right
          refine ⟨rfl, ?_⟩
          have hlenD := h4.length
          obtain ⟨i2, hi2r, hu1, hu2, hu3, hu4⟩ :=
            scanUpEq_spec D a i' j' (d.length + 2) (by omega) (by omega) (by omega) (by omega)
          obtain ⟨j2, hj2r, hv1, hv2, hv3, hv4⟩ :=
            scanDownEq_spec D a i2 j' (d.length + 2) (by omega) (by omega) (by omega)
              (by omega) (by omega)
          rw [hi2r, Option.some_bind, hj2r, Option.some_bind]
          by_cases hgt : i2 > j2
          · refine ⟨(i2, j2, D, true), by simp [hgt], ⟨?_, ?_, ?_, h4, h5,
              ?_, ?_, fun _ => ?_⟩, ?_⟩
            all_goals dsimp only
            · omega
            · omega
            · omega
            · intro k hk1 hk2
              by_cases hk : k < i'
              · exact h6 k hk1 hk
              · have := hu3 k (by omega) hk2
                omega
            · intro k hk1 hk2
              by_cases hk : j' < k
              · exact h7 k hk hk2
              · have := hv3 k hk1 (by omega)
                omega
            · omega
            · simp
              omega
          · have hu4' := hu4 (by omega)
            have hv4' := hv4 (by omega)
            have hne : i2 ≠ j2 := by
              intro e
              subst e
              omega
            obtain ⟨D2, hD2, hlenD2, hkeyD2, _⟩ := Swap_spec D i2 j2 (by omega) (by omega)
            refine ⟨(i2 + 1, j2 - 1, D2, false), by simp [hgt, hD2],
              ⟨?_, ?_, ?_,
                h4.trans (SwapsIn.one i2 j2 (by omega) (by omega) (by omega) (by omega) hD2),
                ?_, ?_, ?_, fun h => by simp at h⟩, ?_⟩
            all_goals dsimp only
            · omega
            · omega
            · omega
            · rw [hkeyD2 a, if_neg (by omega), if_neg (by omega)]
              exact h5
            · intro k hk1 hk2
              rw [hkeyD2 k]
              have := h6 k hk1
              have := hu3 k
              split_ifs <;> omega
            · intro k hk1 hk2
              rw [hkeyD2 k]
              have := h7 k
              have := hv3 k
              split_ifs <;> omega
            · simp
              omega)
      (d.length + 2) (a + 1, b - 1, d1, false)
      ⟨by dsimp only; omega, by dsimp only; omega, by dsimp only; omega, hsw1, rfl,
        fun k hk1 hk2 => by dsimp only at hk2; omega,
        fun k hk1 hk2 => by dsimp only at hk1; omega,
        fun h => by simp at h⟩
      (by simp; omega)
  have hdone : st.2.2.2 = true := by
    have := Option.some.inj hexit
    simpa using this
  have hmid := hst7.2 hdone
  refine ⟨st.2.2.1, st.1,
    by simp only [hd1, Option.bind_eq_bind, Option.some_bind]; rw [hrun]; rfl, hst4,
    hst1, by omega, ?_, ?_⟩
  · intro k hk1 hk2
    rw [← hp]
    by_cases hka : k = a
    · rw [hka, hst5]
    · exact hst6 k (by omega) hk2
  · intro k hk1 hk2
    rw [← hp]
    exact hst7.1 k (by omega) (by omega)

theorem LowerBound.of_swapsIn {d d' : StopByTime} {a b : Nat} (h : LowerBound d a b)
    (hsw : SwapsIn a b d d') : LowerBound d' a b := by
  intro ha k hk1 hk2
  rw [hsw.keyAt_outside (a - 1) (Or.inl (by omega))]
  exact hsw.forall_key (fun x => keyAt d (a - 1) ≤ x) (h ha) k hk1 hk2

/-- The scan `for i < b && !data.Less(i, i-1) { i++ }` of `partialInsertionSort`. -/
theorem scanSorted_spec (D : StopByTime) (a b i0 fuel : Nat) (hb : b ≤ D.length)
    (hi0 : a + 1 ≤ i0) (hi0b : i0 ≤ b) (hsorted : SortedOn D a i0) (hfuel : b - i0 < fuel) :
    ∃ i, forLoop (σ := Nat)
        (fun i => if i < b then (D.Less i (i - 1)).map (fun l => !l) else some false)
        (fun i => some (i + 1)) fuel i0 = some i ∧
      i0 ≤ i ∧ i ≤ b ∧ SortedOn D a i ∧ (i < b → keyAt D i < keyAt D (i - 1)) := by
  obtain ⟨i, hrun, ⟨h1, h2, h3⟩, hexit⟩ :=
    forLoop_spec (σ := Nat)
      (fun i => if i < b then (D.Less i (i - 1)).map (fun l => !l) else some false)
      (fun i => some (i + 1))
      (fun i => i0 ≤ i ∧ i ≤ b ∧ SortedOn D a i)
      (fun i => b - i)
      (by
        intro i ⟨h1, h2, h3⟩
        dsimp only
        by_cases hlt : i < b
        · rw [if_pos hlt, Less_key D i (i - 1) (by omega) (by omega)]
          by_cases hl : keyAt D i < keyAt D (i - 1)
          · left
            simp [hl]
          · right
            refine ⟨by simp [hl], i + 1, rfl, ⟨by omega, by omega, fun p q hp hpq hq => ?_⟩,
              by omega⟩
            by_cases hqi : q = i
            · subst hqi
              by_cases hp1 : p = q - 1
              · subst hp1; omega
              · have := h3 p (q - 1) hp (by omega) (by omega)
                omega
            · exact h3 p q hp hpq (by omega)
        · left
          rw [if_neg hlt])
      fuel i0 ⟨Nat.le_refl _, hi0b, hsorted⟩ hfuel
  refine ⟨i, hrun, h1, h2, h3, fun hlt => ?_⟩
  have hexit' : (if i < b then (D.Less i (i - 1)).map (fun l => !l) else some false) =
      some false := hexit
  rw [if_pos hlt, Less_key D i (i - 1) (by omega) (by omega)] at hexit'
  simpa using hexit'

/-- The loop "shift the smaller one to the left" of `partialInsertionSort`. -/
theorem shiftLeft_spec (d0 d : StopByTime) (a b i : Nat) (hai : a ≤ i) (hib : i < b)
    (hbn : b ≤ d.length) (hsw : SwapsIn a b d0 d) (hLB : LowerBound d0 a b)
    (hsorted : SortedOn d a i) (fuel : Nat) (hfuel : i < fuel) :
    ∃ js : Nat × StopByTime,
      forLoop (σ := Nat × StopByTime)
        (fun js => if js.1 ≥ 1 then js.2.Less js.1 (js.1 - 1) else some false)
        (fun js => (js.2.Swap js.1 (js.1 - 1)).map (fun d => (js.1 - 1, d)))
        fuel (i, d) = some js ∧
      SwapsIn a b d0 js.2 ∧ SortedOn js.2 a (i + 1) := by
  have hlen0 := hsw.length
  obtain ⟨js, hrun, ⟨hj1, hj2, hjsw, hfirst, hsecond⟩, hexit⟩ :=
    forLoop_spec (σ := Nat × StopByTime)
      (fun js => if js.1 ≥ 1 then js.2.Less js.1 (js.1 - 1) else some false)
      (fun js => (js.2.Swap js.1 (js.1 - 1)).map (fun d => (js.1 - 1, d)))
      (fun js => a ≤ js.1 ∧ js.1 ≤ i ∧ SwapsIn a b d0 js.2 ∧
        (∀ p q, a ≤ p → p < q → q ≤ i → p ≠ js.1 → q ≠ js.1 → keyAt js.2 p ≤ keyAt js.2 q) ∧
        (∀ q, js.1 < q → q ≤ i → keyAt js.2 js.1 ≤ keyAt js.2 q))
      (fun js => js.1)
      (by
        rintro ⟨j, d2⟩ ⟨hj1, hj2, hjsw, hfirst, hsecond⟩
        dsimp only at *
        have hlen : d2.length = d.length := hjsw.length.trans hlen0.symm
        by_cases hj0 : j ≥ 1
        · rw [if_pos hj0, Less_key d2 j (j - 1) (by omega) (by omega)]
          by_cases hless : keyAt d2 j < keyAt d2 (j - 1)
          · have hja : j > a := by
              by_cases e : j = a
              · subst e
                have := (hLB.of_swapsIn hjsw) (by omega) j (Nat.le_refl _) (by omega)
                omega
              · omega
            right
            refine ⟨by simp [hless], ?_⟩
            obtain ⟨d3, hd3, hlen3, hk, _⟩ := Swap_spec d2 j (j - 1) (by omega) (by omega)
            refine ⟨(j - 1, d3), by simp [hd3], ⟨by omega, by omega, ?_, ?_, ?_⟩, by omega⟩
            · exact SwapsIn.step j (j - 1) hjsw (by omega) (by omega) (by omega) (by omega) hd3
            · intro p q hap hpq hqi hpj hqj
              dsimp only at hpj hqj ⊢
              rw [hk p, hk q]
              have h1 := hfirst (j - 1) q (by omega)
              have h2 := hfirst p (j - 1) hap
              have h3 := hfirst p q hap hpq hqi
              split_ifs <;> omega
            · intro q hjq hqi
              dsimp only at hjq ⊢
              rw [hk (j - 1), hk q]
              have := hsecond q
              split_ifs <;> omega
          · left
            simp [hless]
        · left
          rw [if_neg hj0])
      fuel (i, d)
      ⟨hai, Nat.le_refl _, hsw,
        fun p q hap hpq hqi _ hq => hsorted p q hap hpq (by dsimp only at hq; omega),
        fun q hjq hqi => by dsimp only at hjq; omega⟩
      hfuel
  refine ⟨js, hrun, hjsw, ?_⟩
  have hlen : js.2.length = d.length := hjsw.length.trans hlen0.symm
  have hleft : js.1 > a → keyAt js.2 (js.1 - 1) ≤ keyAt js.2 js.1 := by
    intro hja
    have hexit' : (if js.1 ≥ 1 then js.2.Less js.1 (js.1 - 1) else some false) = some false :=
      hexit
    rw [if_pos (by omega), Less_key js.2 js.1 (js.1 - 1) (by omega) (by omega)] at hexit'
    have := Option.some.inj hexit'
    simp only [decide_eq_false_iff_not] at this
    omega
  intro p q hap hpq hqi
  by_cases hp : p = js.1
  · rw [hp]
    exact hsecond q (by omega) (by omega)
  · by_cases hq : q = js.1
    · rw [hq]
      by_cases hp1 : p = js.1 - 1
      · rw [hp1]
        exact hleft (by omega)
      · have h1 := hfirst p (js.1 - 1) hap (by omega) (by omega) hp (by omega)
        have h2 := hleft (by omega)
        omega
    · exact hfirst p q hap hpq (by omega) hp hq

/-- The loop "shift the greater one to the right" of `partialInsertionSort`. -/
theorem shiftRight_spec (d : StopByTime) (b i fuel : Nat) (hbn : b ≤ d.length)
    (hfuel : b - i < fuel) :
    ∃ js : Nat × StopByTime,
      forLoop (σ := Nat × StopByTime)
        (fun js => if js.1 < b then js.2.Less js.1 (js.1 - 1) else some false)
        (fun js => (js.2.Swap js.1 (js.1 - 1)).map (fun d => (js.1 + 1, d)))
        fuel (i + 1, d) = some js ∧
      SwapsIn i b d js.2 := by
  obtain ⟨js, hrun, ⟨_, hsw⟩, _⟩ :=
    forLoop_spec (σ := Nat × StopByTime)
      (fun js => if js.1 < b then js.2.Less js.1 (js.1 - 1) else some false)
      (fun js => (js.2.Swap js.1 (js.1 - 1)).map (fun d => (js.1 + 1, d)))
      (fun js => i + 1 ≤ js.1 ∧ SwapsIn i b d js.2)
      (fun js => b - js.1)
      (by
        rintro ⟨j, d2⟩ ⟨hj, hsw⟩
        dsimp only at *
        have hlen := hsw.length
        by_cases hjb : j < b
        · rw [if_pos hjb, Less_key d2 j (j - 1) (by omega) (by omega)]
          by_cases hless : keyAt d2 j < keyAt d2 (j - 1)
          · right
            obtain ⟨d3, hd3, _, _, _⟩ := Swap_spec d2 j (j - 1) (by omega) (by omega)
            exact ⟨by simp [hless], (j + 1, d3), by simp [hd3],
              ⟨by omega, SwapsIn.step j (j - 1) hsw (by omega) hjb (by omega) (by omega) hd3⟩,
              by omega⟩
          · left
            simp [hless]
        · left
          rw [if_neg hjb])
      fuel (i + 1, d) ⟨Nat.le_refl _, SwapsIn.refl d⟩ (by dsimp only; omega)
  exact ⟨js, hrun, hsw⟩

theorem SortedOn.of_keys_eq {d d' : StopByTime} {a i : Nat} (h : SortedOn d a i)
    (hk : ∀ k, k < i → keyAt d' k = keyAt d k) : SortedOn d' a i := by
  intro p q hp hpq hq
  rw [hk p (by omega), hk q hq]
  exact h p q hp hpq hq

theorem partialInsertionSort_steps_spec (d0 : StopByTime) (a b : Nat) (hbn : b ≤ d0.length)
    (hLB : LowerBound d0 a b) :
    ∀ (n i : Nat) (d : StopByTime), a + 1 ≤ i → i ≤ b → SwapsIn a b d0 d → SortedOn d a i →
      ∃ d' r, partialInsertionSort.steps a b (d0.length + 2) 50 n i d = some (d', r) ∧
        SwapsIn a b d0 d' ∧ (r = true → SortedOn d' a b) := by
  intro n
  induction n with
  | zero =>
    intro i d _ _ hsw _
    exact ⟨d, false, by rw [partialInsertionSort.steps], hsw, fun h => by simp at h⟩
  | succ n ih =>
    intro i d hai hib hsw hsorted
    have hlen := hsw.length
    rw [partialInsertionSort.steps]
    obtain ⟨i', hscan, hi1, hi2, hi3, hi4⟩ :=
      scanSorted_spec d a b i (d0.length + 2) (by omega) hai hib hsorted (by omega)
    simp only [hscan, Option.bind_eq_bind, Option.some_bind]
    by_cases hib' : i' = b
    · subst hib'
      exact ⟨d, true, by simp, hsw, fun _ => hi3⟩
    · simp only [hib', if_false]
      by_cases hshort : b - a < 50
      · exact ⟨d, false, by simp [hshort], hsw, fun h => by simp at h⟩
      · simp only [hshort, if_false]
        have hi4' := hi4 (by omega)
        obtain ⟨d1, hd1, hlen1, hkey1, _⟩ := Swap_spec d i' (i' - 1) (by omega) (by omega)
        have hsw1 : SwapsIn a b d0 d1 :=
          SwapsIn.step i' (i' - 1) hsw (by omega) (by omega) (by omega) (by omega) hd1
        have hsorted1 : SortedOn d1 a (i' - 1) := by
          apply SortedOn.of_keys_eq (d := d)
            (fun p q hp hpq hq => hi3 p q hp hpq (by omega))
          intro k hk
          rw [hkey1 k, if_neg (by omega), if_neg (by omega)]
        simp only [hd1, Option.some_bind]
        -- shift the smaller one to the left
        have hleft : ∃ d2, (if i' - a ≥ 2 then
              Option.map Prod.snd
                (forLoop (σ := Nat × StopByTime)
                  (fun js => if js.1 ≥ 1 then js.2.Less js.1 (js.1 - 1) else some false)
                  (fun js => Option.map (fun d => (js.1 - 1, d)) (js.2.Swap js.1 (js.1 - 1)))
                  (d0.length + 2) (i' - 1, d1))
            else pure d1) = some d2 ∧ SwapsIn a b d0 d2 ∧ SortedOn d2 a i' := by
          by_cases h2 : i' - a ≥ 2
          · obtain ⟨js, hjs, hjsw, hjsorted⟩ :=
              shiftLeft_spec d0 d1 a b (i' - 1) (by omega) (by omega) (by omega) hsw1 hLB
                hsorted1 (d0.length + 2) (by omega)
            have e : i' - 1 + 1 = i' := by omega
            rw [e] at hjsorted
            exact ⟨js.2, by rw [if_pos h2, hjs]; rfl, hjsw, hjsorted⟩
          · refine ⟨d1, by rw [if_neg h2]; rfl, hsw1, fun p q hp hpq hq => by omega⟩
        obtain ⟨d2, hd2, hsw2, hsorted2⟩ := hleft
        have hlen2 := hsw2.length
        -- shift the greater one to the right
        have hright : ∃ d3, (if b - i' ≥ 2 then
              Option.map Prod.snd
                (forLoop (σ := Nat × StopByTime)
                  (fun js => if js.1 < b then js.2.Less js.1 (js.1 - 1) else some false)
                  (fun js => Option.map (fun d => (js.1 + 1, d)) (js.2.Swap js.1 (js.1 - 1)))
                  (d0.length + 2) (i' + 1, d2))
            else pure d2) = some d3 ∧ SwapsIn a b d0 d3 ∧ SortedOn d3 a i' := by
          by_cases h2 : b - i' ≥ 2
          · obtain ⟨js, hjs, hjsw⟩ :=
              shiftRight_spec d2 b i' (d0.length + 2) (by omega) (by omega)
            refine ⟨js.2, by rw [if_pos h2, hjs]; rfl,
              hsw2.trans (hjsw.mono (by omega) (Nat.le_refl _)), ?_⟩
            exact SortedOn.of_keys_eq hsorted2
              (fun k hk => hjsw.keyAt_outside k (Or.inl hk))
          · exact ⟨d2, by rw [if_neg h2]; rfl, hsw2, hsorted2⟩
        obtain ⟨d3, hd3, hsw3, hsorted3⟩ := hright
        obtain ⟨d', r, hrec, hsw', hr⟩ := ih i' d3 (by omega) hi2 hsw3 hsorted3
        refine ⟨d', r, ?_, hsw', hr⟩
        by_cases h2 : i' - a ≥ 2 <;> by_cases h3 : b - i' ≥ 2 <;>
          simp only [h2, h3, if_true, if_false, Option.pure_def, Option.some_bind,
            Option.some.injEq] at hd2 hd3 ⊢
        · rw [hd2, Option.some_bind, hd3, Option.some_bind, hrec]
        · rw [hd2, Option.some_bind, hd3, hrec]
        · rw [hd2, hd3, Option.some_bind, hrec]
        · rw [hd2, hd3, hrec]

theorem partialInsertionSort_spec (d : StopByTime) (a b : Nat) (hab : a < b)
    (hbn : b ≤ d.length) (hLB : LowerBound d a b) :
    ∃ d' r, partialInsertionSort d a b = some (d', r) ∧ SwapsIn a b d d' ∧
      (r = true → SortedOn d' a b) := by
  unfold partialInsertionSort
  exact partialInsertionSort_steps_spec d a b hbn hLB 5 (a + 1) d (Nat.le_refl _) (by omega)
    (SwapsIn.refl d) (fun p q hp hpq hq => by omega)

theorem sortedOn_join (d : StopByTime) (a mid b : Nat) (h1 : SortedOn d a mid)
    (h2 : SortedOn d (mid + 1) b) (h3 : ∀ k, a ≤ k → k < mid → keyAt d k ≤ keyAt d mid)
    (h4 : ∀ k, mid < k → k < b → keyAt d mid ≤ keyAt d k) : SortedOn d a b := by
  intro p q hp hpq hq
  by_cases hq1 : q < mid
  · exact h1 p q hp hpq hq1
  · by_cases hp1 : mid < p
    · exact h2 p q (by omega) hpq hq
    · by_cases hp2 : p = mid
      · subst hp2
        exact h4 q (by omega) hq
      · have := h3 p hp (by omega)
        by_cases hq2 : q = mid
        · subst hq2; exact this
        · have := h4 q (by omega) hq
          omega

theorem pdqsort_after_partition (fuel : Nat) (ih : PdqsortSpec fuel) (d0 dC : StopByTime)
    (a b pivot limit : Nat) (hbn : b ≤ d0.length) (hfuel : b - a < fuel + 1)
    (hLB : LowerBound d0 a b) (hsw : SwapsIn a b d0 dC) (hap : a ≤ pivot) (hpb : pivot < b) :
    ∃ d', (do
        let r ← partition dC a b pivot
        if r.2.1 - a < b - r.2.1 then do
          let data ← pdqsort fuel r.1 a r.2.1 limit true true
          pdqsort fuel data (r.2.1 + 1) b limit (decide (r.2.1 - a ≥ (b - a) / 8)) r.2.2
        else do
          let data ← pdqsort fuel r.1 (r.2.1 + 1) b limit true true
          pdqsort fuel data a r.2.1 limit (decide (b - r.2.1 ≥ (b - a) / 8)) r.2.2) = some d' ∧
      SwapsIn a b d0 d' ∧ SortedOn d' a b := by
  have hlenC := hsw.length
  obtain ⟨dD, mid, ap, hpart, hswD, hm1, hm2, hleft, hright⟩ :=
    partition_spec dC a b pivot hap hpb (by omega)
  have hswD0 : SwapsIn a b d0 dD := hsw.trans hswD
  have hlenD := hswD0.length
  have hLBD : LowerBound dD a b := hLB.of_swapsIn hswD0
  simp only [hpart, Option.bind_eq_bind, Option.some_bind]
  by_cases hlr : mid - a < b - mid
  · simp only [hlr, if_true]
    obtain ⟨dE, hE, hswE, hsortE⟩ := ih dD a mid limit true true hm1 (by omega) (by omega)
      (fun ha k hk1 hk2 => hLBD ha k hk1 (by omega))
    have hlenE := hswE.length
    have hEmid : ∀ k, mid ≤ k → keyAt dE k = keyAt dD k :=
      fun k hk => hswE.keyAt_outside k (Or.inr hk)
    obtain ⟨dF, hF, hswF, hsortF⟩ := ih dE (mid + 1) b limit
      (decide (mid - a ≥ (b - a) / 8)) ap (by omega) (by omega) (by omega)
      (by
        intro _ k hk1 hk2
        have e : mid + 1 - 1 = mid := by omega
        rw [e, hEmid mid (Nat.le_refl _), hEmid k (by omega)]
        exact hright k (by omega) hk2)
    have hFlow : ∀ k, k < mid + 1 → keyAt dF k = keyAt dE k :=
      fun k hk => hswF.keyAt_outside k (Or.inl hk)
    refine ⟨dF, by simp only [hE, Option.some_bind, hF],
      hswD0.trans ((hswE.mono (Nat.le_refl _) (by omega)).trans
        (hswF.mono (by omega) (Nat.le_refl _))), ?_⟩
    apply sortedOn_join dF a mid b
    · exact SortedOn.of_keys_eq hsortE (fun k hk => hFlow k (by omega))
    · exact hsortF
    · intro k hk1 hk2
      rw [hFlow k (by omega), hFlow mid (by omega), hEmid mid (Nat.le_refl _)]
      have := hswE.forall_key (fun x => x < keyAt dD mid) hleft k hk1 hk2
      exact Int.le_of_lt this
    · intro k hk1 hk2
      rw [hFlow mid (by omega), hEmid mid (Nat.le_refl _)]
      exact hswF.forall_key (fun x => keyAt dD mid ≤ x)
        (fun k' h1 h2 => by
          show keyAt dD mid ≤ keyAt dE k'
          rw [hEmid k' (by omega)]
          exact hright k' (by omega) h2) k (by omega) hk2
  · simp only [hlr, if_false]
    obtain ⟨dE, hE, hswE, hsortE⟩ := ih dD (mid + 1) b limit true true (by omega) (by omega)
      (by omega)
      (by
        intro _ k hk1 hk2
        have e : mid + 1 - 1 = mid := by omega
        rw [e]
        exact hright k (by omega) hk2)
    have hlenE := hswE.length
    have hElow : ∀ k, k < mid + 1 → keyAt dE k = keyAt dD k :=
      fun k hk => hswE.keyAt_outside k (Or.inl hk)
    obtain ⟨dF, hF, hswF, hsortF⟩ := ih dE a mid limit
      (decide (b - mid ≥ (b - a) / 8)) ap hm1 (by omega) (by omega)
      (by
        intro ha k hk1 hk2
        rw [hElow (a - 1) (by omega), hElow k (by omega)]
        exact hLBD ha k hk1 (by omega))
    have hFhigh : ∀ k, mid ≤ k → keyAt dF k = keyAt dE k :=
      fun k hk => hswF.keyAt_outside k (Or.inr hk)
    refine ⟨dF, by simp only [hE, Option.some_bind, hF],
      hswD0.trans ((hswE.mono (by omega) (Nat.le_refl _)).trans
        (hswF.mono (Nat.le_refl _) (by omega))), ?_⟩
    apply sortedOn_join dF a mid b
    · exact hsortF
    · intro p q hp hpq hq
      rw [hFhigh p (by omega), hFhigh q (by omega)]
      exact hsortE p q hp hpq hq
    · intro k hk1 hk2
      rw [hFhigh mid (Nat.le_refl _), hElow mid (by omega)]
      have := hswF.forall_key (fun x => x < keyAt dD mid)
        (fun k' h1 h2 => by
          show keyAt dE k' < keyAt dD mid
          rw [hElow k' (by omega)]
          exact hleft k' h1 h2) k hk1 hk2
      exact Int.le_of_lt this
    · intro k hk1 hk2
      rw [hFhigh mid (Nat.le_refl _), hElow mid (by omega), hFhigh k (by omega)]
      exact hswE.forall_key (fun x => keyAt dD mid ≤ x)
        (fun k' h1 h2 => hright k' (by omega) h2) k (by omega) hk2

theorem pdqsort_after_partitionEqual (fuel : Nat) (ih : PdqsortSpec fuel) (d0 dC : StopByTime)
    (a b pivot limit : Nat) (wb wp : Bool) (hbn : b ≤ d0.length) (hfuel : b - a < fuel + 1)
    (hLB : LowerBound d0 a b) (hsw : SwapsIn a b d0 dC) (hap : a ≤ pivot) (hpb : pivot < b)
    (ha : 0 < a) (hdup : keyAt dC pivot ≤ keyAt dC (a - 1)) :
    ∃ d', (do
        let r ← partitionEqual dC a b pivot
        pdqsort fuel r.1 r.2 b limit wb wp) = some d' ∧
      SwapsIn a b d0 d' ∧ SortedOn d' a b := by
  have hlenC := hsw.length
  have hLBC : LowerBound dC a b := hLB.of_swapsIn hsw
  have hp : keyAt dC pivot = keyAt dC (a - 1) := by
    have := hLBC ha pivot hap hpb
    omega
  obtain ⟨dD, mid, hpart, hswD, hm1, hm2, hleft, hright⟩ :=
    partitionEqual_spec dC a b pivot hap hpb (by omega)
  have hswD0 : SwapsIn a b d0 dD := hsw.trans hswD
  have hlenD := hswD0.length
  have hLBD : LowerBound dD a b := hLBC.of_swapsIn hswD
  have hDa : keyAt dD (a - 1) = keyAt dC (a - 1) :=
    hswD.keyAt_outside (a - 1) (Or.inl (by omega))
  have heq : ∀ k, a ≤ k → k < mid → keyAt dD k = keyAt dC pivot := by
    intro k hk1 hk2
    have h1 := hleft k hk1 hk2
    have h2 := hLBD ha k hk1 (by omega)
    omega
  simp only [hpart, Option.bind_eq_bind, Option.some_bind]
  obtain ⟨dE, hE, hswE, hsortE⟩ := ih dD mid b limit wb wp hm2 (by omega) (by omega)
    (by
      intro _ k hk1 hk2
      rw [heq (mid - 1) (by omega) (by omega)]
      exact Int.le_of_lt (hright k hk1 hk2))
  have hElow : ∀ k, k < mid → keyAt dE k = keyAt dD k :=
    fun k hk => hswE.keyAt_outside k (Or.inl hk)
  refine ⟨dE, hE, hswD0.trans (hswE.mono (by omega) (Nat.le_refl _)), ?_⟩
  intro p q hp1 hpq hq
  by_cases hqm : q < mid
  · rw [hElow p (by omega), hElow q hqm, heq p hp1 (by omega), heq q (by omega) hqm]
  · by_cases hpm : p < mid
    · rw [hElow p hpm, heq p hp1 hpm]
      exact Int.le_of_lt (hswE.forall_key (fun x => keyAt dC pivot < x) hright q (by omega) hq)
    · exact hsortE p q (by omega) hpq hq

theorem pdqsort_tail (fuel : Nat) (ih : PdqsortSpec fuel) (d0 dC : StopByTime)
    (a b pivot limit : Nat) (wb wp : Bool) (hbn : b ≤ d0.length) (hfuel : b - a < fuel + 1)
    (hLB : LowerBound d0 a b) (hsw : SwapsIn a b d0 dC) (hap : a ≤ pivot) (hpb : pivot < b) :
    ∃ d', (do
        let dup ← if a > 0 then (dC.Less (a - 1) pivot).map (fun l => !l) else pure false
        if dup = true then do
          let r ← partitionEqual dC a b pivot
          pdqsort fuel r.1 r.2 b limit wb wp
        else do
          let r ← partition dC a b pivot
          if r.2.1 - a < b - r.2.1 then do
            let data ← pdqsort fuel r.1 a r.2.1 limit true true
            pdqsort fuel data (r.2.1 + 1) b limit (decide (r.2.1 - a ≥ (b - a) / 8)) r.2.2
          else do
            let data ← pdqsort fuel r.1 (r.2.1 + 1) b limit true true
            pdqsort fuel data a r.2.1 limit (decide (b - r.2.1 ≥ (b - a) / 8)) r.2.2) =
        some d' ∧
      SwapsIn a b d0 d' ∧ SortedOn d' a b := by
  have hlenC := hsw.length
  by_cases ha : a > 0
  · rw [if_pos ha, Less_key dC (a - 1) pivot (by omega) (by omega)]
    by_cases hl : keyAt dC (a - 1) < keyAt dC pivot
    · simp only [hl, decide_True, Option.map_some', Bool.not_true, Option.bind_eq_bind,
        Option.some_bind, Bool.false_eq_true, if_false]
      exact pdqsort_after_partition fuel ih d0 dC a b pivot limit hbn hfuel hLB hsw hap hpb
    · simp only [hl, decide_False, Option.map_some', Bool.not_false, Option.bind_eq_bind,
        Option.some_bind, if_true]
      exact pdqsort_after_partitionEqual fuel ih d0 dC a b pivot limit wb wp hbn hfuel hLB hsw
        hap hpb ha (by omega)
  · rw [if_neg ha]
    simp only [Option.pure_def, Option.bind_eq_bind, Option.some_bind, Bool.false_eq_true,
      if_false]
    exact pdqsort_after_partition fuel ih d0 dC a b pivot limit hbn hfuel hLB hsw hap hpb

theorem pdqsort_after_pivot (fuel : Nat) (ih : PdqsortSpec fuel) (d0 dB : StopByTime)
    (a b pB limit : Nat) (hB : sortedHint) (wb wp : Bool) (hbn : b ≤ d0.length)
    (hfuel : b - a < fuel + 1) (hLB : LowerBound d0 a b)
    (hsw : SwapsIn a b d0 dB) (hp1 : a ≤ pB) (hp2 : pB < b) :
    ∃ d', (do
        let y2 ←
          if (wb && wp && decide (hB = sortedHint.increasingHint)) = true then
            partialInsertionSort dB a b
          else pure (dB, false)
        if y2.2 = true then pure y2.1
        else do
          let dup ← if a > 0 then (y2.1.Less (a - 1) pB).map (fun l => !l) else pure false
          if dup = true then do
            let r ← partitionEqual y2.1 a b pB
            pdqsort fuel r.1 r.2 b limit wb wp
          else do
            let r ← partition y2.1 a b pB
            if r.2.1 - a < b - r.2.1 then do
              let data ← pdqsort fuel r.1 a r.2.1 limit true true
              pdqsort fuel data (r.2.1 + 1) b limit (decide (r.2.1 - a ≥ (b - a) / 8)) r.2.2
            else do
              let data ← pdqsort fuel r.1 (r.2.1 + 1) b limit true true
              pdqsort fuel data a r.2.1 limit (decide (b - r.2.1 ≥ (b - a) / 8)) r.2.2) =
        some d' ∧
      SwapsIn a b d0 d' ∧ SortedOn d' a b := by
  have hlenB := hsw.length
  by_cases hc : (wb && wp && decide (hB = sortedHint.increasingHint)) = true
  · obtain ⟨dC, r, hdC, hswC, hr⟩ :=
      partialInsertionSort_spec dB a b (by omega) (by omega) (hLB.of_swapsIn hsw)
    simp only [hc, if_true, hdC, Option.bind_eq_bind, Option.some_bind]
    cases r with
    | true => exact ⟨dC, by simp, hsw.trans hswC, hr rfl⟩
    | false =>
      simp only [Bool.false_eq_true, if_false]
      exact pdqsort_tail fuel ih d0 dC a b pB limit wb wp hbn hfuel hLB (hsw.trans hswC) hp1 hp2
  · simp only [hc, if_false, Option.pure_def, Option.bind_eq_bind, Option.some_bind,
      Bool.false_eq_true]
    exact pdqsort_tail fuel ih d0 dB a b pB limit wb wp hbn hfuel hLB hsw hp1 hp2

theorem pdqsort_rest (fuel : Nat) (ih : PdqsortSpec fuel) (d0 dA : StopByTime)
    (a b limit : Nat) (wb wp : Bool) (hbn : b ≤ d0.length) (hfuel : b - a < fuel + 1)
    (hlong : 12 < b - a) (hLB : LowerBound d0 a b) (hsw : SwapsIn a b d0 dA) :
    ∃ d', (do
        let ph ← choosePivot dA a b
        let y1 ←
          if ph.2 = sortedHint.decreasingHint then
            (reverseRange dA a b).map
              (fun d => (d, (b - 1) - (ph.1 - a), sortedHint.increasingHint))
          else pure (dA, ph.1, ph.2)
        let y2 ←
          if (wb && wp && decide (y1.2.2 = sortedHint.increasingHint)) = true then
            partialInsertionSort y1.1 a b
          else pure (y1.1, false)
        if y2.2 = true then pure y2.1
        else do
          let dup ← if a > 0 then (y2.1.Less (a - 1) y1.2.1).map (fun l => !l) else pure false
          if dup = true then do
            let r ← partitionEqual y2.1 a b y1.2.1
            pdqsort fuel r.1 r.2 b limit wb wp
          else do
            let r ← partition y2.1 a b y1.2.1
            if r.2.1 - a < b - r.2.1 then do
              let data ← pdqsort fuel r.1 a r.2.1 limit true true
              pdqsort fuel data (r.2.1 + 1) b limit (decide (r.2.1 - a ≥ (b - a) / 8)) r.2.2
            else do
              let data ← pdqsort fuel r.1 (r.2.1 + 1) b limit true true
              pdqsort fuel data a r.2.1 limit (decide (b - r.2.1 ≥ (b - a) / 8)) r.2.2) =
        some d' ∧
      SwapsIn a b d0 d' ∧ SortedOn d' a b := by
  have hlenA := hsw.length
  obtain ⟨p, h, hcp, hp1, hp2⟩ := choosePivot_spec dA a b (by omega) (by omega)
  simp only [hcp, Option.bind_eq_bind, Option.some_bind]
  by_cases hdec : h = sortedHint.decreasingHint
  · obtain ⟨dB, hdB, hswB⟩ := reverseRange_spec dA a b (by omega) (by omega)
    simp only [hdec, if_true, hdB, Option.map_some', Option.some_bind]
    exact pdqsort_after_pivot fuel ih d0 dB a b (b - 1 - (p - a)) limit
      sortedHint.increasingHint wb wp hbn hfuel hLB (hsw.trans hswB) (by omega) (by omega)
  · simp only [hdec, if_false, Option.pure_def, Option.some_bind]
    exact pdqsort_after_pivot fuel ih d0 dA a b p limit h wb wp hbn hfuel hLB hsw hp1 hp2

theorem pdqsort_spec : ∀ fuel : Nat, PdqsortSpec fuel := by
  intro fuel
  induction fuel with
  | zero => intro d a b limit wb wp _ _ h; omega
  | succ fuel ih =>
    intro d a b limit wb wp hab hbn hfuel hLB
    rw [pdqsort]
    dsimp only
    by_cases hshort : b - a ≤ 12
    · rw [if_pos hshort]
      exact insertionSort_spec d a b hbn
    · rw [if_neg hshort]
      by_cases hlimit : limit = 0
      · rw [if_pos hlimit]
        exact heapSort_spec d a b hab hbn
      · rw [if_neg hlimit]
        cases wb with
        | true =>
          simp only [Bool.not_true, Bool.false_eq_true, if_false, Option.pure_def,
            Option.bind_eq_bind, Option.some_bind]
          exact pdqsort_rest fuel ih d d a b limit true wp hbn hfuel (by omega) hLB
            (SwapsIn.refl d)
        | false =>
          obtain ⟨dA, hdA, hswA⟩ := breakPatterns_spec d a b hbn
          simp only [Bool.not_false, if_true, hdA, Option.map_some', Option.bind_eq_bind,
            Option.some_bind]
          exact pdqsort_rest fuel ih d dA a b (limit - 1) false wp hbn hfuel (by omega) hLB hswA

theorem sort_Sort_spec (d : StopByTime) :
    ∃ d', sort_Sort d = some d' ∧ d'.Perm d ∧ SortedOn d' 0 d.length := by
  unfold sort_Sort StopByTime.Len
  dsimp only
  by_cases h1 : d.length ≤ 1
  · rw [if_pos h1]
    exact ⟨d, rfl, List.Perm.refl d, fun i j _ hij hj => by omega⟩
  · rw [if_neg h1]
    obtain ⟨d', hd', hsw, hsorted⟩ := pdqsort_spec (d.length + 1) d 0 d.length
      (bitsLen d.length) true true (Nat.zero_le _) (Nat.le_refl _) (by omega)
      (fun h => absurd h (Nat.lt_irrefl 0))
    exact ⟨d', hd', hsw.perm, hsorted⟩

/-- The model of `sort.Sort` meets the documented contract of `sort.Sort`. -/
theorem goSort_contract : SortContract goSort := by
  intro d
  obtain ⟨d', hd', hperm, hsorted⟩ := sort_Sort_spec d
  have hgo : goSort d = d' := by
    unfold goSort
    rw [hd']
    rfl
  rw [hgo]
  refine ⟨hperm, fun i j hij hj => ?_⟩
  have hj' : j < d'.length := hj
  rw [Less_key d' j i hj' (by omega)]
  have := hsorted i j (Nat.zero_le _) hij (by rw [← hperm.length_eq]; exact hj')
  simp only [Option.some.injEq, decide_eq_false_iff_not]
  omega

/-! ## What `getSlicedTimetable` leaves untouched in memory -/

theorem foldl_invariant {α β : Type} (P : β → Prop) (f : β → α → β) (l : List α) (init : β)
    (h0 : P init) (hstep : ∀ b a, P b → P (f b a)) : P (l.foldl f init) := by
  induction l generalizing init with
  | nil => exact h0
  | cons a rest ih => exact ih _ (hstep _ _ h0)

theorem prefix_set_of_length_le {α : Type} {l l' : List α} (h : l <+: l') {i : Nat}
    (hi : l.length ≤ i) (v : α) : l <+: l'.set i v := by
  obtain ⟨t, rfl⟩ := h
  rw [List.set_append_right _ _ hi]
  exact List.prefix_append _ _

theorem prefix_getD {α : Type} {l l' : List α} (h : l <+: l') {i : Nat} (hi : i < l.length)
    (d : α) : l'.getD i d = l.getD i d := by
  obtain ⟨t, rfl⟩ := h
  simp [List.getD_eq_getElem?_getD, List.getElem?_append_left hi]

theorem Memory.Extends.refl (m : Memory) : m.Extends m :=
  ⟨List.prefix_rfl, List.prefix_rfl, List.prefix_rfl⟩

theorem Memory.store_extends {m0 m : Memory} (h : m0.Extends m) (s : SliceHeader)
    (hs : m0.arrays.length ≤ s.array) (i : Nat) (x : Stop) :
    m0.Extends (m.store s i x) ∧ (m.store s i x).timetables = m.timetables :=
  ⟨⟨prefix_set_of_length_le h.1 hs _, h.2.1, h.2.2⟩, rfl⟩

theorem Memory.emptySlice_extends {m0 m : Memory} (h : m0.Extends m) :
    m0.Extends m.emptySlice.1 ∧ m0.arrays.length ≤ m.emptySlice.2.array ∧
    m.emptySlice.1.timetables = m.timetables :=
  ⟨⟨h.1.trans (List.prefix_append _ _), h.2.1, h.2.2⟩, h.1.length_le, rfl⟩

theorem Memory.append_extends {m0 m : Memory} (h : m0.Extends m) (growCap : Nat → Nat)
    (s : SliceHeader) (hs : m0.arrays.length ≤ s.array) (x : Stop) :
    m0.Extends (m.append growCap s x).1 ∧ m0.arrays.length ≤ (m.append growCap s x).2.array ∧
    (m.append growCap s x).1.timetables = m.timetables := by
  unfold Memory.append
  split
  · exact ⟨(Memory.store_extends h s hs _ x).1, hs, rfl⟩
  · exact ⟨⟨h.1.trans (List.prefix_append _ _), h.2.1, h.2.2⟩, h.1.length_le, rfl⟩

theorem Memory.getStopsBetween_extends {m0 m : Memory} (h : m0.Extends m)
    (growCap : Nat → Nat) (stops : SliceHeader) (from_ to_ : Time) :
    m0.Extends (m.getStopsBetween growCap stops from_ to_).1 ∧
    m0.arrays.length ≤ (m.getStopsBetween growCap stops from_ to_).2.array ∧
    (m.getStopsBetween growCap stops from_ to_).1.timetables = m.timetables := by
  unfold Memory.getStopsBetween
  apply foldl_invariant
    (fun st : Memory × SliceHeader =>
      m0.Extends st.1 ∧ m0.arrays.length ≤ st.2.array ∧ st.1.timetables = m.timetables)
  · exact Memory.emptySlice_extends h
  · intro st i hst
    dsimp only
    split
    · have := Memory.append_extends hst.1 growCap st.2 hst.2.1 (st.1.load stops i)
      exact ⟨this.1, this.2.1, this.2.2.trans hst.2.2⟩
    · exact hst

theorem Memory.sortSort_extends {m0 m : Memory} (h : m0.Extends m)
    (sortSort : StopByTime → StopByTime) (s : SliceHeader)
    (hs : m0.arrays.length ≤ s.array) :
    m0.Extends (m.sortSort sortSort s) ∧ (m.sortSort sortSort s).timetables = m.timetables := by
  unfold Memory.sortSort
  apply foldl_invariant (fun m' : Memory => m0.Extends m' ∧ m'.timetables = m.timetables)
  · exact ⟨h, rfl⟩
  · intro m' i hm'
    have := Memory.store_extends hm'.1 s hs i ((sortSort (m.elements s)).getD i zeroStop)
    exact ⟨this.1, this.2.trans hm'.2⟩

theorem Memory.assign_extends {m0 m : Memory} (h : m0.Extends m) (t : Nat)
    (ht : m0.maps.length ≤ (m.timetables.getD t ⟨⟨0⟩, ⟨0⟩, 0⟩).StopsPerStation)
    (station : String) (v : SliceHeader) :
    m0.Extends (m.assign t station v) ∧ (m.assign t station v).timetables = m.timetables :=
  ⟨⟨h.1, prefix_set_of_length_le h.2.1 ht _, h.2.2⟩, rfl⟩

/-- Every array, map and struct that was in memory before `getSlicedTimetable` is there
afterwards, unchanged: the call only allocates, and writes to what it allocated. -/
theorem Memory.getSlicedTimetable_extends (growCap : Nat → Nat)
    (sortSort : StopByTime → StopByTime) (mem : Memory) (self : Nat) (order : List String)
    (from_ to_ : Time) :
    mem.Extends (mem.getSlicedTimetable growCap sortSort self order from_ to_).1 := by
  unfold Memory.getSlicedTimetable
  have hnew : mem.Extends (mem.NewTimetable from_ to_).1 :=
    ⟨List.prefix_rfl, List.prefix_append _ _, List.prefix_append _ _⟩
  have hstruct :
      ((mem.NewTimetable from_ to_).1.timetables.getD (mem.NewTimetable from_ to_).2
        ⟨⟨0⟩, ⟨0⟩, 0⟩).StopsPerStation = mem.maps.length := by
    simp [Memory.NewTimetable, List.getD_eq_getElem?_getD]
  dsimp only
  refine (foldl_invariant
    (fun m : Memory =>
      mem.Extends m ∧ m.timetables = (mem.NewTimetable from_ to_).1.timetables)
    _ order _ ⟨hnew, rfl⟩ ?_).1
  intro m station hm
  have h1 := Memory.getStopsBetween_extends hm.1 growCap
    ((m.stopsPerStation self station).getD nilSlice) from_ to_
  have h2 := Memory.sortSort_extends h1.1 sortSort _ h1.2.1
  have h3 := Memory.assign_extends h2.1 (mem.NewTimetable from_ to_).2
    (by rw [h2.2, h1.2.2, hm.2, hstruct]) station
    (m.getStopsBetween growCap ((m.stopsPerStation self station).getD nilSlice) from_ to_).2
  exact ⟨h3.1, h3.2.trans (h2.2.trans (h1.2.2.trans hm.2))⟩

/-- The timetable read at an allocated address is the same in every extension of a memory. -/
theorem Memory.timetable_of_extends {m0 m : Memory} (h : m0.Extends m) (self : Nat)
    (ha : m0.Allocated self) : m.timetable self = m0.timetable self := by
  have hobj : m.timetables.getD self ⟨⟨0⟩, ⟨0⟩, 0⟩ = m0.timetables.getD self ⟨⟨0⟩, ⟨0⟩, 0⟩ :=
    prefix_getD h.2.2 ha.1 _
  have hmap : m.stopsPerStation self = m0.stopsPerStation self := by
    unfold Memory.stopsPerStation
    rw [hobj]
    exact prefix_getD h.2.1 ha.2.1 _
  unfold Memory.timetable
  rw [hobj, hmap]
  congr 1
  funext s
  cases hs : m0.stopsPerStation self s with
  | none => rfl
  | some hd =>
    have harr := ha.2.2 s hd hs
    simp only [Option.map_some', Option.some.injEq, Memory.elements]
    apply List.map_congr_left
    intro i _
    unfold Memory.load
    rw [prefix_getD h.1 harr]

/-! ## The functions on memory compute the functions on values -/

theorem Memory.store_array (m : Memory) (s : SliceHeader) (i : Nat) (x : Stop) (a : Nat) :
    (m.store s i x).arrays.getD a [] =
      if a = s.array then (m.arrays.getD a []).set (s.offset + i) x
      else m.arrays.getD a [] := by
  simp only [Memory.store, List.getD_eq_getElem?_getD, List.getElem?_set]
  by_cases ha : a = s.array
  · subst ha
    by_cases hlt : s.array < m.arrays.length
    · simp [hlt]
    · simp [hlt, List.getElem?_eq_none (Nat.le_of_not_lt hlt)]
  · simp [ha, Ne.symm ha]

theorem Memory.store_arrays_length (m : Memory) (s : SliceHeader) (i : Nat) (x : Stop) :
    (m.store s i x).arrays.length = m.arrays.length := by
  simp [Memory.store]

theorem Memory.store_holds (m : Memory) (s t : SliceHeader) (i : Nat) (x : Stop)
    (ht : m.Holds t) : (m.store s i x).Holds t := by
  refine ⟨by rw [Memory.store_arrays_length]; exact ht.1, ?_, ht.2.2⟩
  rw [Memory.store_array]
  split
  · rw [List.length_set]; exact ht.2.1
  · exact ht.2.1

theorem Memory.load_store (m : Memory) (s : SliceHeader) (hs : m.Holds s) (i j : Nat)
    (hi : i < s.cap) (x : Stop) :
    (m.store s i x).load s j = if j = i then x else m.load s j := by
  unfold Memory.load
  rw [Memory.store_array]
  simp only [if_true, List.getD_eq_getElem?_getD, List.getElem?_set]
  have hlen : s.offset + i < (m.arrays.getD s.array []).length := by
    have := hs.2.1
    omega
  simp only [List.getD_eq_getElem?_getD] at hlen
  by_cases hji : j = i
  · subst hji
    simp [hlen]
  · have : s.offset + i ≠ s.offset + j := by omega
    simp [hji, this]

theorem map_range_getD {α : Type} (l : List α) (d : α) (n : Nat) (h : n ≤ l.length) :
    (List.range n).map (fun j => l.getD j d) = l.take n := by
  apply List.ext_getElem
  · simp [Nat.min_eq_left h]
  · intro i h1 h2
    simp only [List.length_map, List.length_range] at h1
    simp [List.getD_eq_getElem?_getD, List.getElem?_eq_getElem (Nat.lt_of_lt_of_le h1 h)]

theorem Memory.elements_length (m : Memory) (s : SliceHeader) : (m.elements s).length = s.len := by
  simp [Memory.elements]

theorem Memory.append_elements (growCap : Nat → Nat) (m : Memory) (s : SliceHeader)
    (hs : m.Holds s) (x : Stop) :
    (m.append growCap s x).1.Holds (m.append growCap s x).2 ∧
    (m.append growCap s x).1.elements (m.append growCap s x).2 = m.elements s ++ [x] := by
  unfold Memory.append
  split
  · rename_i hlt
    refine ⟨?_, ?_⟩
    · have h := Memory.store_holds m s s s.len x hs
      exact ⟨h.1, h.2.1, hlt⟩
    · show (List.range (s.len + 1)).map ((m.store s s.len x).load s) = _
      rw [List.range_succ, List.map_append]
      congr 1
      · apply List.map_congr_left
        intro j hj
        rw [Memory.load_store m s hs s.len j hlt]
        have : j ≠ s.len := Nat.ne_of_lt (List.mem_range.1 hj)
        simp [this]
      · simp [Memory.load_store m s hs s.len s.len hlt]
  · rename_i hge
    have hcontents : ∀ c : List Stop,
        ({ m with arrays := m.arrays ++ [c] } : Memory).arrays.getD m.arrays.length [] = c := by
      intro c
      simp [List.getD_eq_getElem?_getD]
    refine ⟨⟨by simp, ?_, ?_⟩, ?_⟩
    · simp only [hcontents]
      simp [Memory.elements_length]
      omega
    · simp
    · show (List.range (s.len + 1)).map (fun j => Memory.load _ _ j) = _
      unfold Memory.load
      simp only [hcontents, Nat.zero_add]
      rw [map_range_getD _ _ _ (by simp [Memory.elements_length])]
      exact List.take_left' (by simp [Memory.elements_length])

theorem Memory.load_of_extends {m0 m : Memory} (h : m0.Extends m) (s : SliceHeader)
    (hs : s.array < m0.arrays.length) (i : Nat) : m.load s i = m0.load s i := by
  unfold Memory.load
  rw [prefix_getD h.1 hs]

theorem Memory.getStopsBetween_fold (growCap : Nat → Nat) (m : Memory) (stops : SliceHeader)
    (from_ to_ : Time) (hstops : stops.array < m.arrays.length) (l : List Nat)
    (st : Memory × SliceHeader) (hext : m.Extends st.1) (hfresh : m.arrays.length ≤ st.2.array)
    (hholds : st.1.Holds st.2) :
    (l.foldl
      (fun st i =>
        let stop := st.1.load stops i
        if stop.Time.After (from_.Add (Minute * -1)) && stop.Time.Before (to_.Add (Minute * 1))
        then st.1.append growCap st.2 stop
        else st) st).1.Holds
      (l.foldl
        (fun st i =>
          let stop := st.1.load stops i
          if stop.Time.After (from_.Add (Minute * -1)) && stop.Time.Before (to_.Add (Minute * 1))
          then st.1.append growCap st.2 stop
          else st) st).2 ∧
    (l.foldl
      (fun st i =>
        let stop := st.1.load stops i
        if stop.Time.After (from_.Add (Minute * -1)) && stop.Time.Before (to_.Add (Minute * 1))
        then st.1.append growCap st.2 stop
        else st) st).1.elements
      (l.foldl
        (fun st i =>
          let stop := st.1.load stops i
          if stop.Time.After (from_.Add (Minute * -1)) && stop.Time.Before (to_.Add (Minute * 1))
          then st.1.append growCap st.2 stop
          else st) st).2 =
    st.1.elements st.2 ++ (l.map (m.load stops)).filter (inPaddedWindow from_ to_) := by
  induction l generalizing st with
  | nil => exact ⟨hholds, by simp⟩
  | cons i rest ih =>
    rw [List.foldl_cons]
    have hload : st.1.load stops i = m.load stops i :=
      Memory.load_of_extends hext stops hstops i
    dsimp only
    rw [hload]
    by_cases hc : inPaddedWindow from_ to_ (m.load stops i) = true
    · have hc' := hc
      unfold inPaddedWindow at hc'
      rw [if_pos hc']
      have happ := Memory.append_elements growCap st.1 st.2 hholds (m.load stops i)
      have hext' := Memory.append_extends hext growCap st.2 hfresh (m.load stops i)
      obtain ⟨h1, h2⟩ := ih _ hext'.1 hext'.2.1 happ.1
      refine ⟨h1, ?_⟩
      rw [h2, happ.2]
      simp [List.filter_cons, hc]
    · have hc' := hc
      unfold inPaddedWindow at hc'
      rw [if_neg hc']
      obtain ⟨h1, h2⟩ := ih st hext hfresh hholds
      refine ⟨h1, ?_⟩
      rw [h2]
      simp [List.filter_cons, hc]

theorem Memory.getStopsBetween_elements (growCap : Nat → Nat) (m : Memory)
    (stops : SliceHeader) (from_ to_ : Time)
    (hstops : stops.array < m.arrays.length ∨ stops.len = 0) :
    (m.getStopsBetween growCap stops from_ to_).1.Holds
      (m.getStopsBetween growCap stops from_ to_).2 ∧
    (m.getStopsBetween growCap stops from_ to_).1.elements
      (m.getStopsBetween growCap stops from_ to_).2 =
    Srm17.getStopsBetween (m.elements stops) from_ to_ := by
  have hempty : m.emptySlice.1.Holds m.emptySlice.2 := by
    refine ⟨by simp [Memory.emptySlice], ?_, ?_⟩ <;> simp [Memory.emptySlice]
  have hnil : m.emptySlice.1.elements m.emptySlice.2 = [] := by
    simp [Memory.elements, Memory.emptySlice]
  rw [getStopsBetween_eq_filter]
  rcases hstops with hs | hs
  · have h0 := Memory.emptySlice_extends (Memory.Extends.refl m)
    have := Memory.getStopsBetween_fold growCap m stops from_ to_ hs (List.range stops.len)
      m.emptySlice h0.1 h0.2.1 hempty
    rw [hnil, List.nil_append] at this
    exact this
  · unfold Memory.getStopsBetween
    simp only [hs, List.range_zero, List.foldl_nil]
    refine ⟨hempty, ?_⟩
    rw [hnil]
    simp [Memory.elements, hs]

theorem Memory.store_fold_load (m : Memory) (s : SliceHeader) (hs : m.Holds s)
    (vals : List Stop) (n : Nat) (hn : n ≤ s.len) :
    ((List.range n).foldl (fun m' i => m'.store s i (vals.getD i zeroStop)) m).Holds s ∧
    ∀ j, ((List.range n).foldl (fun m' i => m'.store s i (vals.getD i zeroStop)) m).load s j =
      if j < n then vals.getD j zeroStop else m.load s j := by
  induction n with
  | zero => exact ⟨hs, fun j => by simp⟩
  | succ n ih =>
    obtain ⟨h1, h2⟩ := ih (Nat.le_of_succ_le hn)
    rw [List.range_succ, List.foldl_append]
    simp only [List.foldl_cons, List.foldl_nil]
    refine ⟨Memory.store_holds _ s s n _ h1, fun j => ?_⟩
    rw [Memory.load_store _ s h1 n j (by have := hs.2.2; omega), h2]
    by_cases hj : j = n
    · subst hj
      simp
    · by_cases hlt : j < n
      · simp [hj, hlt, Nat.lt_succ_of_lt hlt]
      · have : ¬ j < n + 1 := by omega
        simp [hj, hlt, this]

theorem Memory.sortSort_elements (sortSort : StopByTime → StopByTime)
    (hlen : ∀ s, (sortSort s).length = s.length) (m : Memory) (s : SliceHeader)
    (hs : m.Holds s) :
    (m.sortSort sortSort s).Holds s ∧
    (m.sortSort sortSort s).elements s = sortSort (m.elements s) := by
  obtain ⟨h1, h2⟩ := Memory.store_fold_load m s hs (sortSort (m.elements s)) s.len (Nat.le_refl _)
  refine ⟨h1, ?_⟩
  unfold Memory.elements Memory.sortSort
  have hl : (sortSort (m.elements s)).length = s.len := by
    rw [hlen, Memory.elements_length]
  rw [show (List.range s.len).map
        (((List.range s.len).foldl
          (fun m' i => m'.store s i ((sortSort (m.elements s)).getD i zeroStop)) m).load s) =
      (List.range s.len).map (fun j => (sortSort (m.elements s)).getD j zeroStop) from
    List.map_congr_left (fun j hj => by rw [h2 j, if_pos (List.mem_range.1 hj)])]
  rw [map_range_getD _ _ _ (Nat.le_of_eq hl.symm)]
  exact List.take_of_length_le (Nat.le_of_eq hl)

theorem Memory.elements_of_extends {m0 m : Memory} (h : m0.Extends m) (s : SliceHeader)
    (hs : s.array < m0.arrays.length) : m.elements s = m0.elements s := by
  unfold Memory.elements
  exact List.map_congr_left (fun i _ => Memory.load_of_extends h s hs i)

theorem Memory.append_maps (growCap : Nat → Nat) (m : Memory) (s : SliceHeader) (x : Stop) :
    (m.append growCap s x).1.maps = m.maps := by
  unfold Memory.append
  split <;> rfl

theorem Memory.getStopsBetween_maps (growCap : Nat → Nat) (m : Memory) (stops : SliceHeader)
    (from_ to_ : Time) : (m.getStopsBetween growCap stops from_ to_).1.maps = m.maps := by
  unfold Memory.getStopsBetween
  apply foldl_invariant (fun st : Memory × SliceHeader => st.1.maps = m.maps)
  · rfl
  · intro st i hst
    dsimp only
    split
    · rw [Memory.append_maps]; exact hst
    · exact hst

theorem Memory.sortSort_maps (sortSort : StopByTime → StopByTime) (m : Memory)
    (s : SliceHeader) : (m.sortSort sortSort s).maps = m.maps ∧
      (m.sortSort sortSort s).arrays.length = m.arrays.length := by
  unfold Memory.sortSort
  apply foldl_invariant
    (fun m' : Memory => m'.maps = m.maps ∧ m'.arrays.length = m.arrays.length)
  · exact ⟨rfl, rfl⟩
  · intro m' i hm'
    exact ⟨hm'.1, (Memory.store_arrays_length m' s i _).trans hm'.2⟩

theorem Memory.sliceInv_step (growCap : Nat → Nat) (sortSort : StopByTime → StopByTime)
    (hlen : ∀ s, (sortSort s).length = s.length) (mem : Memory) (self : Nat)
    (hself : mem.Allocated self) (from_ to_ : Time) (done : List String) (m : Memory)
    (hm : Memory.SliceInv sortSort mem (mem.timetable self) from_ to_ done m)
    (station : String) :
    Memory.SliceInv sortSort mem (mem.timetable self) from_ to_ (done ++ [station])
      (((m.getStopsBetween growCap ((m.stopsPerStation self station).getD nilSlice)
            from_ to_).1.sortSort sortSort
          (m.getStopsBetween growCap ((m.stopsPerStation self station).getD nilSlice)
            from_ to_).2).assign mem.timetables.length station
        (m.getStopsBetween growCap ((m.stopsPerStation self station).getD nilSlice)
          from_ to_).2) := by
  obtain ⟨harr, htt, f, hmaps, hf, hfarr⟩ := hm
  have hext : mem.Extends m :=
    ⟨harr, by rw [hmaps]; exact List.prefix_append _ _, by rw [htt]; exact List.prefix_append _ _⟩
  -- the receiver's map, read in `m`, is the one read in `mem`
  have hobj : m.timetables.getD self ⟨⟨0⟩, ⟨0⟩, 0⟩ = mem.timetables.getD self ⟨⟨0⟩, ⟨0⟩, 0⟩ :=
    prefix_getD hext.2.2 hself.1 _
  have hmapSelf : m.stopsPerStation self = mem.stopsPerStation self := by
    unfold Memory.stopsPerStation
    rw [hobj]
    exact prefix_getD hext.2.1 hself.2.1 _
  rw [hmapSelf]
  generalize hstops : (mem.stopsPerStation self station).getD nilSlice = stops
  have hstops' : stops.array < m.arrays.length ∨ stops.len = 0 := by
    cases hh : mem.stopsPerStation self station with
    | none => right; rw [← hstops, hh]; rfl
    | some h =>
      left
      rw [← hstops, hh]
      exact Nat.lt_of_lt_of_le (hself.2.2 station h hh) harr.length_le
  have helems : m.elements stops = (mem.timetable self).StopsPerStation.index station := by
    show m.elements stops = ((mem.stopsPerStation self station).map mem.elements).getD []
    cases hh : mem.stopsPerStation self station with
    | none =>
      rw [← hstops, hh]
      rfl
    | some h =>
      rw [← hstops, hh]
      exact Memory.elements_of_extends hext h (hself.2.2 station h hh)
  have hG := Memory.getStopsBetween_elements growCap m stops from_ to_ hstops'
  have hE1 := Memory.getStopsBetween_extends (Memory.Extends.refl m) growCap stops from_ to_
  have hM1 := Memory.getStopsBetween_maps growCap m stops from_ to_
  generalize m.getStopsBetween growCap stops from_ to_ = r at hG hE1 hM1
  have hS := Memory.sortSort_elements sortSort hlen r.1 r.2 hG.1
  have hE2 := Memory.sortSort_extends hE1.1 sortSort r.2 hE1.2.1
  have hM2 := Memory.sortSort_maps sortSort r.1 r.2
  generalize r.1.sortSort sortSort r.2 = m' at hS hE2 hM2
  have htt' : m'.timetables = mem.timetables ++ [⟨from_, to_, mem.maps.length⟩] := by
    rw [hE2.2, hE1.2.2, htt]
  have hmaps' : m'.maps = mem.maps ++ [f] := by rw [hM2.1, hM1, hmaps]
  have hnewObj : m'.timetables.getD mem.timetables.length ⟨⟨0⟩, ⟨0⟩, 0⟩ =
      ⟨from_, to_, mem.maps.length⟩ := by
    rw [htt']
    simp [List.getD_eq_getElem?_getD]
  have hnewMap : m'.stopsPerStation mem.timetables.length = f := by
    unfold Memory.stopsPerStation
    rw [hnewObj, hmaps']
    simp [List.getD_eq_getElem?_getD]
  refine ⟨harr.trans hE2.1.1, htt', fun k => if k = station then some r.2 else f k, ?_, ?_, ?_⟩
  · show m'.maps.set _ _ = _
    rw [hnewObj, hnewMap, hmaps']
    simp
  · intro s
    show Option.map m'.elements _ = _
    by_cases hs : s = station
    · subst hs
      simp only [if_true, Option.map_some', List.mem_append, List.mem_singleton, or_true]
      rw [hS.2, hG.2, helems]
    · simp only [hs, if_false, List.mem_append, List.mem_singleton, or_false]
      rw [← hf s]
      cases hfs : f s with
      | none => rfl
      | some h =>
        simp only [Option.map_some', Option.some.injEq]
        exact Memory.elements_of_extends hE2.1 h (hfarr s h hfs)
  · intro s h hsh
    show h.array < m'.arrays.length
    by_cases hs : s = station
    · simp only [hs, if_true, Option.some.injEq] at hsh
      rw [← hsh]
      exact hS.1.1
    · simp only [hs, if_false] at hsh
      exact Nat.lt_of_lt_of_le (hfarr s h hsh) hE2.1.1.length_le

theorem Memory.sliceInv_loop (growCap : Nat → Nat) (sortSort : StopByTime → StopByTime)
    (hlen : ∀ s, (sortSort s).length = s.length) (mem : Memory) (self : Nat)
    (hself : mem.Allocated self) (from_ to_ : Time) (rest : List String) :
    ∀ (done : List String) (m : Memory),
      Memory.SliceInv sortSort mem (mem.timetable self) from_ to_ done m →
      Memory.SliceInv sortSort mem (mem.timetable self) from_ to_ (done ++ rest)
        (rest.foldl
          (fun mem' station =>
            let stops := (mem'.stopsPerStation self station).getD nilSlice
            let r := mem'.getStopsBetween growCap stops from_ to_
            let stopsToSort := r.2
            let mem' := r.1.sortSort sortSort stopsToSort
            mem'.assign mem.timetables.length station stopsToSort)
          m) := by
  induction rest with
  | nil =>
    intro done m hm
    simpa using hm
  | cons station rest ih =>
    intro done m hm
    rw [List.foldl_cons]
    have := ih (done ++ [station]) _
      (Memory.sliceInv_step growCap sortSort hlen mem self hself from_ to_ done m hm station)
    rw [List.append_assoc] at this
    exact this

theorem Timetable.eq_of_fields {t1 t2 : Timetable} (hF : t1.From = t2.From)
    (hT : t1.To = t2.To) (hS : ∀ s, t1.StopsPerStation s = t2.StopsPerStation s) : t1 = t2 := by
  cases t1
  cases t2
  simp only [Timetable.mk.injEq]
  exact ⟨hF, hT, funext hS⟩

/-- The timetable that `getSlicedTimetable` leaves in memory at the address it returns is the
timetable that the function on values computes from the receiver read before the call. -/
theorem Memory.getSlicedTimetable_refines (growCap : Nat → Nat)
    (sortSort : StopByTime → StopByTime) (hlen : ∀ s, (sortSort s).length = s.length)
    (mem : Memory) (self : Nat) (hself : mem.Allocated self) (order : List String)
    (from_ to_ : Time) :
    (mem.getSlicedTimetable growCap sortSort self order from_ to_).1.timetable
        (mem.getSlicedTimetable growCap sortSort self order from_ to_).2 =
      (mem.timetable self).getSlicedTimetable sortSort order from_ to_ := by
  have h0 : Memory.SliceInv sortSort mem (mem.timetable self) from_ to_ []
      (mem.NewTimetable from_ to_).1 :=
    ⟨List.prefix_rfl, rfl, fun _ => none, rfl, fun s => by simp, fun s h hs => by simp at hs⟩
  have hloop := Memory.sliceInv_loop growCap sortSort hlen mem self hself from_ to_ order []
    _ h0
  rw [List.nil_append] at hloop
  obtain ⟨_, htt, f, hmaps, hf, _⟩ := hloop
  have hobj : ∀ m : Memory, m.timetables = mem.timetables ++ [⟨from_, to_, mem.maps.length⟩] →
      m.timetables.getD mem.timetables.length ⟨⟨0⟩, ⟨0⟩, 0⟩ = ⟨from_, to_, mem.maps.length⟩ := by
    intro m hm
    rw [hm]
    simp [List.getD_eq_getElem?_getD]
  apply Timetable.eq_of_fields
  · rw [(sliced_From sortSort _ order from_ to_).1]
    have := hobj _ htt
    exact congrArg TimetableObject.From this
  · rw [(sliced_From sortSort _ order from_ to_).2]
    have := hobj _ htt
    exact congrArg TimetableObject.To this
  · intro s
    rw [sliced_lookup_order, ← hf s]
    show Option.map _ (Memory.stopsPerStation _ _ s) = _
    have hmap : Memory.stopsPerStation
        (mem.getSlicedTimetable growCap sortSort self order from_ to_).1
        mem.timetables.length = f := by
      unfold Memory.stopsPerStation
      rw [show (mem.getSlicedTimetable growCap sortSort self order from_ to_).1.timetables.getD
          mem.timetables.length ⟨⟨0⟩, ⟨0⟩, 0⟩ = ⟨from_, to_, mem.maps.length⟩ from hobj _ htt]
      show List.getD (Memory.maps _) _ _ = f
      rw [show (mem.getSlicedTimetable growCap sortSort self order from_ to_).1.maps =
          mem.maps ++ [f] from hmaps]
      simp [List.getD_eq_getElem?_getD]
    exact congrArg (fun g => Option.map _ (g s)) hmap

/-! ## Further facts used by the claims -/

/-- The test of `getStopsBetween` on whole minutes is the test of the closed window. -/
theorem inPaddedWindow_wholeMinute (from_ to_ : Time) (x : Stop) (hf : wholeMinute from_)
    (ht : wholeMinute to_) (hx : wholeMinute x.Time) :
    inPaddedWindow from_ to_ x = true ↔ inWindow from_ to_ x.Time := by
  have hM : Minute = 60000000000 := by decide
  rw [inPaddedWindow_iff]
  unfold wholeMinute at hf ht hx
  rw [hM] at hf ht hx
  unfold inWindow
  constructor
  · rintro ⟨h1, h2⟩
    constructor <;> omega
  · rintro ⟨h1, h2⟩
    constructor <;> omega

/-- One call keeps the station-key invariant. -/
theorem keyConsistent_call (self : Timetable) (c : Call)
    (h : KeyConsistent self.StopsPerStation) : KeyConsistent (self.call c).StopsPerStation := by
  intro s l hl x hx
  cases c with
  | addStop route station time =>
    simp only [Timetable.call] at hl
    rw [addStop_lookup] at hl
    by_cases hs : s = station
    · subst hs
      rw [if_pos rfl] at hl
      have hl' := Option.some.inj hl
      rw [← hl'] at hx
      rcases List.mem_append.1 hx with hx | hx
      · unfold StationMap.index at hx
        cases hst : self.StopsPerStation s with
        | none => rw [hst] at hx; simp at hx
        | some l0 =>
          rw [hst] at hx
          exact h s l0 hst x hx
      · simp at hx
        rw [hx]
    · rw [if_neg hs] at hl
      exact h s l hl x hx
  | addStation station =>
    simp only [Timetable.call, Timetable.addStation, StationMap.assign] at hl
    by_cases hs : s = station
    · rw [if_pos hs] at hl
      have hl' := Option.some.inj hl
      rw [← hl'] at hx
      simp at hx
    · rw [if_neg hs] at hl
      exact h s l hl x hx

/-- A sequence of calls keeps the station-key invariant. -/
theorem keyConsistent_calls (cs : List Call) (self : Timetable)
    (h : KeyConsistent self.StopsPerStation) : KeyConsistent (self.calls cs).StopsPerStation := by
  induction cs generalizing self with
  | nil => exact h
  | cons c rest ih => exact ih (self.call c) (keyConsistent_call self c h)

/-- Every stop of a slice list comes from the list stored under the same station. -/
theorem mem_sliced (sortSort : StopByTime → StopByTime) (hsort : SortContract sortSort)
    (self : Timetable) (order : List String) (from_ to_ : Time) (s : String) (l : StopByTime)
    (hl : (self.getSlicedTimetable sortSort order from_ to_).StopsPerStation s = some l)
    (x : Stop) (hx : x ∈ l) :
    ∃ l0, self.StopsPerStation s = some l0 ∧ x ∈ l0 ∧ inPaddedWindow from_ to_ x = true := by
  rw [sliced_lookup_order] at hl
  split at hl
  · have hl' := Option.some.inj hl
    rw [← hl'] at hx
    have hx' := ((hsort _).1.mem_iff).1 hx
    rw [getStopsBetween_eq_filter] at hx'
    obtain ⟨h1, h2⟩ := List.mem_filter.1 hx'
    unfold StationMap.index at h1
    cases hst : self.StopsPerStation s with
    | none => rw [hst] at h1; simp at h1
    | some l0 =>
      rw [hst] at h1
      exact ⟨l0, rfl, h1, h2⟩
  · exact absurd hl (by simp)

/-! ## `sort_Sort` on a slice that is already in order -/

/-- A loop whose test fails at once leaves its state as it is. -/
theorem forLoop_exit {σ : Type} (cond : σ → Option Bool) (body : σ → Option σ) (fuel : Nat)
    (s : σ) (h : cond s = some false) : forLoop cond body (fuel + 1) s = some s := by
  simp [forLoop, h]

/-- Two indices in range are in ascending order of time on an ascending range. -/
theorem SortedOn.le {d : StopByTime} {a b : Nat} (h : SortedOn d a b) {i j : Nat}
    (hai : a ≤ i) (hij : i ≤ j) (hjb : j < b) : keyAt d i ≤ keyAt d j := by
  rcases Nat.eq_or_lt_of_le hij with heq | hlt
  · rw [heq]
  · exact h i j hai hlt hjb

/-- On an ascending range `insertionSort` makes no swap. -/
theorem insertionSort_sorted (d : StopByTime) (a b : Nat) (hb : b ≤ d.length)
    (hs : SortedOn d a b) : insertionSort d a b = some d := by
  unfold insertionSort
  obtain ⟨st, hrun, ⟨h1, _, _⟩, _⟩ :=
    forLoop_spec (σ := Nat × StopByTime)
      (fun st => some (decide (st.1 < b)))
      (fun st =>
        (forLoop (σ := Nat × StopByTime)
          (fun js => if js.1 > a then js.2.Less js.1 (js.1 - 1) else some false)
          (fun js => (js.2.Swap js.1 (js.1 - 1)).map (fun d => (js.1 - 1, d)))
          (d.length + 1) (st.1, st.2)).map (fun js => (st.1 + 1, js.2)))
      (fun st => st.2 = d ∧ a + 1 ≤ st.1 ∧ True)
      (fun st => b - st.1)
      (by
        intro st ⟨h1, h2, _⟩
        dsimp only
        by_cases hlt : st.1 < b
        · right
          refine ⟨by simp [hlt], (st.1 + 1, st.2), ?_, ⟨h1, by dsimp only; omega, trivial⟩,
            by dsimp only; omega⟩
          rw [forLoop_exit]
          · rfl
          · dsimp only
            rw [if_pos (by omega), h1, Less_key d st.1 (st.1 - 1) (by omega) (by omega)]
            have := hs (st.1 - 1) st.1 (by omega) (by omega) hlt
            simp only [Option.some.injEq, decide_eq_false_iff_not]
            omega
        · left
          simp [hlt])
      (d.length + 1) (a + 1, d) ⟨rfl, le_refl _, trivial⟩ (by dsimp only; omega)
  dsimp only
  rw [hrun]
  simp [h1]

/-- On indices in ascending order of time `order2` swaps nothing. -/
theorem order2_sorted (d : StopByTime) (x y s : Nat) (hx : x < d.length) (hy : y < d.length)
    (hk : keyAt d x ≤ keyAt d y) : order2 d x y s = some (x, y, s) := by
  unfold order2
  rw [Less_key d y x hy hx]
  have : ¬ keyAt d y < keyAt d x := by omega
  simp [this]

/-- On indices in ascending order of time `median` returns the middle one and counts no
swap. -/
theorem median_sorted (d : StopByTime) (x y z s : Nat) (hx : x < d.length)
    (hy : y < d.length) (hz : z < d.length) (hxy : keyAt d x ≤ keyAt d y)
    (hyz : keyAt d y ≤ keyAt d z) : median d x y z s = some (y, s) := by
  unfold median
  rw [order2_sorted d x y s hx hy hxy]
  simp only [Option.bind_eq_bind, Option.some_bind]
  rw [order2_sorted d y z s hy hz hyz]
  simp only [Option.some_bind]
  rw [order2_sorted d x y s hx hy hxy]
  rfl

/-- On an ascending range `choosePivot` reports `increasingHint`. -/
theorem choosePivot_sorted (d : StopByTime) (a b : Nat) (hb : b ≤ d.length)
    (hs : SortedOn d a b) :
    ∃ j, choosePivot d a b = some (j, sortedHint.increasingHint) := by
  unfold choosePivot
  dsimp only
  by_cases h8 : b - a ≥ 8
  · have hi : a + (b - a) / 4 * 1 < b := by omega
    have hj : a + (b - a) / 4 * 2 < b := by omega
    have hk : a + (b - a) / 4 * 3 < b := by omega
    by_cases h50 : b - a ≥ 50
    · rw [if_pos h8, if_pos h50]
      unfold medianAdjacent
      rw [median_sorted d _ _ _ 0 (by omega) (by omega) (by omega)
        (hs.le (by omega) (by omega) (by omega)) (hs.le (by omega) (by omega) (by omega))]
      simp only [Option.bind_eq_bind, Option.some_bind]
      rw [median_sorted d _ _ _ 0 (by omega) (by omega) (by omega)
        (hs.le (by omega) (by omega) (by omega)) (hs.le (by omega) (by omega) (by omega))]
      simp only [Option.some_bind]
      rw [median_sorted d _ _ _ 0 (by omega) (by omega) (by omega)
        (hs.le (by omega) (by omega) (by omega)) (hs.le (by omega) (by omega) (by omega))]
      simp only [Option.some_bind, Option.pure_def]
      rw [median_sorted d _ _ _ 0 (by omega) (by omega) (by omega)
        (hs.le (by omega) (by omega) (by omega)) (hs.le (by omega) (by omega) (by omega))]
      exact ⟨_, rfl⟩
    · rw [if_pos h8, if_neg h50]
      simp only [Option.bind_eq_bind, Option.pure_def, Option.some_bind]
      rw [median_sorted d _ _ _ 0 (by omega) (by omega) (by omega)
        (hs.le (by omega) (by omega) (by omega)) (hs.le (by omega) (by omega) (by omega))]
      exact ⟨_, rfl⟩
  · rw [if_neg h8]
    exact ⟨_, rfl⟩

/-- On an ascending range `partialInsertionSort` finds the range sorted and swaps nothing. -/
theorem partialInsertionSort_sorted (d : StopByTime) (a b : Nat) (hab : a < b)
    (hb : b ≤ d.length) (hs : SortedOn d a b) :
    partialInsertionSort d a b = some (d, true) := by
  unfold partialInsertionSort
  dsimp only
  obtain ⟨i, hrun, h1, h2, _, h4⟩ := scanSorted_spec d a b (a + 1) (d.length + 2) hb
    (le_refl _) (by omega) (fun p q hp hpq hq => by omega) (by omega)
  have hib : i = b := by
    by_contra hne
    have hlt : i < b := by omega
    have := h4 hlt
    have := hs (i - 1) i (by omega) (by omega) hlt
    omega
  unfold partialInsertionSort.steps
  simp only [Option.bind_eq_bind]
  rw [hrun]
  simp [hib]

/-- On an ascending range a call of `pdqsort` returns the slice as it is. -/
theorem pdqsort_sorted (fuel : Nat) (d : StopByTime) (a b limit : Nat) (hb : b ≤ d.length)
    (hl : limit ≠ 0) (hs : SortedOn d a b) :
    pdqsort (fuel + 1) d a b limit true true = some d := by
  unfold pdqsort
  dsimp only
  by_cases h12 : b - a ≤ 12
  · rw [if_pos h12]
    exact insertionSort_sorted d a b hb hs
  · rw [if_neg h12, if_neg hl]
    obtain ⟨j, hj⟩ := choosePivot_sorted d a b hb hs
    simp only [Bool.not_true, Bool.false_eq_true, if_false, Option.pure_def,
      Option.bind_eq_bind, Option.some_bind]
    rw [hj]
    simp only [Option.some_bind, reduceCtorEq, if_false, Bool.and_self, decide_True,
      if_true]
    rw [partialInsertionSort_sorted d a b (by omega) hb hs]
    rfl

/-- The model of `sort.Sort` returns a slice in ascending order of time as it is. -/
theorem sort_Sort_sorted (d : StopByTime) (hs : SortedOn d 0 d.length) :
    sort_Sort d = some d := by
  unfold sort_Sort
  dsimp only
  by_cases h1 : d.Len ≤ 1
  · rw [if_pos h1]
  · rw [if_neg h1]
    have hlen : d.Len = d.length := rfl
    apply pdqsort_sorted _ d 0 d.Len _ (by rw [hlen]) _ (by rw [hlen]; exact hs)
    unfold bitsLen
    rw [if_neg (by omega)]
    omega

/-- The slice left by `goSort` on a slice in ascending order of time is that slice. -/
theorem goSort_sorted (d : StopByTime) (hs : SortedOn d 0 d.length) : goSort d = d := by
  unfold goSort
  rw [sort_Sort_sorted d hs]
  rfl

/-- The order in which `sort.Sort` leaves the 14 stops of `unevenStation`, by route. -/
theorem sort_Sort_unevenStation :
    (sort_Sort unevenStation).map (fun l => l.map (fun stop => stop.RouteName)) =
      some ["6", "12", "9", "3", "0", "4", "1", "10", "7", "13", "8", "5", "2", "11"] := by
  decide!

/-- A slice that meets the ordering half of the contract of `sort.Sort` is ascending. -/
theorem sortedOn_of_contract (sortSort : StopByTime → StopByTime)
    (hsort : SortContract sortSort) (s : StopByTime) :
    SortedOn (sortSort s) 0 (sortSort s).length := by
  intro i j _ hij hj
  have h := (hsort s).2 i j hij hj
  rw [Less_key _ j i hj (by omega)] at h
  simp only [Option.some.injEq, decide_eq_false_iff_not] at h
  omega

/-- The slice of a timetable has the stations of the timetable, so an order of the range
loop over one is an order of the range loop over the other. -/
theorem rangeOrder_sliced (sortSort : StopByTime → StopByTime) (self : Timetable)
    (order : List String) (from_ to_ : Time) (h : RangeOrder self.StopsPerStation order) :
    RangeOrder (self.getSlicedTimetable sortSort order from_ to_).StopsPerStation order := by
  refine ⟨h.1, fun s => ?_⟩
  rw [sliced_lookup sortSort self order from_ to_ h, h.2 s]
  cases self.StopsPerStation s <;> rfl

/-- Slicing a slice again with the same window changes nothing, when `sort.Sort` meets its
contract and returns an ascending slice as it is. -/
theorem sliced_twice (sortSort : StopByTime → StopByTime) (hsort : SortContract sortSort)
    (hfix : ∀ l : StopByTime, SortedOn l 0 l.length → sortSort l = l) (self : Timetable)
    (order order' : List String) (from_ to_ : Time)
    (h : RangeOrder self.StopsPerStation order)
    (h' : RangeOrder (self.getSlicedTimetable sortSort order from_ to_).StopsPerStation
      order') :
    (self.getSlicedTimetable sortSort order from_ to_).getSlicedTimetable sortSort order'
      from_ to_ = self.getSlicedTimetable sortSort order from_ to_ := by
  apply Timetable.eq_of_fields
  · rw [(sliced_From sortSort _ order' from_ to_).1, (sliced_From sortSort _ order from_ to_).1]
  · rw [(sliced_From sortSort _ order' from_ to_).2, (sliced_From sortSort _ order from_ to_).2]
  · intro s
    rw [sliced_lookup sortSort _ order' from_ to_ h', sliced_lookup sortSort self order from_ to_ h]
    cases self.StopsPerStation s with
    | none => rfl
    | some stops =>
      simp only [Option.map_some']
      congr 1
      have hsel : getStopsBetween (sortSort (getStopsBetween stops from_ to_)) from_ to_ =
          sortSort (getStopsBetween stops from_ to_) := by
        rw [getStopsBetween_eq_filter (sortSort (getStopsBetween stops from_ to_))]
        apply List.filter_eq_self.2
        intro x hx
        have hx' := ((hsort _).1.mem_iff).1 hx
        rw [getStopsBetween_eq_filter] at hx'
        exact (List.mem_filter.1 hx').2
      rw [hsel]
      exact hfix _ (sortedOn_of_contract sortSort hsort _)

/-- Sorting the slice read backwards meets the contract of `sort.Sort`. -/
theorem reverseThenSort_contract : SortContract reverseThenSort := by
  intro s
  have h := stableSortByTime_contract s.reverse
  exact ⟨h.1.trans (List.reverse_perm s), h.2⟩

/-- Two slices in ascending order with the same stops show the same times, position by
position. -/
theorem times_eq_of_perm_of_sorted (l l' : StopByTime) (hperm : l'.Perm l)
    (hl : SortedOn l 0 l.length) (hl' : SortedOn l' 0 l'.length) :
    l'.map (fun x => x.Time) = l.map (fun x => x.Time) := by
  have hsorted : ∀ d : StopByTime, SortedOn d 0 d.length →
      (d.map (fun x => x.Time.nsec)).Sorted (fun a b => a ≤ b) := by
    intro d hd
    rw [List.Sorted, List.pairwise_iff_getElem]
    intro i j hi hj hij
    simp only [List.length_map] at hi hj
    have := hd i j (Nat.zero_le _) hij hj
    simp only [keyAt, List.getElem?_eq_getElem hi, List.getElem?_eq_getElem hj] at this
    simpa using this
  have hkeys : l'.map (fun x => x.Time.nsec) = l.map (fun x => x.Time.nsec) :=
    List.eq_of_perm_of_sorted (hperm.map _) (hsorted l' hl') (hsorted l hl)
  have hinj : Function.Injective Time.nsec := by
    intro t u htu
    cases t
    cases u
    simp only [Time.mk.injEq]
    exact htu
  apply List.map_injective_iff.2 hinj
  simpa using hkeys

/-- Two slices with the same stops and the same times position by position are equal when
no two of the stops have equal times. -/
theorem eq_of_perm_of_times (l l' : StopByTime) (hperm : l'.Perm l)
    (htimes : l'.map (fun x => x.Time) = l.map (fun x => x.Time))
    (hnodup : (l.map (fun x => x.Time)).Nodup) : l' = l := by
  have hlen : l'.length = l.length := hperm.length_eq
  apply List.ext_getElem hlen
  intro i hi' hi
  have h1 : l'[i] ∈ l := hperm.mem_iff.1 (List.getElem_mem hi')
  have h2 : l[i] ∈ l := List.getElem_mem hi
  have h3 : (l'.map (fun x => x.Time))[i]? = (l.map (fun x => x.Time))[i]? := by rw [htimes]
  simp only [List.getElem?_map, List.getElem?_eq_getElem hi', List.getElem?_eq_getElem hi,
    Option.map_some', Option.some.injEq] at h3
  exact List.inj_on_of_nodup_map hnodup h1 h2 h3

/-! ## Facts about the text rendering and about `time.Parse` -/

/-- Appending the pieces one by one gives the concatenation of the pieces. -/
theorem foldl_append_eq_join {α : Type} (f : α → String) (l : List α) (init : String) :
    l.foldl (fun buffer x => buffer ++ f x) init = init ++ String.join (l.map f) := by
  have hjoin : ∀ (ss : List String) (acc : String),
      ss.foldl (fun r s => r ++ s) acc = acc ++ ss.foldl (fun r s => r ++ s) "" := by
    intro ss
    induction ss with
    | nil => intro acc; simp
    | cons s rest ih =>
      intro acc
      rw [List.foldl_cons, List.foldl_cons, ih (acc ++ s), ih ("" ++ s), String.empty_append,
        String.append_assoc]
  unfold String.join
  induction l generalizing init with
  | nil => simp
  | cons x rest ih =>
    rw [List.foldl_cons, ih, List.map_cons, List.foldl_cons, hjoin _ ("" ++ f x),
      String.empty_append, String.append_assoc]

/-- The header written by `getTextTimetable`. -/
theorem strings_Join_header (f t : String) :
    strings_Join ["\nDEPARTURES FROM", f, "to", t, "\n"] " " =
      "\nDEPARTURES FROM " ++ f ++ " to " ++ t ++ " \n" := by
  simp only [strings_Join, String.intercalate, String.intercalate.go, String.append_assoc]
  rfl

/-- The hour and the minute of a time are below 24 and 60. -/
theorem Time.Hour_Minute_bounds (t : Time) : t.Hour < 24 ∧ t.Minute < 60 := by
  unfold Time.Hour Time.Minute
  have hH : Srm17.Hour = 3600000000000 := by decide
  have hM : Srm17.Minute = 60000000000 := by decide
  rw [hH, hM]
  constructor <;> omega

/-- The time built for `h:m` has the hour `h` and the minute `m`. -/
theorem clock_Hour_Minute (h m : Nat) (hh : h < 24) (hm : m < 60) :
    (clock h m).Hour = h ∧ (clock h m).Minute = m := by
  unfold Time.Hour Time.Minute clock
  have hH : Srm17.Hour = 3600000000000 := by decide
  have hM : Srm17.Minute = 60000000000 := by decide
  rw [hH, hM]
  dsimp only
  constructor <;> omega

theorem digitChar_toNat (k : Nat) (hk : k < 10) : (digitChar k).toNat = 48 + k := by
  interval_cases k <;> rfl

theorem digitChar_of_digit (c : Char) (h1 : 48 ≤ c.toNat) (_h2 : c.toNat ≤ 57) :
    digitChar (c.toNat - 48) = c := by
  unfold digitChar
  have h0 : '0'.toNat = 48 := rfl
  rw [h0, Nat.add_sub_cancel' h1, Char.ofNat_toNat]

/-- `isDigit` at index 0, on a list with a first character. -/
theorem isDigit_zero_cons (c : Char) (s : List Char) :
    isDigit (c :: s) 0 = decide (48 ≤ c.toNat ∧ c.toNat ≤ 57) := by
  have h0 : '0'.toNat = 48 := rfl
  have h9 : '9'.toNat = 57 := rfl
  simp only [isDigit, List.getElem?_cons_zero, h0, h9]

/-- `isDigit` at index 1 looks at the second character. -/
theorem isDigit_one_cons (c : Char) (s : List Char) : isDigit (c :: s) 1 = isDigit s 0 := by
  simp only [isDigit, List.getElem?_cons_succ]

/-- When `getnum` returns a number: it read two digits, or (`fixed` being false) one digit
that no digit follows. -/
theorem getnum_eq_some_iff (s : List Char) (fixed : Bool) (n : Nat) (rest : List Char) :
    getnum s fixed = some (n, rest) ↔
      (∃ a b, a < 10 ∧ b < 10 ∧ s = digitChar a :: digitChar b :: rest ∧ n = a * 10 + b) ∨
      (fixed = false ∧ ∃ a, a < 10 ∧ s = digitChar a :: rest ∧ n = a ∧
        isDigit rest 0 = false) := by
  have h0 : '0'.toNat = 48 := rfl
  constructor
  · intro h
    unfold getnum at h
    cases s with
    | nil => simp [isDigit] at h
    | cons c0 tl =>
      rw [isDigit_zero_cons, isDigit_one_cons] at h
      by_cases hd0 : 48 ≤ c0.toNat ∧ c0.toNat ≤ 57
      · simp only [hd0, and_self, decide_True, Bool.not_true, Bool.false_eq_true, if_false] at h
        by_cases hd1 : isDigit tl 0 = true
        · simp only [hd1, Bool.not_true, Bool.false_eq_true, if_false, Option.some.injEq,
            Prod.mk.injEq, h0] at h
          cases tl with
          | nil => simp [isDigit] at hd1
          | cons c1 tl' =>
            rw [isDigit_zero_cons] at hd1
            simp only [decide_eq_true_eq] at hd1
            left
            refine ⟨c0.toNat - 48, c1.toNat - 48, by omega, by omega, ?_, ?_⟩
            · rw [digitChar_of_digit c0 hd0.1 hd0.2, digitChar_of_digit c1 hd1.1 hd1.2]
              have := h.2
              simp only [List.drop_succ_cons, List.drop_zero] at this
              rw [this]
            · have := h.1
              simp only [List.getD_cons_zero, List.getD_cons_succ] at this
              omega
        · simp only [hd1, Bool.not_false, if_true] at h
          cases fixed with
          | true => simp at h
          | false =>
            simp only [Bool.false_eq_true, if_false, Option.some.injEq, Prod.mk.injEq, h0] at h
            right
            refine ⟨rfl, c0.toNat - 48, by omega, ?_, ?_, ?_⟩
            · rw [digitChar_of_digit c0 hd0.1 hd0.2]
              have := h.2
              simp only [List.drop_succ_cons, List.drop_zero] at this
              rw [this]
            · have := h.1
              simp only [List.getD_cons_zero] at this
              omega
            · have := h.2
              simp only [List.drop_succ_cons, List.drop_zero] at this
              rw [← this]
              simpa using hd1
      · simp [hd0] at h
  · rintro (⟨a, b, ha, hb, rfl, rfl⟩ | ⟨rfl, a, ha, rfl, rfl, hrest⟩)
    · unfold getnum
      rw [isDigit_zero_cons, isDigit_one_cons, isDigit_zero_cons, digitChar_toNat a ha,
        digitChar_toNat b hb]
      simp only [h0, List.getD_cons_zero, List.getD_cons_succ, digitChar_toNat a ha,
        digitChar_toNat b hb, List.drop_succ_cons, List.drop_zero]
      have h1 : (48 ≤ 48 + a ∧ 48 + a ≤ 57) := by omega
      have h2 : (48 ≤ 48 + b ∧ 48 + b ≤ 57) := by omega
      simp [h1, h2]
    · unfold getnum
      rw [isDigit_zero_cons, isDigit_one_cons, hrest, digitChar_toNat n ha]
      simp only [h0, List.getD_cons_zero, digitChar_toNat n ha, List.drop_succ_cons,
        List.drop_zero]
      have h1 : (48 ≤ 48 + n ∧ 48 + n ≤ 57) := by omega
      simp [h1]

/-- What `skip` does with the prefix `":"`. -/
theorem skip_colon (value rest : List Char) :
    skip value [':'] = some rest ↔ value = ':' :: rest := by
  cases value with
  | nil => simp [skip]
  | cons v tl =>
    by_cases hv : v = ':'
    · subst hv
      simp [skip]
    · simp [skip, hv]

/-- The two digits of a number below 100, from its tens and units. -/
theorem twoDigits_of_digits (a b : Nat) (_ha : a < 10) (hb : b < 10) :
    twoDigits (a * 10 + b) = [digitChar a, digitChar b] := by
  unfold twoDigits
  have h1 : (a * 10 + b) / 10 = a := by omega
  have h2 : (a * 10 + b) % 10 = b := by omega
  rw [h1, h2]

/-- When `time.Parse("15:04", _)` succeeds, on the characters of the string. -/
theorem time_Parse_eq_some_iff (str : String) (t : Time) :
    time_Parse str = some t ↔ ∃ h m, HourMinuteString str h m ∧ t = clock h m := by
  constructor
  · intro hp
    unfold time_Parse at hp
    split at hp
    · exact absurd hp (by simp)
    · rename_i hour v1 hg1
      split at hp
      · exact absurd hp (by simp)
      · rename_i hh
        split at hp
        · exact absurd hp (by simp)
        · rename_i v2 hs
          split at hp
          · exact absurd hp (by simp)
          · rename_i min v3 hg2
            split at hp
            · exact absurd hp (by simp)
            · rename_i hm
              split at hp
              · exact absurd hp (by simp)
              · rename_i hv3
                have hv3' : v3 = [] := by
                  cases v3 with
                  | nil => rfl
                  | cons _ _ => simp at hv3
                subst hv3'
                have ht : t = clock hour min := (Option.some.inj hp).symm
                rw [skip_colon] at hs
                subst hs
                have hmin : ∃ a b, a < 10 ∧ b < 10 ∧ v2 = [digitChar a, digitChar b] ∧
                    min = a * 10 + b := by
                  rcases (getnum_eq_some_iff v2 true min []).1 hg2 with h | ⟨h, _⟩
                  · exact h
                  · exact absurd h (by simp)
                obtain ⟨a', b', ha', hb', hv2, hmin'⟩ := hmin
                have hstr : str = String.mk str.data := rfl
                rcases (getnum_eq_some_iff str.data false hour (':' :: v2)).1 hg1 with
                  ⟨a, b, ha, hb, hdata, hhour⟩ | ⟨_, a, ha, hdata, hhour, _⟩
                · refine ⟨hour, min, ⟨by omega, by omega, Or.inl ?_⟩, ht⟩
                  rw [hstr, hdata, hhour, hmin', twoDigits_of_digits a b ha hb,
                    twoDigits_of_digits a' b' ha' hb', hv2]
                  rfl
                · refine ⟨hour, min, ⟨by omega, by omega, Or.inr ⟨by omega, ?_⟩⟩, ht⟩
                  rw [hstr, hdata, hhour, hmin', twoDigits_of_digits a' b' ha' hb', hv2]
  · rintro ⟨h, m, ⟨hh, hm, hstr⟩, rfl⟩
    have hm1 : m / 10 < 10 := by omega
    have hm2 : m % 10 < 10 := Nat.mod_lt _ (by decide)
    have hg2 : getnum (twoDigits m) true = some (m, []) := by
      rw [getnum_eq_some_iff]
      exact Or.inl ⟨m / 10, m % 10, hm1, hm2, rfl, by omega⟩
    have hg1 : getnum str.data false = some (h, ':' :: twoDigits m) := by
      rw [getnum_eq_some_iff]
      rcases hstr with hs | ⟨h10, hs⟩
      · left
        refine ⟨h / 10, h % 10, by omega, Nat.mod_lt _ (by decide), ?_, by omega⟩
        rw [hs]
        rfl
      · right
        refine ⟨rfl, h, h10, ?_, rfl, rfl⟩
        rw [hs]
    unfold time_Parse
    rw [hg1]
    dsimp only
    rw [if_neg (by omega), (skip_colon _ _).2 rfl]
    dsimp only
    rw [hg2]
    dsimp only
    rw [if_neg (by omega), if_neg (by simp)]

/-- `parseStringToHourMinute` returns what `time.Parse` returns, and panics where it fails. -/
theorem parseStringToHourMinute_eq (str : String) :
    parseStringToHourMinute str = time_Parse str := by
  unfold parseStringToHourMinute
  cases time_Parse str <;> rfl

/-! ## The claims -/

/-- C1, at an input of thirteen stops: `busyBaldock` holds twelve stops at 11:00 followed by
one at 10:00 under "Baldock".  Sliced 10:00-11:00 with `sort.Sort`, the window is the one
asked for and `sort.Sort` returns normally, but the twelve 11:00 stops do not keep their
stored order (Line-06 comes first, Line-00 after Line-05, Line-01 last), whereas the stable
sort of the specification keeps Line-00 .. Line-11 in order.  The list returned is
nevertheless a rearrangement of the stops in the window, in ascending time order, as the
contract of `sort.Sort` promises.  On the short list of the test (two stops at 11:00) the
stored order is kept. -/
theorem C1_sort_Sort_reorders_equal_times :
    RangeOrder busyBaldock.StopsPerStation ["Baldock"] ∧
    (busyBaldock.getSlicedTimetable goSort ["Baldock"] (clock 10 0) (clock 11 0)).From
      = clock 10 0 ∧
    (busyBaldock.getSlicedTimetable goSort ["Baldock"] (clock 10 0) (clock 11 0)).To
      = clock 11 0 ∧
    (sort_Sort
        (getStopsBetween (busyBaldock.StopsPerStation.index "Baldock") (clock 10 0)
          (clock 11 0))).isSome = true ∧
    ((busyBaldock.getSlicedTimetable goSort ["Baldock"] (clock 10 0)
        (clock 11 0)).StopsPerStation "Baldock").map (fun l => l.map Stop.RouteName)
      = some ["Early", "Line-06", "Line-02", "Line-03", "Line-04", "Line-05", "Line-00",
          "Line-07", "Line-08", "Line-09", "Line-10", "Line-11", "Line-01"] ∧
    (stableSortByTime
        (getStopsBetween (busyBaldock.StopsPerStation.index "Baldock") (clock 10 0)
          (clock 11 0))).map Stop.RouteName
      = ["Early", "Line-00", "Line-01", "Line-02", "Line-03", "Line-04", "Line-05",
          "Line-06", "Line-07", "Line-08", "Line-09", "Line-10", "Line-11"] ∧
    (goSort
        (getStopsBetween (busyBaldock.StopsPerStation.index "Baldock") (clock 10 0)
          (clock 11 0))).Perm
      (getStopsBetween (busyBaldock.StopsPerStation.index "Baldock") (clock 10 0)
        (clock 11 0)) ∧
    (goSort
        (getStopsBetween (busyBaldock.StopsPerStation.index "Baldock") (clock 10 0)
          (clock 11 0))).Pairwise timeLE ∧
    (testTimetable.getSlicedTimetable goSort ["Stevenage", "Baldock", "Ipswitch"] (clock 10 0)
        (clock 11 0)).StopsPerStation "Baldock"
      = some [⟨"Baldock", clock 11 0, "London-Norwich"⟩,
          ⟨"Baldock", clock 11 0, "London-Cambridge"⟩] := by
  refine ⟨busyBaldock_range, ?_, ?_, ?_, ?_, ?_, ?_, ?_, ?_⟩
  · exact (sliced_From _ _ _ _ _).1
  · exact (sliced_From _ _ _ _ _).2
  · decide
  · decide
  · decide
  · decide
  · decide
  · decide

/-- C2: `getStopsBetween` is the input list filtered by the two strict comparisons
`from - 1 minute < stop.Time` and `stop.Time < to + 1 minute` (one minute being
60000000000 ns): the kept stops stand in their input order, nothing is sorted or
duplicated. -/
theorem C2_getStopsBetween_is_filter (stops : List Stop) (from_ to_ : Time) :
    getStopsBetween stops from_ to_ =
      stops.filter (fun stop =>
        decide (from_.nsec - 60000000000 < stop.Time.nsec) &&
        decide (stop.Time.nsec < to_.nsec + 60000000000)) ∧
    (getStopsBetween stops from_ to_).Sublist stops := by
  have hfilter : getStopsBetween stops from_ to_ =
      stops.filter (fun stop =>
        decide (from_.nsec - 60000000000 < stop.Time.nsec) &&
        decide (stop.Time.nsec < to_.nsec + 60000000000)) := by
    rw [getStopsBetween_eq_filter]
    apply List.filter_congr
    intro x _
    rw [Bool.eq_iff_iff, inPaddedWindow_iff]
    simp
  refine ⟨hfilter, ?_⟩
  rw [hfilter]
  exact List.filter_sublist _

/-- C3 as stated fails: a stop at 09:59:30 is returned for the window 10:00-11:00 although
its time is before `from`, and the result has one element while no input stop lies in
`[from, to]`. -/
theorem C3_counterexample :
    ¬ ((∀ x ∈ getStopsBetween [⟨"A", ⟨(clock 10 0).nsec - 30 * Second⟩, "London-Norwich"⟩]
            (clock 10 0) (clock 11 0),
          inWindow (clock 10 0) (clock 11 0) x.Time) ∧
       (getStopsBetween [⟨"A", ⟨(clock 10 0).nsec - 30 * Second⟩, "London-Norwich"⟩]
            (clock 10 0) (clock 11 0)).length =
         ([⟨"A", ⟨(clock 10 0).nsec - 30 * Second⟩, "London-Norwich"⟩] : List Stop).countP
            (fun x => decide (inWindow (clock 10 0) (clock 11 0) x.Time))) := by
  decide

/-- C3, amended: every stop returned by `getStopsBetween` has a time strictly between
`from - 1 minute` and `to + 1 minute`; every input stop whose time is in `[from, to]`,
boundaries included, is returned; and when `from`, `to` and the times of the input stops
are whole minutes, every stop returned has its time in `[from, to]` and the length of the
result is the number of input stops with time in `[from, to]`. -/
theorem C3_getStopsBetween_window (stops : List Stop) (from_ to_ : Time) :
    (∀ x ∈ getStopsBetween stops from_ to_,
        from_.nsec - Minute < x.Time.nsec ∧ x.Time.nsec < to_.nsec + Minute) ∧
    (∀ x ∈ stops, inWindow from_ to_ x.Time → x ∈ getStopsBetween stops from_ to_) ∧
    (wholeMinute from_ → wholeMinute to_ → (∀ x ∈ stops, wholeMinute x.Time) →
      (∀ x ∈ getStopsBetween stops from_ to_, inWindow from_ to_ x.Time) ∧
      (getStopsBetween stops from_ to_).length =
        stops.countP (fun x => decide (inWindow from_ to_ x.Time))) := by
  have hM : Minute = 60000000000 := by decide
  rw [getStopsBetween_eq_filter]
  refine ⟨?_, ?_, ?_⟩
  · intro x hx
    have := (inPaddedWindow_iff from_ to_ x).1 (List.mem_filter.1 hx).2
    rw [hM]
    exact this
  · intro x hx hw
    refine List.mem_filter.2 ⟨hx, (inPaddedWindow_iff from_ to_ x).2 ?_⟩
    unfold inWindow at hw
    omega
  · intro hf ht hs
    have key : ∀ x ∈ stops, (inPaddedWindow from_ to_ x = true ↔ inWindow from_ to_ x.Time) := by
      intro x hx
      rw [inPaddedWindow_iff]
      have hxm := hs x hx
      unfold wholeMinute at hf ht hxm
      rw [hM] at hf ht hxm
      unfold inWindow
      constructor
      · rintro ⟨h1, h2⟩
        constructor <;> omega
      · rintro ⟨h1, h2⟩
        constructor <;> omega
    refine ⟨?_, ?_⟩
    · intro x hx
      obtain ⟨hx1, hx2⟩ := List.mem_filter.1 hx
      exact (key x hx1).1 hx2
    · rw [List.countP_eq_length_filter]
      congr 1
      apply List.filter_congr
      intro x hx
      rw [Bool.eq_iff_iff, key x hx]
      simp

/-- C3, the dataset of `TestGetStopsBetween`: stops at 10:00 and 12:00 give 0 stops for
13:00-15:00, 1 for 10:00-11:00 and 2 for 10:00-12:00, each the count of stops in the
closed window. -/
theorem C3_getStopsBetween_window_witness :
    (getStopsBetween [⟨"A", clock 10 0, "London-Norwich"⟩, ⟨"A", clock 12 0, "London-Norwich"⟩]
        (clock 13 0) (clock 15 0)).length = 0 ∧
    (getStopsBetween [⟨"A", clock 10 0, "London-Norwich"⟩, ⟨"A", clock 12 0, "London-Norwich"⟩]
        (clock 10 0) (clock 11 0)).length = 1 ∧
    (getStopsBetween [⟨"A", clock 10 0, "London-Norwich"⟩, ⟨"A", clock 12 0, "London-Norwich"⟩]
        (clock 10 0) (clock 12 0)).length = 2 ∧
    ∀ x ∈ getStopsBetween
        [⟨"A", clock 10 0, "London-Norwich"⟩, ⟨"A", clock 12 0, "London-Norwich"⟩]
        (clock 10 0) (clock 12 0), inWindow (clock 10 0) (clock 12 0) x.Time :=
  ⟨((C3_getStopsBetween_window _ (clock 13 0) (clock 15 0)).2.2
        (by decide) (by decide) (by decide)).2.trans (by decide),
   ((C3_getStopsBetween_window _ (clock 10 0) (clock 11 0)).2.2
        (by decide) (by decide) (by decide)).2.trans (by decide),
   ((C3_getStopsBetween_window _ (clock 10 0) (clock 12 0)).2.2
        (by decide) (by decide) (by decide)).2.trans (by decide),
   ((C3_getStopsBetween_window _ (clock 10 0) (clock 12 0)).2.2
        (by decide) (by decide) (by decide)).1⟩

/-- C4: the stations of the slice are exactly the stations of the receiver, and a station
none of whose stops is in the window is present in the slice with the empty list
(`sort.Sort` returns the empty slice as it is). -/
theorem C4_sliced_same_stations (sortSort : StopByTime → StopByTime)
    (hnil : sortSort [] = []) (self : Timetable) (order : List String) (from_ to_ : Time)
    (h : RangeOrder self.StopsPerStation order) :
    (∀ s, ((self.getSlicedTimetable sortSort order from_ to_).StopsPerStation s).isSome =
        (self.StopsPerStation s).isSome) ∧
    (∀ s stops, self.StopsPerStation s = some stops → getStopsBetween stops from_ to_ = [] →
      (self.getSlicedTimetable sortSort order from_ to_).StopsPerStation s = some []) := by
  refine ⟨fun s => ?_, fun s stops hs hempty => ?_⟩
  · rw [sliced_lookup sortSort self order from_ to_ h]
    cases self.StopsPerStation s <;> rfl
  · rw [sliced_lookup sortSort self order from_ to_ h, hs]
    simp [hempty, hnil]

/-- C4 on the dataset of `TestGetSlicedTimetable`, sliced 8:00-9:00: Stevenage, Baldock and
Ipswitch are present and empty, and no other station is present. -/
theorem C4_sliced_same_stations_witness :
    goSort [] = [] ∧
    RangeOrder testTimetable.StopsPerStation ["Stevenage", "Baldock", "Ipswitch"] ∧
    (testTimetable.getSlicedTimetable goSort ["Stevenage", "Baldock", "Ipswitch"]
      (clock 8 0) (clock 9 0)).StopsPerStation "Stevenage" = some [] ∧
    (testTimetable.getSlicedTimetable goSort ["Stevenage", "Baldock", "Ipswitch"]
      (clock 8 0) (clock 9 0)).StopsPerStation "Baldock" = some [] ∧
    (testTimetable.getSlicedTimetable goSort ["Stevenage", "Baldock", "Ipswitch"]
      (clock 8 0) (clock 9 0)).StopsPerStation "Ipswitch" = some [] ∧
    ((testTimetable.getSlicedTimetable goSort ["Stevenage", "Baldock", "Ipswitch"]
      (clock 8 0) (clock 9 0)).StopsPerStation "Oxford").isSome = false :=
  have hC4 := C4_sliced_same_stations goSort (by decide) testTimetable
    ["Stevenage", "Baldock", "Ipswitch"] (clock 8 0) (clock 9 0) testTimetable_range
  ⟨by decide, testTimetable_range,
   hC4.2 "Stevenage" [⟨"Stevenage", clock 10 0, "London-Norwich"⟩] (by decide) (by decide),
   hC4.2 "Baldock" [⟨"Baldock", clock 11 0, "London-Norwich"⟩,
     ⟨"Baldock", clock 11 0, "London-Cambridge"⟩] (by decide) (by decide),
   hC4.2 "Ipswitch" [⟨"Ipswitch", clock 12 0, "London-Norwich"⟩] (by decide) (by decide),
   (hC4.1 "Oxford").trans (by decide)⟩

/-- C5: with a `sort.Sort` that meets its contract, every station list of the slice is in
non-decreasing time order: for all indices `i < j`, the stop at `j` is not before the stop
at `i`.  Nothing is assumed about the order of the stored lists. -/
theorem C5_sliced_lists_sorted (sortSort : StopByTime → StopByTime)
    (hsort : SortContract sortSort) (self : Timetable) (order : List String)
    (from_ to_ : Time) (s : String) (l : StopByTime)
    (hl : (self.getSlicedTimetable sortSort order from_ to_).StopsPerStation s = some l)
    (i j : Nat) (hij : i < j) (hj : j < l.length) :
    (l[j]).Time.Before (l[i]).Time = false ∧ (l[i]).Time.nsec ≤ (l[j]).Time.nsec := by
  rw [sliced_lookup_order] at hl
  split at hl
  · have hl' := Option.some.inj hl
    have hc := (hsort (getStopsBetween (self.StopsPerStation.index s) from_ to_)).2 i j hij
      (by rw [hl']; exact hj)
    rw [hl', Less_eq l j i hj (Nat.lt_trans hij hj)] at hc
    have hb := Option.some.inj hc
    refine ⟨hb, ?_⟩
    simp only [Time.Before, decide_eq_false_iff_not] at hb
    omega
  · exact absurd hl (by simp)

/-- C5 on a timetable whose stored list is not sorted: `busyBaldock` keeps its 10:00 stop
after twelve 11:00 stops, and in the slice 10:00-11:00 made with `sort.Sort` the first stop
is not after the last. -/
theorem C5_sliced_lists_sorted_witness :
    SortContract goSort ∧
    ∃ l, (busyBaldock.getSlicedTimetable goSort ["Baldock"] (clock 10 0)
        (clock 11 0)).StopsPerStation "Baldock" = some l ∧
      ∃ h : 12 < l.length, (l[0]).Time.nsec ≤ (l[12]).Time.nsec :=
  ⟨goSort_contract,
   _, rfl, by decide,
   (C5_sliced_lists_sorted goSort goSort_contract busyBaldock ["Baldock"]
      (clock 10 0) (clock 11 0) "Baldock" _ rfl 0 12 (by decide) (by decide)).2⟩

/-- C6: `getSlicedTimetable` does not modify its receiver.  In memory, every backing array,
map and struct that existed before the call is unchanged after it, so the receiver read
after the call (declared window, stations, and the stops of each station in their stored
order) is the receiver read before the call. -/
theorem C6_getSlicedTimetable_keeps_receiver (growCap : Nat → Nat)
    (sortSort : StopByTime → StopByTime) (mem : Memory) (self : Nat) (order : List String)
    (from_ to_ : Time) (hself : mem.Allocated self) :
    mem.arrays <+: (mem.getSlicedTimetable growCap sortSort self order from_ to_).1.arrays ∧
    mem.maps <+: (mem.getSlicedTimetable growCap sortSort self order from_ to_).1.maps ∧
    mem.timetables <+:
      (mem.getSlicedTimetable growCap sortSort self order from_ to_).1.timetables ∧
    (mem.getSlicedTimetable growCap sortSort self order from_ to_).1.timetable self =
      mem.timetable self := by
  have h := Memory.getSlicedTimetable_extends growCap sortSort mem self order from_ to_
  exact ⟨h.1, h.2.1, h.2.2, Memory.timetable_of_extends h self hself⟩

/-- C6 on a receiver whose list is not sorted: "Baldock" stores 11:00 before 10:00; after
slicing 10:00-11:00 the receiver still reads 11:00 then 10:00, while the timetable returned
lists 10:00 then 11:00. -/
theorem C6_getSlicedTimetable_keeps_receiver_witness :
    unsortedMemory.Allocated 0 ∧
    ((unsortedMemory.getSlicedTimetable (fun c => 2 * c) goSort 0 ["Baldock"] (clock 10 0)
        (clock 11 0)).1.timetable 0).StopsPerStation "Baldock" =
      some [⟨"Baldock", clock 11 0, "London-Norwich"⟩,
        ⟨"Baldock", clock 10 0, "London-Cambridge"⟩] ∧
    ((unsortedMemory.getSlicedTimetable (fun c => 2 * c) goSort 0 ["Baldock"] (clock 10 0)
        (clock 11 0)).1.timetable
      (unsortedMemory.getSlicedTimetable (fun c => 2 * c) goSort 0 ["Baldock"] (clock 10 0)
        (clock 11 0)).2).StopsPerStation "Baldock" =
      some [⟨"Baldock", clock 10 0, "London-Cambridge"⟩,
        ⟨"Baldock", clock 11 0, "London-Norwich"⟩] :=
  have hself : unsortedMemory.Allocated 0 :=
    ⟨by decide, by decide, fun s h hs => by
      have harr : h.array = 0 := by
        simp only [Memory.stopsPerStation, unsortedMemory] at hs
        by_cases hB : s = "Baldock"
        · simp [hB] at hs
          rw [← hs]
        · simp [hB] at hs
      rw [harr]
      decide⟩
  ⟨hself,
   (congrArg (fun t => t.StopsPerStation "Baldock")
      (C6_getSlicedTimetable_keeps_receiver (fun c => 2 * c) goSort unsortedMemory 0
        ["Baldock"] (clock 10 0) (clock 11 0) hself).2.2.2).trans (by decide),
   by decide⟩

/-- C7: after any finite sequence of `addStop` calls on `NewTimetable(from, to)`, a station
is in the mapping exactly when some call names it, and the length of its list (0 for a
station that is absent) is the number of calls naming it. -/
theorem C7_addStop_sequence_counts (from_ to_ : Time) (calls : List AddStopCall)
    (s : String) :
    ((((NewTimetable from_ to_).addStops calls).StopsPerStation s).isSome = true ↔
      ∃ c ∈ calls, c.station = s) ∧
    (((NewTimetable from_ to_).addStops calls).StopsPerStation.index s).length =
      calls.countP (fun c => decide (c.station = s)) := by
  have hmem : s ∈ calls.map AddStopCall.station ↔ ∃ c ∈ calls, c.station = s := by
    simp [List.mem_map]
  unfold StationMap.index
  rw [addStops_lookup]
  by_cases hs : s ∈ calls.map AddStopCall.station
  · refine ⟨by simpa [hs] using hmem.1 hs, ?_⟩
    simp [hs, NewTimetable, StationMap.index, List.countP_eq_length_filter]
  · refine ⟨?_, ?_⟩
    · simp only [hs, if_false, NewTimetable]
      constructor
      · intro h
        exact absurd h (by simp)
      · intro h
        exact absurd (hmem.2 h) hs
    · have hcount : calls.countP (fun c => decide (c.station = s)) = 0 := by
        rw [List.countP_eq_zero]
        intro c hc hEq
        exact hs (List.mem_map.2 ⟨c, hc, by simpa using hEq⟩)
      simp [hs, NewTimetable, hcount]

/-- C8: `addStop(route, station, time)` returns the stop made of its three arguments, and
afterwards the station holds its previous list (empty if the station was absent) followed
by exactly that stop. -/
theorem C8_addStop_appends (self : Timetable) (route station : String) (time : Time) :
    (self.addStop route station time).2 =
      { RouteName := route, StationName := station, Time := time } ∧
    (self.addStop route station time).1.StopsPerStation station =
      some ((match self.StopsPerStation station with
              | some stops => stops
              | none => []) ++
            [{ RouteName := route, StationName := station, Time := time }]) := by
  refine ⟨rfl, ?_⟩
  rw [addStop_lookup]
  cases hst : self.StopsPerStation station <;> simp [StationMap.index, hst]

/-- C9: `addStation(s)` returns `s` and leaves `s` present with the empty list, whatever it
held before; the list of every other station, and the declared window, are unchanged. -/
theorem C9_addStation_resets (self : Timetable) (s : String) :
    (self.addStation s).2 = s ∧
    (self.addStation s).1.StopsPerStation s = some [] ∧
    (∀ s', s' ≠ s → (self.addStation s).1.StopsPerStation s' = self.StopsPerStation s') ∧
    (self.addStation s).1.From = self.From ∧
    (self.addStation s).1.To = self.To := by
  refine ⟨rfl, ?_, ?_, rfl, rfl⟩
  · simp [Timetable.addStation, StationMap.assign]
  · intro s' hs'
    simp [Timetable.addStation, StationMap.assign, hs']

/-- C10: two calls of `getSlicedTimetable(from, to)` on the same timetable return equal
timetables, whatever the order in which each call ranges over the map. -/
theorem C10_getSlicedTimetable_deterministic (sortSort : StopByTime → StopByTime)
    (self : Timetable) (order1 order2 : List String) (from_ to_ : Time)
    (h1 : RangeOrder self.StopsPerStation order1)
    (h2 : RangeOrder self.StopsPerStation order2) :
    self.getSlicedTimetable sortSort order1 from_ to_ =
      self.getSlicedTimetable sortSort order2 from_ to_ := by
  have hF1 := sliced_From sortSort self order1 from_ to_
  have hF2 := sliced_From sortSort self order2 from_ to_
  have hmap : (self.getSlicedTimetable sortSort order1 from_ to_).StopsPerStation =
      (self.getSlicedTimetable sortSort order2 from_ to_).StopsPerStation := by
    funext s
    rw [sliced_lookup sortSort self order1 from_ to_ h1,
      sliced_lookup sortSort self order2 from_ to_ h2]
  generalize self.getSlicedTimetable sortSort order1 from_ to_ = t1 at *
  generalize self.getSlicedTimetable sortSort order2 from_ to_ = t2 at *
  cases t1
  cases t2
  simp only [Timetable.mk.injEq] at *
  exact ⟨hF1.1.trans hF2.1.symm, hF1.2.trans hF2.2.symm, hmap⟩

/-- C10 on the dataset of `TestGetSlicedTimetable`: ranging over the stations in two
different orders gives the same slice 10:00-11:00. -/
theorem C10_getSlicedTimetable_deterministic_witness :
    RangeOrder testTimetable.StopsPerStation ["Stevenage", "Baldock", "Ipswitch"] ∧
    RangeOrder testTimetable.StopsPerStation ["Ipswitch", "Stevenage", "Baldock"] ∧
    testTimetable.getSlicedTimetable goSort ["Stevenage", "Baldock", "Ipswitch"]
        (clock 10 0) (clock 11 0) =
      testTimetable.getSlicedTimetable goSort ["Ipswitch", "Stevenage", "Baldock"]
        (clock 10 0) (clock 11 0) :=
  have hrange2 : RangeOrder testTimetable.StopsPerStation
      ["Ipswitch", "Stevenage", "Baldock"] :=
    rangeOrder_addStops _ _ _ _ (by decide) (fun s => by simp; tauto)
  ⟨testTimetable_range, hrange2,
   C10_getSlicedTimetable_deterministic goSort testTimetable _ _ (clock 10 0) (clock 11 0)
     testTimetable_range hrange2⟩

/-- C11: the declared window of the receiver plays no part: after
`addStop(route, station, t)` on any timetable, every slice whose window `[from, to]`
contains `t` lists the stop `{route, station, t}` under `station`, with any `sort.Sort` that
meets its contract. -/
theorem C11_window_not_enforced (sortSort : StopByTime → StopByTime)
    (hsort : SortContract sortSort) (self : Timetable) (route station : String) (t : Time)
    (order : List String) (from_ to_ : Time)
    (horder : RangeOrder (self.addStop route station t).1.StopsPerStation order)
    (ht : inWindow from_ to_ t) :
    ∃ l, ((self.addStop route station t).1.getSlicedTimetable sortSort order from_
        to_).StopsPerStation station = some l ∧
      ({ RouteName := route, StationName := station, Time := t } : Stop) ∈ l := by
  rw [sliced_lookup sortSort _ order from_ to_ horder, addStop_lookup, if_pos rfl]
  refine ⟨_, rfl, ?_⟩
  rw [(hsort _).1.mem_iff, getStopsBetween_eq_filter]
  refine List.mem_filter.2 ⟨by simp, (inPaddedWindow_iff from_ to_ _).2 ?_⟩
  unfold inWindow at ht
  dsimp only
  omega

/-- C11 on a timetable declared 12:00-13:00: a stop added at 09:00, outside that window, is
listed by the slice 08:00-10:00. -/
theorem C11_window_not_enforced_witness :
    SortContract goSort ∧
    RangeOrder ((NewTimetable (clock 12 0) (clock 13 0)).addStop "Norwich-London" "Baldock"
      (clock 9 0)).1.StopsPerStation ["Baldock"] ∧
    inWindow (clock 8 0) (clock 10 0) (clock 9 0) ∧
    ∃ l, (((NewTimetable (clock 12 0) (clock 13 0)).addStop "Norwich-London" "Baldock"
        (clock 9 0)).1.getSlicedTimetable goSort ["Baldock"] (clock 8 0)
        (clock 10 0)).StopsPerStation "Baldock" = some l ∧
      ({ RouteName := "Norwich-London", StationName := "Baldock", Time := clock 9 0 } : Stop)
        ∈ l :=
  have horder : RangeOrder ((NewTimetable (clock 12 0) (clock 13 0)).addStop "Norwich-London"
      "Baldock" (clock 9 0)).1.StopsPerStation ["Baldock"] :=
    rangeOrder_addStops (clock 12 0) (clock 13 0) [⟨"Norwich-London", "Baldock", clock 9 0⟩]
      ["Baldock"] (by decide) (fun s => by simp)
  ⟨goSort_contract, horder, by decide,
   C11_window_not_enforced goSort goSort_contract (NewTimetable (clock 12 0) (clock 13 0))
     "Norwich-London" "Baldock" (clock 9 0) ["Baldock"] (clock 8 0) (clock 10 0) horder
     (by decide)⟩

/-- C12, as first stated, fails on a reversed window: with `from` = 10:01 and `to` = 10:00,
all whole minutes, the stop at exactly `from` and the stop at exactly `to` are not
selected. -/
theorem C12_counterexample :
    wholeMinute (clock 10 1) ∧ wholeMinute (clock 10 0) ∧
    (∀ x ∈ [(⟨"A", clock 10 1, "r1"⟩ : Stop), ⟨"A", clock 10 0, "r2"⟩], wholeMinute x.Time) ∧
    (⟨"A", clock 10 1, "r1"⟩ : Stop) ∉
      getStopsBetween [⟨"A", clock 10 1, "r1"⟩, ⟨"A", clock 10 0, "r2"⟩] (clock 10 1)
        (clock 10 0) ∧
    (⟨"A", clock 10 0, "r2"⟩ : Stop) ∉
      getStopsBetween [⟨"A", clock 10 1, "r1"⟩, ⟨"A", clock 10 0, "r2"⟩] (clock 10 1)
        (clock 10 0) := by
  refine ⟨by decide, by decide, by decide, by decide, by decide⟩

/-- C12: when `from`, `to` and the times of the input stops are whole minutes,
`getStopsBetween` returns exactly the input stops with `from <= time <= to`, in input order;
a stop one minute before `from` or one minute after `to` is not selected, and when
`from <= to` a stop at exactly `from` or exactly `to` is. -/
theorem C12_whole_minutes_inclusive (stops : List Stop) (from_ to_ : Time)
    (hf : wholeMinute from_) (ht : wholeMinute to_) (hs : ∀ x ∈ stops, wholeMinute x.Time) :
    getStopsBetween stops from_ to_ =
      stops.filter (fun x => decide (from_.nsec ≤ x.Time.nsec ∧ x.Time.nsec ≤ to_.nsec)) ∧
    (∀ x ∈ stops, x.Time.nsec = from_.nsec - Minute → x ∉ getStopsBetween stops from_ to_) ∧
    (∀ x ∈ stops, x.Time.nsec = to_.nsec + Minute → x ∉ getStopsBetween stops from_ to_) ∧
    (from_.nsec ≤ to_.nsec →
      (∀ x ∈ stops, x.Time = from_ → x ∈ getStopsBetween stops from_ to_) ∧
      (∀ x ∈ stops, x.Time = to_ → x ∈ getStopsBetween stops from_ to_)) := by
  have hM : Minute = 60000000000 := by decide
  have hfilter : getStopsBetween stops from_ to_ =
      stops.filter (fun x => decide (from_.nsec ≤ x.Time.nsec ∧ x.Time.nsec ≤ to_.nsec)) := by
    rw [getStopsBetween_eq_filter]
    apply List.filter_congr
    intro x hx
    rw [Bool.eq_iff_iff, inPaddedWindow_wholeMinute from_ to_ x hf ht (hs x hx)]
    simp [inWindow]
  refine ⟨hfilter, ?_, ?_, ?_⟩
  · intro x _ hx hmem
    rw [hfilter] at hmem
    have := (List.mem_filter.1 hmem).2
    simp only [decide_eq_true_eq] at this
    rw [hM] at hx
    omega
  · intro x _ hx hmem
    rw [hfilter] at hmem
    have := (List.mem_filter.1 hmem).2
    simp only [decide_eq_true_eq] at this
    rw [hM] at hx
    omega
  · intro hle
    rw [hfilter]
    constructor
    · intro x hx hxt
      refine List.mem_filter.2 ⟨hx, ?_⟩
      rw [hxt]
      simp only [decide_eq_true_eq]
      omega
    · intro x hx hxt
      refine List.mem_filter.2 ⟨hx, ?_⟩
      rw [hxt]
      simp only [decide_eq_true_eq]
      omega

/-- C12 on stops at 09:59, 10:00, 11:00, 12:00 and 12:01 with the window 10:00-12:00: the
stops at 10:00, 11:00 and 12:00 are returned, in that order. -/
theorem C12_whole_minutes_inclusive_witness :
    wholeMinute (clock 10 0) ∧ wholeMinute (clock 12 0) ∧
    getStopsBetween
        [⟨"A", clock 9 59, "r1"⟩, ⟨"A", clock 10 0, "r2"⟩, ⟨"A", clock 11 0, "r3"⟩,
          ⟨"A", clock 12 0, "r4"⟩, ⟨"A", clock 12 1, "r5"⟩]
        (clock 10 0) (clock 12 0) =
      [⟨"A", clock 10 0, "r2"⟩, ⟨"A", clock 11 0, "r3"⟩, ⟨"A", clock 12 0, "r4"⟩] :=
  ⟨by decide, by decide,
   (C12_whole_minutes_inclusive
      [⟨"A", clock 9 59, "r1"⟩, ⟨"A", clock 10 0, "r2"⟩, ⟨"A", clock 11 0, "r3"⟩,
        ⟨"A", clock 12 0, "r4"⟩, ⟨"A", clock 12 1, "r5"⟩]
      (clock 10 0) (clock 12 0) (by decide) (by decide) (by decide)).1.trans (by decide)⟩

/-- C13: `getTextTimetable(from, to)` is the header line
"\nDEPARTURES FROM HH:MM to HH:MM \n" followed by the sections of the stations, in the order
in which the loop ranges over the map of the slice; that order lists every station of the
receiver exactly once.  The section of a station is "\nSTATION: <station>\n", then the line
"HH:MM - <route name>\n" of every stop of the station's list in the slice, in the order of
that list, or the line "-- No departures\n" when that list is empty, then
"---------------------\n".  `HH:MM` is a two-digit hour below 24, a colon and a two-digit
minute below 60. -/
theorem C13_text_timetable (sortSort : StopByTime → StopByTime) (self : Timetable)
    (order order' : List String) (from_ to_ : Time)
    (h : RangeOrder self.StopsPerStation order)
    (h' : RangeOrder (self.getSlicedTimetable sortSort order from_ to_).StopsPerStation
      order') :
    self.getTextTimetable sortSort order order' from_ to_ =
      "\nDEPARTURES FROM " ++ from_.Format ++ " to " ++ to_.Format ++ " \n" ++
      String.join (order'.map (fun station =>
        "\nSTATION: " ++ station ++ "\n" ++
        (if (self.getSlicedTimetable sortSort order from_ to_).StopsPerStation.index station = []
          then "-- No departures\n"
          else String.join
            (((self.getSlicedTimetable sortSort order from_ to_).StopsPerStation.index
              station).map (fun stop => stop.Time.Format ++ " - " ++ stop.RouteName ++ "\n"))) ++
        "---------------------\n")) ∧
    order'.Nodup ∧ (∀ s, s ∈ order' ↔ (self.StopsPerStation s).isSome = true) ∧
    ∀ t : Time, t.Hour < 24 ∧ t.Minute < 60 ∧
      t.Format = String.mk (twoDigits t.Hour ++ ':' :: twoDigits t.Minute) := by
  refine ⟨?_, h'.1, fun s => ?_, fun t => ⟨(Time.Hour_Minute_bounds t).1,
    (Time.Hour_Minute_bounds t).2, rfl⟩⟩
  · unfold Timetable.getTextTimetable
    dsimp only
    rw [strings_Join_header, String.empty_append]
    have hstep : ∀ (buffer : String) (station : String),
        ((if ((self.getSlicedTimetable sortSort order from_ to_).StopsPerStation.index
              station).length > 0 then
            List.foldl
              (fun buffer stop => buffer ++ (stop.Time.Format ++ " - " ++ stop.RouteName ++ "\n"))
              (buffer ++ ("\nSTATION: " ++ station ++ "\n"))
              ((self.getSlicedTimetable sortSort order from_ to_).StopsPerStation.index station)
          else buffer ++ ("\nSTATION: " ++ station ++ "\n") ++ "-- No departures\n") ++
          "---------------------\n") =
        buffer ++ ("\nSTATION: " ++ station ++ "\n" ++
          (if (self.getSlicedTimetable sortSort order from_ to_).StopsPerStation.index station
              = [] then "-- No departures\n"
            else String.join
              (((self.getSlicedTimetable sortSort order from_ to_).StopsPerStation.index
                station).map
                (fun stop => stop.Time.Format ++ " - " ++ stop.RouteName ++ "\n"))) ++
          "---------------------\n") := by
      intro buffer station
      cases hl : (self.getSlicedTimetable sortSort order from_ to_).StopsPerStation.index
        station with
      | nil =>
        simp only [List.length_nil, gt_iff_lt, Nat.lt_irrefl, if_false, if_true,
          String.append_assoc]
      | cons x rest =>
        rw [if_pos (by simp), if_neg (by simp), foldl_append_eq_join]
        simp only [String.append_assoc]
    simp only [hstep]
    exact foldl_append_eq_join _ order' _
  · rw [h'.2 s, sliced_lookup sortSort self order from_ to_ h]
    cases self.StopsPerStation s <;> rfl

set_option maxRecDepth 20000 in
/-- C13 on the dataset of `TestGetSlicedTimetable`, for 10:00-11:00, the stations visited
in the order Baldock, Stevenage, Ipswitch. -/
theorem C13_text_timetable_witness :
    RangeOrder testTimetable.StopsPerStation ["Stevenage", "Baldock", "Ipswitch"] ∧
    RangeOrder (testTimetable.getSlicedTimetable goSort ["Stevenage", "Baldock", "Ipswitch"]
      (clock 10 0) (clock 11 0)).StopsPerStation ["Baldock", "Stevenage", "Ipswitch"] ∧
    testTimetable.getTextTimetable goSort ["Stevenage", "Baldock", "Ipswitch"]
        ["Baldock", "Stevenage", "Ipswitch"] (clock 10 0) (clock 11 0) =
      "\nDEPARTURES FROM 10:00 to 11:00 \n" ++
      "\nSTATION: Baldock\n11:00 - London-Norwich\n11:00 - London-Cambridge\n" ++
      "---------------------\n" ++
      "\nSTATION: Stevenage\n10:00 - London-Norwich\n---------------------\n" ++
      "\nSTATION: Ipswitch\n-- No departures\n---------------------\n" :=
  have h' : RangeOrder (testTimetable.getSlicedTimetable goSort
      ["Stevenage", "Baldock", "Ipswitch"] (clock 10 0) (clock 11 0)).StopsPerStation
      ["Baldock", "Stevenage", "Ipswitch"] :=
    ⟨by decide, fun s => by
      rw [(rangeOrder_sliced goSort testTimetable _ (clock 10 0) (clock 11 0)
        testTimetable_range).2 s |>.symm]
      simp only [List.mem_cons, List.mem_singleton, List.not_mem_nil, or_false]
      tauto⟩
  ⟨testTimetable_range, h',
   (C13_text_timetable goSort testTimetable ["Stevenage", "Baldock", "Ipswitch"]
      ["Baldock", "Stevenage", "Ipswitch"] (clock 10 0) (clock 11 0) testTimetable_range
      h').1.trans (by decide)⟩

/-- C14, on the code: the JSON of a slice has the members `from`, `to` and
`stopsPerStation`, but the object of a stop has the members `StationName`, `Time` and
`RouteName`, the Go names of the fields of `Stop`, and no member `stationName`, `time` or
`routeName`.  Shown for every stop, and on the JSON of the slice 10:00-12:00 of a timetable
with one stop. -/
theorem C14_stop_keys_are_go_field_names :
    (∀ stop : Stop, (Stop.marshal stop).map Json.keys =
      (stop.Time.MarshalJSON).map (fun _ => ["StationName", "Time", "RouteName"])) ∧
    (((NewTimetable (clock 0 0) (clock 23 59)).addStop "London-Norwich" "Baldock"
        (clock 11 0)).1.getJsonTimetable goSort ["Baldock"] ["Baldock"] (clock 10 0)
        (clock 12 0)).map Json.keys = some ["from", "to", "stopsPerStation"] ∧
    (((((NewTimetable (clock 0 0) (clock 23 59)).addStop "London-Norwich" "Baldock"
        (clock 11 0)).1.getJsonTimetable goSort ["Baldock"] ["Baldock"] (clock 10 0)
        (clock 12 0)).bind (fun j => j.member "stopsPerStation")).bind
        (fun j => j.member "Baldock")).map (fun j => j.elems.map Json.keys) =
      some [["StationName", "Time", "RouteName"]] ∧
    (((((NewTimetable (clock 0 0) (clock 23 59)).addStop "London-Norwich" "Baldock"
        (clock 11 0)).1.getJsonTimetable goSort ["Baldock"] ["Baldock"] (clock 10 0)
        (clock 12 0)).bind (fun j => j.member "stopsPerStation")).bind
        (fun j => j.member "Baldock")).map
        (fun j => j.elems.map (fun stop =>
          ((stop.member "stationName").isSome, (stop.member "time").isSome,
            (stop.member "routeName").isSome))) =
      some [(false, false, false)] := by
  refine ⟨fun stop => ?_, by decide, by decide, by decide⟩
  unfold Stop.marshal
  cases stop.Time.MarshalJSON <;> rfl

/-- C15: `parseStringToHourMinute` returns a time exactly on the hour:minute strings (hour
0-23 in one or two digits, a colon, minute 00-59 in two digits), and the time returned is
the time of day with that hour and minute; on every other string it panics with the parse
error (so on "", "abc", "25:00", "10:60" and "10:5"); and on a string that is not empty
`parseParamToTime` has the outcome of `parseStringToHourMinute`. -/
theorem C15_parse_hour_minute :
    (∀ (str : String) (t : Time), parseStringToHourMinute str = some t ↔
      ∃ h m, HourMinuteString str h m ∧ t = clock h m) ∧
    (∀ (str : String) (h m : Nat), HourMinuteString str h m →
      parseStringToHourMinute str = some (clock h m) ∧
      (clock h m).Hour = h ∧ (clock h m).Minute = m) ∧
    (∀ str : String, (¬ ∃ h m, HourMinuteString str h m) →
      parseStringToHourMinute str = none) ∧
    (∀ (now : Time) (s : String), s ≠ "" →
      parseParamToTime now s = parseStringToHourMinute s) ∧
    parseStringToHourMinute "9:00" = some (clock 9 0) ∧
    parseStringToHourMinute "00:00" = some (clock 0 0) ∧
    parseStringToHourMinute "13:00" = some (clock 13 0) ∧
    parseStringToHourMinute "" = none ∧
    parseStringToHourMinute "abc" = none ∧
    parseStringToHourMinute "25:00" = none ∧
    parseStringToHourMinute "10:60" = none ∧
    parseStringToHourMinute "10:5" = none := by
  have hiff : ∀ (str : String) (t : Time), parseStringToHourMinute str = some t ↔
      ∃ h m, HourMinuteString str h m ∧ t = clock h m := by
    intro str t
    rw [parseStringToHourMinute_eq]
    exact time_Parse_eq_some_iff str t
  refine ⟨hiff, ?_, ?_, ?_, by decide, by decide, by decide, by decide, by decide, by decide,
    by decide, by decide⟩
  · intro str h m hs
    exact ⟨(hiff str (clock h m)).2 ⟨h, m, hs, rfl⟩, clock_Hour_Minute h m hs.1 hs.2.1⟩
  · intro str hno
    cases hp : parseStringToHourMinute str with
    | none => rfl
    | some t =>
      obtain ⟨h, m, hs, _⟩ := (hiff str t).1 hp
      exact absurd ⟨h, m, hs⟩ hno
  · intro now s hs
    unfold parseParamToTime
    rw [if_pos hs]

/-- C15 on "7:45", a one-digit hour: it is an hour:minute string for 7 and 45, and
`parseParamToTime` returns the time 07:45 for it. -/
theorem C15_parse_hour_minute_witness :
    HourMinuteString "7:45" 7 45 ∧
    parseParamToTime (clock 12 0) "7:45" = some (clock 7 45) ∧
    (clock 7 45).Format = "07:45" :=
  have hs : HourMinuteString "7:45" 7 45 := ⟨by decide, by decide, Or.inr ⟨by decide, by decide⟩⟩
  ⟨hs,
   (C15_parse_hour_minute.2.2.2.1 (clock 12 0) "7:45" (by decide)).trans
     (C15_parse_hour_minute.2.1 "7:45" 7 45 hs).1,
   by decide⟩

/-- C16: with a `sort.Sort` that meets its contract, the list of a station in the slice is
a permutation of `getStopsBetween` of the list stored for that station: the same stops with
the same multiplicities, so as many as there are stored stops passing the window test. -/
theorem C16_sliced_is_permutation (sortSort : StopByTime → StopByTime)
    (hsort : SortContract sortSort) (self : Timetable) (order : List String)
    (from_ to_ : Time) (horder : RangeOrder self.StopsPerStation order) (s : String)
    (stops : StopByTime) (hs : self.StopsPerStation s = some stops) :
    ∃ l, (self.getSlicedTimetable sortSort order from_ to_).StopsPerStation s = some l ∧
      l.Perm (getStopsBetween stops from_ to_) ∧
      (∀ x, l.count x = (getStopsBetween stops from_ to_).count x) ∧
      l.length = stops.countP (inPaddedWindow from_ to_) := by
  rw [sliced_lookup sortSort self order from_ to_ horder, hs]
  refine ⟨_, rfl, (hsort _).1, fun x => (hsort _).1.count_eq x, ?_⟩
  rw [(hsort _).1.length_eq, getStopsBetween_eq_filter, List.countP_eq_length_filter]

/-- C16 on the dataset of `TestGetSlicedTimetable`: the slice 10:00-11:00 lists two stops
under Baldock, the two stored there. -/
theorem C16_sliced_is_permutation_witness :
    SortContract goSort ∧
    RangeOrder testTimetable.StopsPerStation ["Stevenage", "Baldock", "Ipswitch"] ∧
    ∃ l, (testTimetable.getSlicedTimetable goSort ["Stevenage", "Baldock", "Ipswitch"]
        (clock 10 0) (clock 11 0)).StopsPerStation "Baldock" = some l ∧
      l.length = 2 :=
  have h := C16_sliced_is_permutation goSort goSort_contract testTimetable
    ["Stevenage", "Baldock", "Ipswitch"] (clock 10 0) (clock 11 0) testTimetable_range
    "Baldock"
    [⟨"Baldock", clock 11 0, "London-Norwich"⟩, ⟨"Baldock", clock 11 0, "London-Cambridge"⟩]
    (by decide)
  ⟨goSort_contract, testTimetable_range,
   h.choose, h.choose_spec.1, h.choose_spec.2.2.2.trans (by decide)⟩

/-- C17: `addStop(route, s, time)` leaves the declared window as it was, and for every
station other than `s` it leaves the entry as it was: present exactly when it was present,
with the same list. -/
theorem C17_addStop_frame (self : Timetable) (route s : String) (time : Time) :
    (self.addStop route s time).1.From = self.From ∧
    (self.addStop route s time).1.To = self.To ∧
    ∀ s', s' ≠ s →
      (self.addStop route s time).1.StopsPerStation s' = self.StopsPerStation s' ∧
      ((self.addStop route s time).1.StopsPerStation s').isSome =
        (self.StopsPerStation s').isSome := by
  refine ⟨(addStop_From self route s time).1, (addStop_From self route s time).2, ?_⟩
  intro s' hs'
  have h : (self.addStop route s time).1.StopsPerStation s' = self.StopsPerStation s' := by
    rw [addStop_lookup, if_neg hs']
  exact ⟨h, by rw [h]⟩

/-- C17 on the dataset of `TestGetSlicedTimetable`: adding a stop at Oxford leaves the list
of Baldock and the absence of Cambridge as they were. -/
theorem C17_addStop_frame_witness :
    (testTimetable.addStop "Norwich-London" "Oxford" (clock 10 0)).1.StopsPerStation "Baldock" =
      some [⟨"Baldock", clock 11 0, "London-Norwich"⟩,
        ⟨"Baldock", clock 11 0, "London-Cambridge"⟩] ∧
    ((testTimetable.addStop "Norwich-London" "Oxford" (clock 10 0)).1.StopsPerStation
      "Cambridge").isSome = false :=
  ⟨((C17_addStop_frame testTimetable "Norwich-London" "Oxford" (clock 10 0)).2.2 "Baldock"
      (by decide)).1.trans (by decide),
   ((C17_addStop_frame testTimetable "Norwich-London" "Oxford" (clock 10 0)).2.2 "Cambridge"
      (by decide)).2.trans (by decide)⟩

/-- C18: in every timetable reached from `NewTimetable` by `addStop` and `addStation`
calls, every stop stored under a station key has that station as its `StationName`; and so
has every stop listed under a station in any slice of such a timetable, with any `sort.Sort`
that meets its contract. -/
theorem C18_station_key_matches_field (from0 to0 : Time) (cs : List Call) :
    (∀ s l, ((NewTimetable from0 to0).calls cs).StopsPerStation s = some l →
      ∀ x ∈ l, x.StationName = s) ∧
    ∀ (sortSort : StopByTime → StopByTime), SortContract sortSort →
      ∀ (order : List String) (from_ to_ : Time) (s : String) (l : StopByTime),
        (((NewTimetable from0 to0).calls cs).getSlicedTimetable sortSort order from_
          to_).StopsPerStation s = some l →
        ∀ x ∈ l, x.StationName = s := by
  have hreach : KeyConsistent ((NewTimetable from0 to0).calls cs).StopsPerStation :=
    keyConsistent_calls cs _ (fun s l hl => by simp [NewTimetable] at hl)
  refine ⟨hreach, ?_⟩
  intro sortSort hsort order from_ to_ s l hl x hx
  obtain ⟨l0, hl0, hx0, _⟩ := mem_sliced sortSort hsort _ order from_ to_ s l hl x hx
  exact hreach s l0 hl0 x hx0

/-- C18 on a timetable built with both kinds of call: Baldock is reset after its first stop
and then receives another one, which the slice 10:00-12:00 lists with station Baldock. -/
theorem C18_station_key_matches_field_witness :
    SortContract goSort ∧
    ((NewTimetable (clock 0 0) (clock 23 59)).calls
        [Call.addStop "London-Norwich" "Baldock" (clock 11 0), Call.addStation "Baldock",
          Call.addStop "London-Cambridge" "Baldock" (clock 11 30)]).StopsPerStation "Baldock" =
      some [⟨"Baldock", clock 11 30, "London-Cambridge"⟩] ∧
    ∀ x ∈ [(⟨"Baldock", clock 11 30, "London-Cambridge"⟩ : Stop)], x.StationName = "Baldock" :=
  ⟨goSort_contract, by decide,
   ((C18_station_key_matches_field (clock 0 0) (clock 23 59)
      [Call.addStop "London-Norwich" "Baldock" (clock 11 0), Call.addStation "Baldock",
        Call.addStop "London-Cambridge" "Baldock" (clock 11 30)]).2 goSort goSort_contract
      ["Baldock"] (clock 10 0) (clock 12 0) "Baldock"
      [⟨"Baldock", clock 11 30, "London-Cambridge"⟩] (by decide))⟩

/-- C19, as first stated, fails for a `sort.Sort` that meets its contract and is not
stable: on the dataset of `TestGetSlicedTimetable`, with the routine that sorts the slice
read backwards, the slice 10:00-11:00 lists London-Cambridge before London-Norwich under
Baldock, and the slice of that slice for 10:00-11:00 lists London-Norwich first. -/
theorem C19_counterexample :
    SortContract reverseThenSort ∧
    RangeOrder testTimetable.StopsPerStation ["Stevenage", "Baldock", "Ipswitch"] ∧
    (testTimetable.getSlicedTimetable reverseThenSort ["Stevenage", "Baldock", "Ipswitch"]
      (clock 10 0) (clock 11 0)).StopsPerStation "Baldock" =
      some [⟨"Baldock", clock 11 0, "London-Cambridge"⟩,
        ⟨"Baldock", clock 11 0, "London-Norwich"⟩] ∧
    ((testTimetable.getSlicedTimetable reverseThenSort ["Stevenage", "Baldock", "Ipswitch"]
      (clock 10 0) (clock 11 0)).getSlicedTimetable reverseThenSort
      ["Stevenage", "Baldock", "Ipswitch"] (clock 10 0) (clock 11 0)).StopsPerStation
      "Baldock" =
      some [⟨"Baldock", clock 11 0, "London-Norwich"⟩,
        ⟨"Baldock", clock 11 0, "London-Cambridge"⟩] ∧
    (testTimetable.getSlicedTimetable reverseThenSort ["Stevenage", "Baldock", "Ipswitch"]
      (clock 10 0) (clock 11 0)).getSlicedTimetable reverseThenSort
      ["Stevenage", "Baldock", "Ipswitch"] (clock 10 0) (clock 11 0) ≠
      testTimetable.getSlicedTimetable reverseThenSort ["Stevenage", "Baldock", "Ipswitch"]
        (clock 10 0) (clock 11 0) := by
  have h1 : (testTimetable.getSlicedTimetable reverseThenSort
      ["Stevenage", "Baldock", "Ipswitch"] (clock 10 0) (clock 11 0)).StopsPerStation
      "Baldock" =
      some [⟨"Baldock", clock 11 0, "London-Cambridge"⟩,
        ⟨"Baldock", clock 11 0, "London-Norwich"⟩] := by decide
  have h2 : ((testTimetable.getSlicedTimetable reverseThenSort
      ["Stevenage", "Baldock", "Ipswitch"] (clock 10 0) (clock 11 0)).getSlicedTimetable
      reverseThenSort ["Stevenage", "Baldock", "Ipswitch"] (clock 10 0)
      (clock 11 0)).StopsPerStation "Baldock" =
      some [⟨"Baldock", clock 11 0, "London-Norwich"⟩,
        ⟨"Baldock", clock 11 0, "London-Cambridge"⟩] := by decide
  refine ⟨reverseThenSort_contract, testTimetable_range, h1, h2, fun heq => ?_⟩
  have h3 := congrArg (fun t => t.StopsPerStation "Baldock") heq
  dsimp only at h3
  rw [h1, h2] at h3
  exact absurd h3 (by decide)

/-- C19: with a `sort.Sort` that meets its contract, the slice of a slice for the same
window has the same window and the same stations, and the list of every station holds the
same stops with the same times position by position.  The list is identical element for
element when no two of its stops have equal times, and the two timetables are equal when
`sort.Sort` returns a slice that is already in ascending order as it is. -/
theorem C19_slicing_twice (sortSort : StopByTime → StopByTime)
    (hsort : SortContract sortSort) (self : Timetable) (order order' : List String)
    (from_ to_ : Time) (h : RangeOrder self.StopsPerStation order)
    (h' : RangeOrder (self.getSlicedTimetable sortSort order from_ to_).StopsPerStation
      order') :
    ((self.getSlicedTimetable sortSort order from_ to_).getSlicedTimetable sortSort order'
      from_ to_).From = (self.getSlicedTimetable sortSort order from_ to_).From ∧
    ((self.getSlicedTimetable sortSort order from_ to_).getSlicedTimetable sortSort order'
      from_ to_).To = (self.getSlicedTimetable sortSort order from_ to_).To ∧
    (∀ s, (((self.getSlicedTimetable sortSort order from_ to_).getSlicedTimetable sortSort
        order' from_ to_).StopsPerStation s).isSome =
      ((self.getSlicedTimetable sortSort order from_ to_).StopsPerStation s).isSome) ∧
    (∀ s l, (self.getSlicedTimetable sortSort order from_ to_).StopsPerStation s = some l →
      ∃ l', ((self.getSlicedTimetable sortSort order from_ to_).getSlicedTimetable sortSort
          order' from_ to_).StopsPerStation s = some l' ∧
        l'.Perm l ∧ l'.map (fun x => x.Time) = l.map (fun x => x.Time) ∧
        ((l.map (fun x => x.Time)).Nodup → l' = l)) ∧
    ((∀ l : StopByTime, SortedOn l 0 l.length → sortSort l = l) →
      (self.getSlicedTimetable sortSort order from_ to_).getSlicedTimetable sortSort order'
        from_ to_ = self.getSlicedTimetable sortSort order from_ to_) := by
  have hlist : ∀ s l,
      (self.getSlicedTimetable sortSort order from_ to_).StopsPerStation s = some l →
      ∃ l', ((self.getSlicedTimetable sortSort order from_ to_).getSlicedTimetable sortSort
          order' from_ to_).StopsPerStation s = some l' ∧
        l'.Perm l ∧ l'.map (fun x => x.Time) = l.map (fun x => x.Time) ∧
        ((l.map (fun x => x.Time)).Nodup → l' = l) := by
    intro s l hl
    have hl0 := hl
    rw [sliced_lookup sortSort self order from_ to_ h] at hl0
    cases hst : self.StopsPerStation s with
    | none => rw [hst] at hl0; exact absurd hl0 (by simp)
    | some stops =>
      rw [hst] at hl0
      have hl1 : sortSort (getStopsBetween stops from_ to_) = l := Option.some.inj hl0
      have hsel : getStopsBetween l from_ to_ = l := by
        rw [getStopsBetween_eq_filter l]
        apply List.filter_eq_self.2
        intro x hx
        rw [← hl1] at hx
        have hx' := ((hsort _).1.mem_iff).1 hx
        rw [getStopsBetween_eq_filter] at hx'
        exact (List.mem_filter.1 hx').2
      have hperm : (sortSort l).Perm l := (hsort l).1
      have htimes : (sortSort l).map (fun x => x.Time) = l.map (fun x => x.Time) :=
        times_eq_of_perm_of_sorted l (sortSort l) hperm
          (by rw [← hl1]; exact sortedOn_of_contract sortSort hsort _)
          (sortedOn_of_contract sortSort hsort l)
      refine ⟨sortSort l, ?_, hperm, htimes, eq_of_perm_of_times l (sortSort l) hperm htimes⟩
      rw [sliced_lookup sortSort _ order' from_ to_ h', hl, Option.map_some', hsel]
  refine ⟨?_, ?_, fun s => ?_, hlist, fun hfix =>
    sliced_twice sortSort hsort hfix self order order' from_ to_ h h'⟩
  · rw [(sliced_From sortSort _ order' from_ to_).1, (sliced_From sortSort _ order from_ to_).1]
  · rw [(sliced_From sortSort _ order' from_ to_).2, (sliced_From sortSort _ order from_ to_).2]
  · rw [sliced_lookup sortSort _ order' from_ to_ h']
    cases (self.getSlicedTimetable sortSort order from_ to_).StopsPerStation s <;> rfl

/-- C19 on the dataset of `TestGetSlicedTimetable`, with the implementation of Go 1.19 and
later, which returns a slice in ascending order as it is: the slice 10:00-11:00, sliced
again for 10:00-11:00 with the stations visited in another order, still lists London-Norwich
before London-Cambridge under Baldock. -/
theorem C19_slicing_twice_witness :
    SortContract goSort ∧
    RangeOrder testTimetable.StopsPerStation ["Stevenage", "Baldock", "Ipswitch"] ∧
    RangeOrder (testTimetable.getSlicedTimetable goSort ["Stevenage", "Baldock", "Ipswitch"]
      (clock 10 0) (clock 11 0)).StopsPerStation ["Ipswitch", "Baldock", "Stevenage"] ∧
    (∀ l : StopByTime, SortedOn l 0 l.length → goSort l = l) ∧
    ((testTimetable.getSlicedTimetable goSort ["Stevenage", "Baldock", "Ipswitch"]
      (clock 10 0) (clock 11 0)).getSlicedTimetable goSort ["Ipswitch", "Baldock", "Stevenage"]
      (clock 10 0) (clock 11 0)).StopsPerStation "Baldock" =
      some [⟨"Baldock", clock 11 0, "London-Norwich"⟩,
        ⟨"Baldock", clock 11 0, "London-Cambridge"⟩] :=
  have h' : RangeOrder (testTimetable.getSlicedTimetable goSort
      ["Stevenage", "Baldock", "Ipswitch"] (clock 10 0) (clock 11 0)).StopsPerStation
      ["Ipswitch", "Baldock", "Stevenage"] :=
    ⟨by decide, fun s => by
      rw [(rangeOrder_sliced goSort testTimetable _ (clock 10 0) (clock 11 0)
        testTimetable_range).2 s |>.symm]
      simp only [List.mem_cons, List.mem_singleton, List.not_mem_nil, or_false]
      tauto⟩
  ⟨goSort_contract, testTimetable_range, h', goSort_sorted,
   (congrArg (fun t => t.StopsPerStation "Baldock")
      ((C19_slicing_twice goSort goSort_contract testTimetable
        ["Stevenage", "Baldock", "Ipswitch"] ["Ipswitch", "Baldock", "Stevenage"] (clock 10 0)
        (clock 11 0) testTimetable_range h').2.2.2.2 goSort_sorted)).trans (by decide)⟩

/-- C20: a window with `to + 2 minutes <= from` selects nothing and is not an error:
`getStopsBetween` returns the empty list, and `getSlicedTimetable` returns the declared
window `(from, to)` and every station of the receiver with an empty list (`sort.Sort`
returns the empty slice as it is). -/
theorem C20_reversed_window_selects_nothing (from_ to_ : Time)
    (hrev : to_.nsec + 2 * Minute ≤ from_.nsec) :
    (∀ stops : List Stop, getStopsBetween stops from_ to_ = []) ∧
    ∀ (sortSort : StopByTime → StopByTime), sortSort [] = [] →
      ∀ (self : Timetable) (order : List String), RangeOrder self.StopsPerStation order →
        (self.getSlicedTimetable sortSort order from_ to_).From = from_ ∧
        (self.getSlicedTimetable sortSort order from_ to_).To = to_ ∧
        ∀ s, (self.getSlicedTimetable sortSort order from_ to_).StopsPerStation s =
          (self.StopsPerStation s).map (fun _ => []) := by
  have hM : Minute = 60000000000 := by decide
  have hempty : ∀ stops : List Stop, getStopsBetween stops from_ to_ = [] := by
    intro stops
    rw [getStopsBetween_eq_filter, List.filter_eq_nil_iff]
    intro x _ hx
    have := (inPaddedWindow_iff from_ to_ x).1 hx
    rw [hM] at hrev
    omega
  refine ⟨hempty, ?_⟩
  intro sortSort hnil self order horder
  refine ⟨(sliced_From sortSort self order from_ to_).1,
    (sliced_From sortSort self order from_ to_).2, fun s => ?_⟩
  rw [sliced_lookup sortSort self order from_ to_ horder]
  cases self.StopsPerStation s with
  | none => rfl
  | some stops => simp [hempty, hnil]

/-- C20 on the dataset of `TestGetSlicedTimetable` with the window 11:00-10:00: nothing is
selected from stops at 10:00 and 11:00, and Baldock is present and empty. -/
theorem C20_reversed_window_selects_nothing_witness :
    (clock 10 0).nsec + 2 * Minute ≤ (clock 11 0).nsec ∧
    getStopsBetween [⟨"A", clock 10 0, "London-Norwich"⟩, ⟨"A", clock 11 0, "London-Norwich"⟩]
      (clock 11 0) (clock 10 0) = [] ∧
    (testTimetable.getSlicedTimetable goSort ["Stevenage", "Baldock", "Ipswitch"] (clock 11 0)
      (clock 10 0)).StopsPerStation "Baldock" = some [] :=
  have h := C20_reversed_window_selects_nothing (clock 11 0) (clock 10 0) (by decide)
  ⟨by decide, h.1 _,
   ((h.2 goSort (by decide) testTimetable ["Stevenage", "Baldock", "Ipswitch"]
      testTimetable_range).2.2 "Baldock").trans (by decide)⟩

end Srm17
